import Mathlib

/-!
Verification development for the zero-elimination / domain-simplification
engine (src/pass/zero_elimination.cc).  The integer/boolean expression IR is
embedded as an inductive type with a denotational semantics into the
mathematical integers (booleans are the values 0 and 1, matching the
UInt(1) representation of the source IR).  External collaborators of the
engine (the base simplifier, linear-equation detection, interval range
evaluation, side-effect analysis) are modelled as oracle parameters with
soundness contracts taken from their documented interfaces.
-/

set_option maxHeartbeats 1000000

namespace ZE

/-- Binary operator tags of the expression IR: Add, Sub, Mul, truncating
Div/Mod, FloorDiv/FloorMod, Min, Max, the six comparisons, And, Or.  The
C++ source uses one node class per operator; a tagged binary node is the
equivalent sum-typed presentation. -/
inductive BinOp where
  | add | sub | mul | tdiv | tmod | fdiv | fmod
  | bmin | bmax
  | beq | bne | blt | ble | bgt | bge
  | band | bor
deriving DecidableEq, Repr

/-- Expression IR fragment manipulated by zero_elimination.cc.  Variables
are integer-typed and identified by numbers.  IfThenElse is the
Call node of the tvm_if_then_else intrinsic; Cast models integer casts
(machine widths are collapsed to mathematical integers).  Halide calls,
float and string constants and statement nodes are outside the fragment
the verified claims are about. -/
inductive Expr where
  | IntImm (v : Int)
  | BoolImm (b : Bool)
  | Var (v : Nat)
  | Bin (op : BinOp) (a b : Expr)
  | Not (a : Expr)
  | Select (c t f : Expr)
  | IfThenElse (c t f : Expr)
  | Cast (a : Expr)
deriving DecidableEq, Repr

/-- Evaluation of a binary operator on integer values.  Booleans are 0/1;
comparisons and connectives produce 0/1.  Truncating division and modulo
follow the C semantics (Int.div, Int.mod); floor division and modulo are
Int.fdiv, Int.fmod. -/
def evalBin (op : BinOp) (x y : Int) : Int :=
  match op with
  | .add => x + y
  | .sub => x - y
  | .mul => x * y
  | .tdiv => Int.tdiv x y
  | .tmod => Int.tmod x y
  | .fdiv => Int.fdiv x y
  | .fmod => Int.fmod x y
  | .bmin => min x y
  | .bmax => max x y
  | .beq => if x = y then 1 else 0
  | .bne => if x = y then 0 else 1
  | .blt => if x < y then 1 else 0
  | .ble => if x ≤ y then 1 else 0
  | .bgt => if y < x then 1 else 0
  | .bge => if y ≤ x then 1 else 0
  | .band => if x ≠ 0 ∧ y ≠ 0 then 1 else 0
  | .bor => if x ≠ 0 ∨ y ≠ 0 then 1 else 0

/-- Denotational semantics of an expression under a variable assignment.
A Select or if_then_else takes the true branch when the condition is
nonzero, mirroring the IR where a boolean is a nonzero value. -/
def eval (σ : Nat → Int) : Expr → Int
  | .IntImm v => v
  | .BoolImm b => if b then 1 else 0
  | .Var v => σ v
  | .Bin op a b => evalBin op (eval σ a) (eval σ b)
  | .Not a => if eval σ a ≠ 0 then 0 else 1
  | .Select c t f => if eval σ c ≠ 0 then eval σ t else eval σ f
  | .IfThenElse c t f => if eval σ c ≠ 0 then eval σ t else eval σ f
  | .Cast a => eval σ a

/-- The type().is_bool() test of the IR: comparisons, connectives and
boolean constants are boolean; a Select or if_then_else is boolean when
its branches are; a Mul of booleans is boolean (UInt(1) in the source). -/
def isBool : Expr → Bool
  | .BoolImm _ => true
  | .Bin op a b =>
      match op with
      | .beq | .bne | .blt | .ble | .bgt | .bge | .band | .bor => true
      | .mul => isBool a && isBool b
      | _ => false
  | .Not _ => true
  | .Select _ t f => isBool t && isBool f
  | .IfThenElse _ t f => isBool t && isBool f
  | _ => false

/-- Structural test for an occurrence of a variable (ExprUseVar for a
single variable; there are no binders in the embedded fragment). -/
def occurs (v : Nat) : Expr → Bool
  | .IntImm _ => false
  | .BoolImm _ => false
  | .Var w => w = v
  | .Bin _ a b => occurs v a || occurs v b
  | .Not a => occurs v a
  | .Select c t f => occurs v c || occurs v t || occurs v f
  | .IfThenElse c t f => occurs v c || occurs v t || occurs v f
  | .Cast a => occurs v a

/-- Variable maps (the Map of the source) as association lists with
first-match lookup. -/
abbrev VMap (α : Type) := List (Nat × α)

/-- Lookup in a variable map (Map::operator[] / count). -/
def lookupVar (m : VMap α) (v : Nat) : Option α := List.lookup v m

/-- Map::Set: bind a key, replacing any previous binding. -/
def mapSet (v : Nat) (x : α) (m : VMap α) : VMap α :=
  (v, x) :: m.filter (fun p => p.1 ≠ v)

/-- Substitution of variables by expressions (the external Substitute on
the binder-free fragment). -/
def subst (m : VMap Expr) : Expr → Expr
  | .IntImm v => .IntImm v
  | .BoolImm b => .BoolImm b
  | .Var v => (lookupVar m v).getD (.Var v)
  | .Bin op a b => .Bin op (subst m a) (subst m b)
  | .Not a => .Not (subst m a)
  | .Select c t f => .Select (subst m c) (subst m t) (subst m f)
  | .IfThenElse c t f => .IfThenElse (subst m c) (subst m t) (subst m f)
  | .Cast a => .Cast (subst m a)

/-- A Range of the IR: a pair (min, extent) of expressions. -/
structure Rng where
  rmin : Expr
  extent : Expr
deriving DecidableEq, Repr

/-- An assignment respects a range map when every mapped variable lies in
the half-open interval given by its range. -/
def satisfies (σ : Nat → Int) (R : VMap Rng) : Prop :=
  ∀ v r, lookupVar R v = some r →
    eval σ r.rmin ≤ σ v ∧ σ v < eval σ r.rmin + eval σ r.extent

/-- The is_const_int test: an integer or boolean immediate with the given
value. -/
def isConstInt (e : Expr) (n : Int) : Bool :=
  match e with
  | .IntImm v => v = n
  | .BoolImm b => (if b then (1 : Int) else 0) = n
  | _ => false

/-- External collaborators of the engine, kept abstract: the base
simplifier (SuperSimplify delegates to it), linear-equation detection
(DetectLinearEquation: coefficients of the given variables followed by
the remaining term), interval evaluation (EvalSet composed with
cover_range, returning none for an undefined range) and the side-effect
analysis HasSideEffect. -/
structure Oracles where
  simp : Expr → VMap Rng → Expr
  detect : Expr → List Nat → Option (List Expr)
  evalSet : Expr → VMap Rng → Option Rng
  hasSideEffect : Expr → Bool

/-- Contract of the base simplifier: it preserves the denotation on every
assignment respecting the range context. -/
def SimpSound (O : Oracles) : Prop :=
  ∀ e R σ, satisfies σ R → eval σ (O.simp e R) = eval σ e

/-- CanProve of the source: the simplified expression is the constant
one/true. -/
def CanProve (O : Oracles) (e : Expr) (R : VMap Rng) : Bool :=
  isConstInt (O.simp e R) 1

/-- The is_const_value(e, 0) test used by NonzeronessCondition. -/
def isConstZero (e : Expr) : Bool := isConstInt e 0

/-- Zero constant of the type of an expression (make_zero): false for a
boolean, the integer 0 otherwise. -/
def zeroOf (e : Expr) : Expr := if isBool e then .BoolImm false else .IntImm 0

/-- SelectElseZero: the select(cond, on_true, 0) helper. -/
def SelectElseZero (c v : Expr) : Expr := .Select c v (zeroOf v)

/-- Result of NonzeronessCondition: a pair (cond, value) with the original
expression equivalent to select(cond, value, 0). -/
structure NonzeronessConditionResult where
  cond : Expr
  value : Expr
deriving DecidableEq, Repr

/-- The to_expr of a NonzeronessConditionResult. -/
def NonzeronessConditionResult.to_expr (r : NonzeronessConditionResult) : Expr :=
  SelectElseZero r.cond r.value

/-- BinOpAddLike_ of NonzeronessConditionFunctor: combine the child
conditions with Or; a child whose condition differs from the combined
one is guarded by its own select. -/
def nzAddLike (O : Oracles) (op : BinOp) (nza nzb : NonzeronessConditionResult) :
    NonzeronessConditionResult :=
  if nza.cond = nzb.cond then ⟨nza.cond, .Bin op nza.value nzb.value⟩
  else
    let newCond := O.simp (.Bin .bor nza.cond nzb.cond) []
    let newA := if nza.cond = newCond then nza.value else nza.to_expr
    let newB := if nzb.cond = newCond then nzb.value else nzb.to_expr
    ⟨newCond, .Bin op newA newB⟩

/-- BinOpMulLike_ of NonzeronessConditionFunctor: combine with And. -/
def nzMulLike (O : Oracles) (op : BinOp) (nza nzb : NonzeronessConditionResult) :
    NonzeronessConditionResult :=
  ⟨O.simp (.Bin .band nza.cond nzb.cond) [], .Bin op nza.value nzb.value⟩

/-- The Select case of NonzeronessConditionFunctor: collapse the select
when one branch value is the constant zero. -/
def nzSelect (O : Oracles) (c : Expr) (nza nzb : NonzeronessConditionResult) :
    NonzeronessConditionResult :=
  if isConstZero nzb.value then
    ⟨O.simp (.Bin .band nza.cond c) [], nza.value⟩
  else if isConstZero nza.value then
    ⟨O.simp (.Bin .band nzb.cond (.Not c)) [], nzb.value⟩
  else
    ⟨O.simp (.Bin .bor (.Bin .band c nza.cond) (.Bin .band (.Not c) nzb.cond)) [],
     .Select c nza.value nzb.value⟩

/-- NonzeronessConditionFunctor of the source.  Boolean expressions are
nonzero exactly when true; constants map to constant conditions; Add,
Sub, Min, Max combine conditions with Or; Mul with And; divisions
inherit the numerator condition; Select may collapse when a branch value
is the constant zero; the if_then_else call is always preserved; Cast
inherits the operand condition.  The same_as pointer shortcuts of the
source return results that are structurally identical to the rebuilt
nodes, so they are not modelled separately. -/
def NonzeronessCondition (O : Oracles) (e : Expr) : NonzeronessConditionResult :=
  if isBool e then ⟨e, .BoolImm true⟩ else
  match e with
  | .IntImm v => if v = 0 then ⟨.BoolImm false, e⟩ else ⟨.BoolImm true, e⟩
  | .BoolImm b => if b then ⟨.BoolImm true, e⟩ else ⟨.BoolImm false, e⟩
  | .Var _ => ⟨.BoolImm true, e⟩
  | .Bin op a b =>
      match op with
      | .add | .sub | .bmin | .bmax =>
          nzAddLike O op (NonzeronessCondition O a) (NonzeronessCondition O b)
      | .mul =>
          nzMulLike O .mul (NonzeronessCondition O a) (NonzeronessCondition O b)
      | .tdiv | .tmod | .fdiv | .fmod =>
          ⟨(NonzeronessCondition O a).cond, .Bin op (NonzeronessCondition O a).value b⟩
      | _ => ⟨.BoolImm true, e⟩
  | .Not _ => ⟨.BoolImm true, e⟩
  | .Select c t f =>
      nzSelect O c (NonzeronessCondition O t) (NonzeronessCondition O f)
  | .IfThenElse c t f =>
      ⟨O.simp (.Bin .bor (.Bin .band c (NonzeronessCondition O t).cond)
                         (.Bin .band (.Not c) (NonzeronessCondition O f).cond)) [],
       .IfThenElse c (NonzeronessCondition O t).value (NonzeronessCondition O f).value⟩
  | .Cast a =>
      ⟨(NonzeronessCondition O a).cond, .Cast (NonzeronessCondition O a).value⟩

/-- LiftNonzeronessCondition: wrap the result as select(cond, value, 0). -/
def LiftNonzeronessCondition (O : Oracles) (e : Expr) : Expr :=
  (NonzeronessCondition O e).to_expr

/-- ImplicationNotContainingVars: extract from cond an implied conjunct
not containing the given variables, returning (outer, inner). -/
def ImplicationNotContainingVars (cond : Expr) (vars : List Nat) : Expr × Expr :=
  match cond with
  | .Bin .band a b =>
      let pa := ImplicationNotContainingVars a vars
      let pb := ImplicationNotContainingVars b vars
      (.Bin .band pa.1 pb.1, .Bin .band pa.2 pb.2)
  | .Bin .bor a b =>
      let pa := ImplicationNotContainingVars a vars
      let pb := ImplicationNotContainingVars b vars
      (.Bin .bor pa.1 pb.1,
       .Bin .band (.Bin .band (.Bin .bor pa.1 pb.2) (.Bin .bor pb.1 pa.2))
                  (.Bin .bor pa.2 pb.2))
  | e => if vars.any (fun v => occurs v e) then (.BoolImm true, e) else (e, .BoolImm true)

/-- DivMode of the div/mod eliminator: truncated or floor division. -/
inductive DivMode where
  | kTruncDiv | kFloorDiv
deriving DecidableEq, Repr

/-- DivImpl: the division node of the given mode. -/
def DivImpl (a b : Expr) (m : DivMode) : Expr :=
  match m with
  | .kTruncDiv => .Bin .tdiv a b
  | .kFloorDiv => .Bin .fdiv a b

/-- ModImpl: the modulo node of the given mode. -/
def ModImpl (a b : Expr) (m : DivMode) : Expr :=
  match m with
  | .kTruncDiv => .Bin .tmod a b
  | .kFloorDiv => .Bin .fmod a b

/-- Accumulating state of EliminateDivModMutator: the substitution map
from new variables to div/mod expressions over the original variables,
the list of new variables, the defining conditions, the growing range
map, the naming counter idx, the memo map expr_to_vars_ keyed by
(mode, expression, divisor), and the base used to build fresh variable
identifiers (the source builds fresh names from the counter; here the
div and mod variables of step idx get identifiers base + 2*idx and
base + 2*idx + 1). -/
structure ElimState where
  substitution : VMap Expr
  new_variables : List Nat
  conditions : List Expr
  ranges : VMap Rng
  idx : Nat
  exprToVars : List ((DivMode × Expr × Int) × (Nat × Nat))
  base : Nat
deriving Repr

/-- Lookup in the expr_to_vars_ memo map. -/
def lookupMemo (m : List ((DivMode × Expr × Int) × (Nat × Nat)))
    (k : DivMode × Expr × Int) : Option (Nat × Nat) :=
  (m.find? (fun p => p.1 == k)).map (fun p => p.2)

/-- AddNewVarPair of EliminateDivModMutator.  The naming counter is
incremented first; then the ranges of the div and mod expressions are
inferred with the external interval evaluator, and if either is
undefined the replacement is refused: no variables, conditions or
ranges are recorded (only the counter has moved).  Otherwise the fresh
pair is recorded together with the defining condition
mut == div * val + mod, and, when the mod range is not provably within
the divisor, the sign-consistency condition
select(e >= 0, mod >= 0, mod <= 0). -/
def AddNewVarPair (O : Oracles) (e emut : Expr) (val : Int) (mode : DivMode)
    (s : ElimState) : Option (Nat × Nat) × ElimState :=
  match (if e = emut then none else lookupMemo s.exprToVars (mode, emut, val)) with
  | some p => (some p, s)
  | none =>
      let valE : Expr := .IntImm val
      let idx := s.idx + 1
      match O.evalSet (DivImpl emut valE mode) s.ranges,
            O.evalSet (ModImpl emut valE mode) s.ranges with
      | some divRange, some modRange =>
          let div := s.base + 2 * idx
          let mod := s.base + 2 * idx + 1
          let newSubst :=
            mapSet mod (ModImpl (subst s.substitution emut) valE mode)
              (mapSet div (DivImpl (subst s.substitution emut) valE mode) s.substitution)
          let baseConds := s.conditions ++
            [.Bin .beq emut (.Bin .add (.Bin .mul (.Var div) valE) (.Var mod))]
          let newConds :=
            if CanProve O (.Bin .ble modRange.extent valE) [] then baseConds
            else baseConds ++
              [.Select (.Bin .bge e (.IntImm 0)) (.Bin .bge (.Var mod) (.IntImm 0))
                 (.Bin .ble (.Var mod) (.IntImm 0))]
          let newMemo :=
            (if e = emut then [] else [((mode, emut, val), (div, mod))]) ++
              (((mode, e, val), (div, mod)) :: s.exprToVars)
          (some (div, mod),
           { s with substitution := newSubst,
                    new_variables := s.new_variables ++ [div, mod],
                    conditions := newConds,
                    ranges := mapSet mod modRange (mapSet div divRange s.ranges),
                    idx := idx,
                    exprToVars := newMemo })
      | _, _ => (none, { s with idx := idx })

/-- Extra termination weight of a division or modulo by a negative
integer constant (the eliminator first rewrites it to a positive one,
temporarily growing the term). -/
def negAdj (op : BinOp) (b : Expr) : Nat :=
  match op, b with
  | .tdiv, .IntImm c | .tmod, .IntImm c | .fdiv, .IntImm c | .fmod, .IntImm c =>
      if c < 0 then 8 else 0
  | _, _ => 0

/-- Termination measure for the div/mod eliminating mutator. -/
def divSize : Expr → Nat
  | .IntImm _ => 1
  | .BoolImm _ => 1
  | .Var _ => 1
  | .Bin op a b => divSize a + divSize b + 1 + negAdj op b
  | .Not a => divSize a + 1
  | .Select c t f => divSize c + divSize t + divSize f + 1
  | .IfThenElse c t f => divSize c + divSize t + divSize f + 1
  | .Cast a => divSize a + 1

/-- EliminateDivModMutator::Mutate.  Divisions and modulos by a nonzero
integer constant are rewritten: a negative constant is removed first
with the sign identities, then a memoized or fresh variable pair is
used; when AddNewVarPair refuses, the node is rebuilt over the mutated
numerator.  All other nodes are rebuilt from recursively mutated
children in source order. -/
def elimMutate (O : Oracles) : Expr → ElimState → Expr × ElimState
  | .IntImm v, s => (.IntImm v, s)
  | .BoolImm b, s => (.BoolImm b, s)
  | .Var v, s => (.Var v, s)
  | .Not a, s =>
      let r := elimMutate O a s
      (.Not r.1, r.2)
  | .Select c t f, s =>
      let rc := elimMutate O c s
      let rt := elimMutate O t rc.2
      let rf := elimMutate O f rt.2
      (.Select rc.1 rt.1 rf.1, rf.2)
  | .IfThenElse c t f, s =>
      let rc := elimMutate O c s
      let rt := elimMutate O t rc.2
      let rf := elimMutate O f rt.2
      (.IfThenElse rc.1 rt.1 rf.1, rf.2)
  | .Cast a, s =>
      let r := elimMutate O a s
      (.Cast r.1, r.2)
  | .Bin .tdiv a (.IntImm c), s =>
      if c ≠ 0 then
        if c < 0 then
          let r := elimMutate O (.Bin .tdiv a (.IntImm (-c))) s
          (.Bin .sub (.IntImm 0) r.1, r.2)
        else
          match lookupMemo s.exprToVars (.kTruncDiv, a, c) with
          | some p => (.Var p.1, s)
          | none =>
              let r := elimMutate O a s
              let q := AddNewVarPair O a r.1 c .kTruncDiv r.2
              match q.1 with
              | some p => (.Var p.1, q.2)
              | none => (.Bin .tdiv r.1 (.IntImm c), q.2)
      else
        let r := elimMutate O a s
        let r2 := elimMutate O (.IntImm c) r.2
        (.Bin .tdiv r.1 r2.1, r2.2)
  | .Bin .tmod a (.IntImm c), s =>
      if c ≠ 0 then
        if c < 0 then
          elimMutate O (.Bin .tmod a (.IntImm (-c))) s
        else
          match lookupMemo s.exprToVars (.kTruncDiv, a, c) with
          | some p => (.Var p.2, s)
          | none =>
              let r := elimMutate O a s
              let q := AddNewVarPair O a r.1 c .kTruncDiv r.2
              match q.1 with
              | some p => (.Var p.2, q.2)
              | none => (.Bin .tmod r.1 (.IntImm c), q.2)
      else
        let r := elimMutate O a s
        let r2 := elimMutate O (.IntImm c) r.2
        (.Bin .tmod r.1 r2.1, r2.2)
  | .Bin .fdiv a (.IntImm c), s =>
      if c ≠ 0 then
        if c < 0 then
          elimMutate O (.Bin .fdiv (.Bin .sub (.IntImm 0) a) (.IntImm (-c))) s
        else
          match lookupMemo s.exprToVars (.kFloorDiv, a, c) with
          | some p => (.Var p.1, s)
          | none =>
              let r := elimMutate O a s
              let q := AddNewVarPair O a r.1 c .kFloorDiv r.2
              match q.1 with
              | some p => (.Var p.1, q.2)
              | none => (.Bin .fdiv r.1 (.IntImm c), q.2)
      else
        let r := elimMutate O a s
        let r2 := elimMutate O (.IntImm c) r.2
        (.Bin .fdiv r.1 r2.1, r2.2)
  | .Bin .fmod a (.IntImm c), s =>
      if c ≠ 0 then
        if c < 0 then
          elimMutate O
            (.Bin .sub (.IntImm 0) (.Bin .fmod (.Bin .sub (.IntImm 0) a) (.IntImm (-c)))) s
        else
          match lookupMemo s.exprToVars (.kFloorDiv, a, c) with
          | some p => (.Var p.2, s)
          | none =>
              let r := elimMutate O a s
              let q := AddNewVarPair O a r.1 c .kFloorDiv r.2
              match q.1 with
              | some p => (.Var p.2, q.2)
              | none => (.Bin .fmod r.1 (.IntImm c), q.2)
      else
        let r := elimMutate O a s
        let r2 := elimMutate O (.IntImm c) r.2
        (.Bin .fmod r.1 r2.1, r2.2)
  | .Bin op a b, s =>
      let ra := elimMutate O a s
      let rb := elimMutate O b ra.2
      (.Bin op ra.1 rb.1, rb.2)
termination_by e => divSize e
decreasing_by
  all_goals simp_arith [divSize, negAdj]
  all_goals (try split_ifs) <;> omega

/-- Bound on the variable identifiers occurring in an expression. -/
def varBound : Expr → Nat
  | .IntImm _ => 0
  | .BoolImm _ => 0
  | .Var v => v + 1
  | .Bin _ a b => max (varBound a) (varBound b)
  | .Not a => varBound a
  | .Select c t f => max (varBound c) (max (varBound t) (varBound f))
  | .IfThenElse c t f => max (varBound c) (max (varBound t) (varBound f))
  | .Cast a => varBound a

/-- Bound on the variable identifiers occurring in a range. -/
def rngBound (r : Rng) : Nat := max (varBound r.rmin) (varBound r.extent)

/-- Bound on the variable identifiers of a range map (keys and range
expressions). -/
def rngMapBound (m : VMap Rng) : Nat :=
  m.foldl (fun acc p => max acc (max (p.1 + 1) (rngBound p.2))) 0

/-- Result record of EliminateDivMod. -/
structure EliminateDivModResult where
  expr : Expr
  substitution : VMap Expr
  new_variables : List Nat
  conditions : List Expr
  ranges : VMap Rng
deriving Repr

/-- EliminateDivMod: run the mutator on the expression starting from an
empty accumulating state whose fresh-identifier base clears every
variable of the expression and the range map. -/
def EliminateDivMod (O : Oracles) (expr : Expr) (ranges : VMap Rng) :
    EliminateDivModResult :=
  let r := elimMutate O expr
    ⟨[], [], [], ranges, 0, [], max (varBound expr) (rngMapBound ranges)⟩
  ⟨r.1, r.2.substitution, r.2.new_variables, r.2.conditions, r.2.ranges⟩

/-- Injective encoding of an integer into a natural number. -/
def encInt (v : Int) : Nat := Nat.pair (if v < 0 then 1 else 0) v.natAbs

/-- Tag of a binary operator. -/
def encBinOp : BinOp → Nat
  | .add => 0 | .sub => 1 | .mul => 2 | .tdiv => 3 | .tmod => 4
  | .fdiv => 5 | .fmod => 6 | .bmin => 7 | .bmax => 8
  | .beq => 9 | .bne => 10 | .blt => 11 | .ble => 12 | .bgt => 13
  | .bge => 14 | .band => 15 | .bor => 16

/-- Injective encoding of expressions into the naturals; modelled from
the spec: the deep comparison Compare is a total order on expressions by
structural shape (its implementation is not under src/), realized here
by comparing the encodings. -/
def enc : Expr → Nat
  | .IntImm v => Nat.pair 0 (encInt v)
  | .BoolImm b => Nat.pair 1 (cond b 1 0)
  | .Var v => Nat.pair 2 v
  | .Bin op a b => Nat.pair 3 (Nat.pair (encBinOp op) (Nat.pair (enc a) (enc b)))
  | .Not a => Nat.pair 4 (enc a)
  | .Select c t f => Nat.pair 5 (Nat.pair (enc c) (Nat.pair (enc t) (enc f)))
  | .IfThenElse c t f => Nat.pair 6 (Nat.pair (enc c) (Nat.pair (enc t) (enc f)))
  | .Cast a => Nat.pair 7 (enc a)

/-- ExprLess of the source: strict deep-compare order. -/
def ExprLess (a b : Expr) : Bool := decide (enc a < enc b)

/-- std::set_union of two ExprLess-sorted ranges: on ties the element of
the first range is taken and both advance. -/
def setUnion : List Expr → List Expr → List Expr
  | [], ys => ys
  | x :: xs, [] => x :: xs
  | x :: xs, y :: ys =>
      if ExprLess x y then x :: setUnion xs (y :: ys)
      else if ExprLess y x then y :: setUnion (x :: xs) ys
      else x :: setUnion xs ys
termination_by xs ys => xs.length + ys.length

/-- std::set_intersection of two ExprLess-sorted ranges. -/
def setInter : List Expr → List Expr → List Expr
  | [], _ => []
  | _ :: _, [] => []
  | x :: xs, y :: ys =>
      if ExprLess x y then setInter xs (y :: ys)
      else if ExprLess y x then setInter (x :: xs) ys
      else x :: setInter xs ys
termination_by xs ys => xs.length + ys.length

/-- std::set_difference of two ExprLess-sorted ranges. -/
def setDiff : List Expr → List Expr → List Expr
  | [], _ => []
  | x :: xs, [] => x :: xs
  | x :: xs, y :: ys =>
      if ExprLess x y then x :: setDiff xs (y :: ys)
      else if ExprLess y x then setDiff (x :: xs) ys
      else setDiff xs ys
termination_by xs ys => xs.length + ys.length

/-- Result of FactorOutAtomicFormulas: a set of atomic formulas and a
residual formula. -/
structure FactorOutAtomicFormulasResult where
  atomic_formulas : List Expr
  rest : Expr
deriving DecidableEq, Repr

/-- The to_expr of a factorization result: fold the atoms over the rest
with And (each atom is prepended: And(e, res)). -/
def FactorOutAtomicFormulasResult.to_expr (r : FactorOutAtomicFormulasResult) : Expr :=
  r.atomic_formulas.foldl (fun res e => .Bin .band e res) r.rest

/-- Termination measure for FactorOutAtomicFormulas: a Not weighs three
times its operand (it is pushed inward), a Select rewrites into a
formula with two copies of its condition, a boolean Mul becomes an And. -/
def foSize : Expr → Nat
  | .Bin .band a b => 1 + foSize a + foSize b
  | .Bin .bor a b => 1 + foSize a + foSize b
  | .Bin .mul a b => 2 + foSize a + foSize b
  | .Not a => 1 + 3 * foSize a
  | .Select c t f => 5 + 4 * foSize c + foSize t + foSize f
  | _ => 1

/-- FactorOutAtomicFormulasFunctor: variables, calls, constants and
comparisons are atomic (with residual true); And takes the union of the
atom sets and conjoins the residuals; Or takes the intersection and
rebuilds the leftover atoms into the residual; Not is pushed inward by
De Morgan and the Select rewriting, and is atomic on any other operand;
Select is rewritten through boolean connectives; Mul of booleans is
treated as And. -/
def FactorOutAtomicFormulas : Expr → FactorOutAtomicFormulasResult
  | .Bin .band a b =>
      let ra := FactorOutAtomicFormulas a
      let rb := FactorOutAtomicFormulas b
      ⟨setUnion ra.atomic_formulas rb.atomic_formulas, .Bin .band ra.rest rb.rest⟩
  | .Bin .bor a b =>
      let ra := FactorOutAtomicFormulas a
      let rb := FactorOutAtomicFormulas b
      let res := setInter ra.atomic_formulas rb.atomic_formulas
      let newCondA := setDiff ra.atomic_formulas res
      let newCondB := setDiff rb.atomic_formulas res
      ⟨res, .Bin .bor (FactorOutAtomicFormulasResult.to_expr ⟨newCondA, ra.rest⟩)
                      (FactorOutAtomicFormulasResult.to_expr ⟨newCondB, rb.rest⟩)⟩
  | .Bin .mul a b => FactorOutAtomicFormulas (.Bin .band a b)
  | .Select c t f =>
      FactorOutAtomicFormulas (.Bin .bor (.Bin .band c t) (.Bin .band (.Not c) f))
  | .Not a =>
      match a with
      | .Bin .bor x y => FactorOutAtomicFormulas (.Bin .band (.Not x) (.Not y))
      | .Bin .band x y => FactorOutAtomicFormulas (.Bin .bor (.Not x) (.Not y))
      | .Select c t f =>
          FactorOutAtomicFormulas (.Bin .band (.Bin .bor (.Not c) (.Not t))
                                              (.Bin .bor c (.Not f)))
      | _ => ⟨[.Not a], .BoolImm true⟩
  | e => ⟨[e], .BoolImm true⟩
termination_by e => foSize e
decreasing_by all_goals simp_arith [foSize]

/-- The atom kinds asserted by the specification sentence for C5:
variables, calls, constants and comparisons only. -/
def specAtomKind : Expr → Bool
  | .Var _ => true
  | .IntImm _ => true
  | .BoolImm _ => true
  | .IfThenElse _ _ _ => true
  | .Bin op _ _ =>
      match op with
      | .beq | .bne | .blt | .ble | .bgt | .bge => true
      | _ => false
  | _ => false

/-- Shape invariant actually maintained by the functor: an atom is never
a top-level And, Or, boolean Mul or Select, and a negation appears as an
atom only when its operand is not an And, Or or Select. -/
def atomOutShape : Expr → Bool
  | .Bin .band _ _ => false
  | .Bin .bor _ _ => false
  | .Bin .mul _ _ => false
  | .Select _ _ _ => false
  | .Not (.Bin .band _ _) => false
  | .Not (.Bin .bor _ _) => false
  | .Not (.Select _ _ _) => false
  | _ => true

/-- The constructor of RemoveRedundantInequalitiesMutator: every known
fact is simplified on entry. -/
def mkKnown (O : Oracles) (ks : List Expr) : List Expr := ks.map (fun c => O.simp c [])

/-- MutateAtomic_ of RemoveRedundantInequalitiesMutator: simplify the
comparison and collapse to true when structurally equal to a known
fact. -/
def mutateAtomic (O : Oracles) (known : List Expr) (e : Expr) : Expr :=
  let simplified := O.simp e []
  if known.any (fun other => simplified = other) then .BoolImm true else simplified

/-- RemoveRedundantInequalitiesMutator::Mutate over the set of known
(already simplified) facts.  A comparison collapses to true when equal
to a known fact.  A Select checks the whole node for side effects and
collapses on a constant simplified condition only when side-effect
free; otherwise it is rebuilt from the simplified condition, the true
branch rewritten with the known facts extended by the atoms of the
simplified condition, and the false branch rewritten with the original
known facts.  An if_then_else call does the same but collapses on a
constant condition without any side-effect check.  Other nodes are
rebuilt from mutated children. -/
def rriMutate (O : Oracles) (known : List Expr) : Expr → Expr
  | .IntImm v => .IntImm v
  | .BoolImm b => .BoolImm b
  | .Var v => .Var v
  | .Not a => .Not (rriMutate O known a)
  | .Cast a => .Cast (rriMutate O known a)
  | .Bin op a b =>
      match op with
      | .beq | .bne | .blt | .ble | .bgt | .bge =>
          mutateAtomic O known (.Bin op a b)
      | _ => .Bin op (rriMutate O known a) (rriMutate O known b)
  | .Select c t f =>
      let hasSE := O.hasSideEffect (.Select c t f)
      let newCond := O.simp (rriMutate O known c) []
      if isConstInt newCond 1 ∧ hasSE = false then rriMutate O known t
      else if isConstInt newCond 0 ∧ hasSE = false then rriMutate O known f
      else
        .Select newCond
          (rriMutate O
            (mkKnown O (known ++ (FactorOutAtomicFormulas newCond).atomic_formulas)) t)
          (rriMutate O known f)
  | .IfThenElse c t f =>
      let newCond := O.simp (rriMutate O known c) []
      if isConstInt newCond 1 then rriMutate O known t
      else if isConstInt newCond 0 then rriMutate O known f
      else
        .IfThenElse newCond
          (rriMutate O
            (mkKnown O (known ++ (FactorOutAtomicFormulas newCond).atomic_formulas)) t)
          (rriMutate O known f)

/-- RemoveRedundantInequalities: run the mutator with the simplified
known facts. -/
def RemoveRedundantInequalities (O : Oracles) (expr : Expr) (known : List Expr) : Expr :=
  rriMutate O (mkKnown O known) expr

/-- Domain: ordered integer variables, boolean conditions whose
conjunction defines the domain, and a range map (its keys may be a
superset of the variables, covering outer variables). -/
structure Domain where
  vars : List Nat
  conditions : List Expr
  ranges : VMap Rng
deriving DecidableEq, Repr

/-- DomainTransformation: the new and old domains together with the
variable maps new_to_old (new variables to expressions over old
variables) and old_to_new (old variables to expressions over new
variables). -/
structure DomainTransformation where
  new_domain : Domain
  old_domain : Domain
  new_to_old : VMap Expr
  old_to_new : VMap Expr
deriving DecidableEq, Repr

/-- ComposeDomainTransformations: defined when the old domain of the
second transformation is the new domain of the first; each map entry is
substituted through the matching map of the other transformation and
simplified under the appropriate range context. -/
def ComposeDomainTransformations (O : Oracles) (first second : DomainTransformation) :
    DomainTransformation :=
  let new_to_old := second.new_to_old.foldl
    (fun acc p =>
      mapSet p.1 (O.simp (subst first.new_to_old p.2) first.old_domain.ranges) acc) []
  let old_to_new := first.old_to_new.foldl
    (fun acc p =>
      mapSet p.1 (O.simp (subst second.old_to_new p.2) second.new_domain.ranges) acc) []
  ⟨second.new_domain, first.old_domain, new_to_old, old_to_new⟩

/-- IdDomainTransformation: identity on both maps, binding every domain
variable to itself. -/
def IdDomainTransformation (domain : Domain) : DomainTransformation :=
  let new_to_old := domain.vars.foldl (fun acc v => mapSet v (.Var v) acc) []
  ⟨domain, domain, new_to_old, new_to_old⟩

/-- EmptyDomainTransformation: the new domain has no variables and the
single condition false; every old variable maps to the zero constant;
new_to_old is empty. -/
def EmptyDomainTransformation (domain : Domain) : DomainTransformation :=
  let old_to_new := domain.vars.foldl (fun acc v => mapSet v (.IntImm 0) acc) []
  ⟨⟨[], [.BoolImm false], []⟩, domain, [], old_to_new⟩

/-- Semantic equality of domain transformations: identical domains,
identical key sets of both maps, and pointwise semantically-equal map
entries (new_to_old entries compared on assignments respecting the old
ranges, old_to_new entries on assignments respecting the new ranges). -/
def DTEquiv (t1 t2 : DomainTransformation) : Prop :=
  t1.new_domain = t2.new_domain ∧ t1.old_domain = t2.old_domain ∧
  (∀ v : Nat, (lookupVar t1.new_to_old v).isSome = (lookupVar t2.new_to_old v).isSome) ∧
  (∀ v e1 e2, lookupVar t1.new_to_old v = some e1 → lookupVar t2.new_to_old v = some e2 →
    ∀ σ, satisfies σ t1.old_domain.ranges → eval σ e1 = eval σ e2) ∧
  (∀ v : Nat, (lookupVar t1.old_to_new v).isSome = (lookupVar t2.old_to_new v).isSome) ∧
  (∀ v e1 e2, lookupVar t1.old_to_new v = some e1 → lookupVar t2.old_to_new v = some e2 →
    ∀ σ, satisfies σ t1.new_domain.ranges → eval σ e1 = eval σ e2)

/-- An oracle instantiation whose side-effect analysis reports a side
effect for every expression (the identity simplifier otherwise). -/
def effOracles : Oracles where
  simp := fun e _ => e
  detect := fun _ _ => none
  evalSet := fun _ _ => none
  hasSideEffect := fun _ => true

/-- The trivial instantiation of the external collaborators: the
identity simplifier, a linear-equation detector that always gives up,
an interval evaluator that always returns an undefined range, and a
side-effect analysis that reports no side effects.  All soundness
contracts hold for it; it is used to exercise the theorems on concrete
inputs. -/
def trivOracles : Oracles where
  simp := fun e _ => e
  detect := fun _ _ => none
  evalSet := fun _ _ => none
  hasSideEffect := fun _ => false

/-- An oracle whose simplifier collapses every expression to the
constant false, exercising the provably-false branches. -/
def falseOracles : Oracles :=
  { trivOracles with simp := fun _ _ => .BoolImm false }

/-- The per-row solution-existence condition of SolveSystemOfEquations
after diagonalization: a row beyond the diagonal or with zero diagonal
element requires rhs[j] == 0, a nonzero diagonal element d requires
floormod(rhs[j], |d|) == 0. -/
def rowCond (vars_size : Nat) (matrix : Nat → Nat → Int) (rhs : Nat → Expr)
    (j : Nat) : Expr :=
  if vars_size ≤ j ∨ matrix j j = 0 then .Bin .beq (rhs j) (.IntImm 0)
  else .Bin .beq (.Bin .fmod (rhs j) (.IntImm |matrix j j|)) (.IntImm 0)

/-- The condition-emission loop of SolveSystemOfEquations: each row
condition is simplified under the domain ranges; a provably false one
aborts (none), a provably true one is dropped, the others are
collected in row order. -/
def emitSolutionConds (O : Oracles) (R : VMap Rng) (vars_size : Nat)
    (matrix : Nat → Nat → Int) (rhs : Nat → Expr) : List Nat → Option (List Expr)
  | [] => some []
  | j :: js =>
    let new_cond := O.simp (rowCond vars_size matrix rhs j) R
    if isConstInt new_cond 0 then none
    else
      match emitSolutionConds O R vars_size matrix rhs js with
      | none => none
      | some cs => some (if isConstInt new_cond 1 then cs else new_cond :: cs)

/-- The solution-construction loop of SolveSystemOfEquations: for a row
beyond the matrix or with zero diagonal a fresh variable (numbered from
base by creation order) is produced and bound to the simplified
new_to_old entry; otherwise the solution is the floor quotient of the
right-hand side by the diagonal element, with numerator and divisor
negated for a negative diagonal. Returns the solution vector, the new
variable list and the new_to_old map. -/
def solveVarsLoop (O : Oracles) (R : VMap Rng) (rows : Nat)
    (matrix : Nat → Nat → Int) (rhs : Nat → Expr) (nto : Nat → Expr) (base : Nat) :
    List Nat → Nat → List Expr × List Nat × VMap Expr
  | [], _ => ([], [], [])
  | j :: js, cnt =>
    if rows ≤ j ∨ matrix j j = 0 then
      let v := base + cnt
      let r := solveVarsLoop O R rows matrix rhs nto base js (cnt + 1)
      (Expr.Var v :: r.1, v :: r.2.1, mapSet v (O.simp (nto j) R) r.2.2)
    else
      let s :=
        if 0 ≤ matrix j j then O.simp (.Bin .fdiv (rhs j) (.IntImm (matrix j j))) R
        else O.simp (.Bin .fdiv (.Bin .sub (.IntImm 0) (rhs j)) (.IntImm (-(matrix j j)))) R
      let r := solveVarsLoop O R rows matrix rhs nto base js cnt
      (s :: r.1, r.2.1, r.2.2)

/-- Conversion of the old_to_new coefficient matrix to a map (lines
1640-1648 of the source): each old variable is bound to the simplified
linear combination of the solution entries. The final SuperSimplify is
called without a range argument in the source, hence the empty range
context. -/
def buildOldToNew (O : Oracles) (dvars : List Nat) (vars_size : Nat)
    (otn : Nat → Nat → Int) (solution : List Expr) : VMap Expr :=
  (List.range vars_size).foldl
    (fun acc i =>
      mapSet (dvars.getD i 0)
        (O.simp ((List.range vars_size).foldl
          (fun e j => .Bin .add e (.Bin .mul (.IntImm (otn i j))
            (solution.getD j (.IntImm 0)))) (.IntImm 0)) [])
        acc) []

/-- The resulting range map: ranges of outer variables (domain range
entries whose key is not a domain variable) plus, for each new
variable, the interval-evaluated range of its new_to_old entry when it
is defined. -/
def buildRanges (O : Oracles) (d : Domain) (ntoMap : VMap Expr) : VMap Rng :=
  let outer := (d.ranges.filter (fun p => p.1 ∉ d.vars)).foldl
    (fun acc p => mapSet p.1 p.2 acc) []
  ntoMap.foldl
    (fun acc p =>
      match O.evalSet p.2 d.ranges with
      | some r => mapSet p.1 r acc
      | none => acc) outer

/-- The old-variable range conditions (lines 1683-1695): for each
domain range entry of a variable bound by old_to_new, the bounds
old_min <= old_to_new[v] and old_to_new[v] < old_min + old_extent are
simplified under the new ranges and kept unless provably true. -/
def oldRangeConds (O : Oracles) (d : Domain) (otnMap : VMap Expr)
    (newRanges : VMap Rng) : List Expr :=
  d.ranges.foldl
    (fun acc p =>
      match lookupVar otnMap p.1 with
      | some inNew =>
        let lower := O.simp (.Bin .ble p.2.rmin inNew) newRanges
        let upper := O.simp (.Bin .blt inNew (.Bin .add p.2.rmin p.2.extent)) newRanges
        let acc1 := if isConstInt lower 1 then acc else acc ++ [lower]
        if isConstInt upper 1 then acc1 else acc1 ++ [upper]
      | none => acc) []

/-- The phase of SolveSystemOfEquations following diagonalization
(lines 1584-1705): simplify the right-hand sides, emit the
solution-existence conditions (returning EmptyDomainTransformation on a
provably false one), build the solution vector, the variable maps, the
new ranges, the old-range conditions and the substituted rest
conditions, and assemble the resulting transformation. Fresh new
variables are numbered from base. -/
def solveAfterDiag (O : Oracles) (domain : Domain) (rest : List Expr) (rows : Nat)
    (matrix : Nat → Nat → Int) (rhs0 : Nat → Expr) (otn : Nat → Nat → Int)
    (nto : Nat → Expr) (base : Nat) : DomainTransformation :=
  let vars_size := domain.vars.length
  let rhs := fun j => O.simp (rhs0 j) domain.ranges
  match emitSolutionConds O domain.ranges vars_size matrix rhs (List.range rows) with
  | none => EmptyDomainTransformation domain
  | some conds0 =>
    let r := solveVarsLoop O domain.ranges rows matrix rhs nto base
      (List.range vars_size) 0
    let otnMap := buildOldToNew O domain.vars vars_size otn r.1
    let ranges := buildRanges O domain r.2.2
    let conds := conds0 ++ oldRangeConds O domain otnMap ranges ++
      rest.map (subst otnMap)
    ⟨⟨r.2.1, conds, ranges⟩, domain, r.2.2, otnMap⟩

/-- The remainder of DetectLinearEquation read as a value: the sum of
coefficient times variable over the listed variables plus the remaining
term (the last returned expression). -/
def linComb (σ : Nat → Int) : List Nat → List Expr → Int
  | [], [r] => eval σ r
  | v :: vs, c :: cs => eval σ c * σ v + linComb σ vs cs
  | _, _ => 0

/-- Contract of DetectLinearEquation: on success it returns one
coefficient per listed variable followed by the remaining term, the
denotation decomposes as the corresponding linear combination, and the
returned expressions do not contain the listed variables. -/
def DetectSound (O : Oracles) : Prop :=
  ∀ e vs coefs, O.detect e vs = some coefs →
    coefs.length = vs.length + 1 ∧
    (∀ σ, eval σ e = linComb σ vs coefs) ∧
    (∀ c ∈ coefs, ∀ v ∈ vs, occurs v c = false)

/-- The Euclidean loop of the source gcd (while b != 0 with the C
remainder). -/
def gcdLoop (a b : Int) : Int :=
  if b = 0 then a else gcdLoop b (a.tmod b)
termination_by b.natAbs
decreasing_by
  have h : (a.tmod b).natAbs = a.natAbs % b.natAbs := by
    rcases a with m | m <;> rcases b with n | n <;> simp [Int.tmod] <;> norm_cast
  rw [h]
  exact Nat.mod_lt _ (by omega)

/-- gcd of the source (lines 143-151): make the first argument the
larger one, then run Euclid. -/
def gcdSrc (a b : Int) : Int := if a < b then gcdLoop b a else gcdLoop a b

/-- lcm of the source (lines 153-155), with C division. -/
def lcmSrc (a b : Int) : Int := (a * b).tdiv (gcdSrc a b)

/-- NormalizeComparisons (lines 701-724): each comparison node is
rewritten into the form a == 0, a != 0 or a <= 0 with the left side
simplified without a range context (GT/GE swap the operands, strict
comparisons on integers become a - b + 1 <= 0); the original operands
of a comparison are not rewritten further, all other nodes are rebuilt
from their rewritten children. -/
def NormalizeComparisons (O : Oracles) : Expr → Expr
  | .Bin .beq a b => .Bin .beq (O.simp (.Bin .sub a b) []) (.IntImm 0)
  | .Bin .bne a b => .Bin .bne (O.simp (.Bin .sub a b) []) (.IntImm 0)
  | .Bin .blt a b => .Bin .ble (O.simp (.Bin .add (.Bin .sub a b) (.IntImm 1)) []) (.IntImm 0)
  | .Bin .ble a b => .Bin .ble (O.simp (.Bin .sub a b) []) (.IntImm 0)
  | .Bin .bgt a b => .Bin .ble (O.simp (.Bin .add (.Bin .sub b a) (.IntImm 1)) []) (.IntImm 0)
  | .Bin .bge a b => .Bin .ble (O.simp (.Bin .sub b a) []) (.IntImm 0)
  | .Bin op a b => .Bin op (NormalizeComparisons O a) (NormalizeComparisons O b)
  | .Not a => .Not (NormalizeComparisons O a)
  | .Select c t f =>
      .Select (NormalizeComparisons O c) (NormalizeComparisons O t)
        (NormalizeComparisons O f)
  | .IfThenElse c t f =>
      .IfThenElse (NormalizeComparisons O c) (NormalizeComparisons O t)
        (NormalizeComparisons O f)
  | .Cast a => .Cast (NormalizeComparisons O a)
  | e => e

/-- Shape of normalized formulas: the right side of a top-level LE or EQ
node is the zero constant.  Every output of NormalizeComparisons has
this shape and the solver relies on it when it reads only the left
sides. -/
def normShape : Expr → Bool
  | .Bin .ble _ b => b = .IntImm 0
  | .Bin .beq _ b => b = .IntImm 0
  | _ => true

/-- Insertion of a new inequality at its sorted position (std::set
insert with a hint): a no-op when an equal element is already there. -/
def addInsertPos (new_ineq : Expr) (l r : List Expr) : List Expr :=
  if r.head? = some new_ineq then l ++ r else l ++ new_ineq :: r

/-- The second neighbor check of add_to_new_current: if the successor of
the insertion point is an LE that subsumes the new inequality the set
is left as is; if the new inequality subsumes it, the successor is
erased; then the new inequality is inserted. -/
def addCheckNext (O : Oracles) (R : VMap Rng) (new_ineq na : Expr)
    (l r : List Expr) : List Expr :=
  match r.head? with
  | some (.Bin .ble ka _) =>
    if CanProve O (.Bin .ble (.Bin .sub na ka) (.IntImm 0)) R then l ++ r
    else if CanProve O (.Bin .ble (.Bin .sub ka na) (.IntImm 0)) R then
      addInsertPos new_ineq l (r.drop 1)
    else addInsertPos new_ineq l r
  | _ => addInsertPos new_ineq l r

/-- add_to_new_current (lines 1765-1797): drop the inequality when it
follows from the ranges; for an LE node check the two neighbors of the
insertion position in the sorted set, dropping the new inequality or
erasing a neighbor when one left side provably dominates the other;
otherwise plain set insertion. -/
def addToNewCurrent (O : Oracles) (R : VMap Rng) (new_ineq : Expr)
    (s : List Expr) : List Expr :=
  if CanProve O new_ineq R then s
  else
    match new_ineq with
    | .Bin .ble na _nb =>
      (match (s.filter (fun e => ExprLess e new_ineq)).getLast? with
       | some (.Bin .ble la _lb) =>
         if CanProve O (.Bin .ble (.Bin .sub na la) (.IntImm 0)) R then s
         else if CanProve O (.Bin .ble (.Bin .sub la na) (.IntImm 0)) R then
           addCheckNext O R new_ineq na
             (s.filter (fun e => ExprLess e new_ineq)).dropLast
             (s.filter (fun e => !(ExprLess e new_ineq)))
         else addCheckNext O R new_ineq na
           (s.filter (fun e => ExprLess e new_ineq))
           (s.filter (fun e => !(ExprLess e new_ineq)))
       | _ => addCheckNext O R new_ineq na
           (s.filter (fun e => ExprLess e new_ineq))
           (s.filter (fun e => !(ExprLess e new_ineq))))
    | _ =>
      if new_ineq ∈ s then s
      else (s.filter (fun e => ExprLess e new_ineq)) ++
        new_ineq :: (s.filter (fun e => !(ExprLess e new_ineq)))

/-- State of the per-variable classification pass: the future current
set, the positive and negative coefficient lists and the leftover
formulas. -/
structure IneqState where
  nc : List Expr
  pos : List (Int × Expr)
  neg : List (Int × Expr)
  rest : List Expr

/-- Classification of one formula with respect to a variable (lines
1824-1860): an LE with constant nonzero coefficient goes to the
positive or negative list, an EQ is split into two inequalities, zero
polarity goes back to the current set, everything else (including a
failed or non-constant linear detection) to the leftover list. -/
def classifyIneq (O : Oracles) (R : VMap Rng) (v : Nat) (s : IneqState)
    (ineq : Expr) : IneqState :=
  match ineq with
  | .Bin .ble a _ =>
    (match O.detect a [v] with
     | some [c0e, c1] =>
       (match c0e with
        | .IntImm c0 =>
          if c0 = 0 then { s with nc := addToNewCurrent O R ineq s.nc }
          else if 0 < c0 then { s with pos := s.pos ++ [(c0, c1)] }
          else { s with neg := s.neg ++ [(c0, c1)] }
        | _ => { s with rest := s.rest ++ [ineq] })
     | _ => { s with rest := s.rest ++ [ineq] })
  | .Bin .beq a _ =>
    (match O.detect a [v] with
     | some [c0e, c1] =>
       (match c0e with
        | .IntImm c0 =>
          if c0 = 0 then { s with nc := addToNewCurrent O R ineq s.nc }
          else if 0 < c0 then
            { s with pos := s.pos ++ [(c0, c1)],
                     neg := s.neg ++ [(-c0, .Bin .sub (.IntImm 0) c1)] }
          else
            { s with pos := s.pos ++ [(-c0, .Bin .sub (.IntImm 0) c1)],
                     neg := s.neg ++ [(c0, c1)] }
        | _ => { s with rest := s.rest ++ [ineq] })
     | _ => { s with rest := s.rest ++ [ineq] })
  | _ => { s with rest := s.rest ++ [ineq] }

/-- Combination of a positive and a negative inequality (lines
1863-1872): scale by the cofactors of the gcd so the variable cancels,
then normalize the simplified result. -/
def combineIneq (O : Oracles) (R : VMap Rng) (p n : Int × Expr) : Expr :=
  let g := gcdSrc p.1 (-n.1)
  let c_pos : Expr := .IntImm (n.1.tdiv g)
  let c_neg : Expr := .IntImm (p.1.tdiv g)
  NormalizeComparisons O (O.simp
    (.Bin .ble (.Bin .sub (.Bin .mul c_neg n.2) (.Bin .mul c_pos p.2)) (.IntImm 0)) R)

/-- Addition of an upper bound with subsumption (lines 1893-1910): skip
the bound when an existing one provably dominates it, otherwise erase
the provably worse bounds and append. -/
def addUpperBound (O : Oracles) (R : VMap Rng) (bound : Expr)
    (bs : List Expr) : List Expr :=
  if bs.any (fun o => CanProve O (.Bin .ble (.Bin .sub o bound) (.IntImm 0)) R) then bs
  else bs.filter (fun o =>
    !(CanProve O (.Bin .bge (.Bin .sub o bound) (.IntImm 0)) R)) ++ [bound]

/-- Addition of a lower bound with subsumption (lines 1911-1928),
mirror image of the upper-bound case. -/
def addLowerBound (O : Oracles) (R : VMap Rng) (bound : Expr)
    (bs : List Expr) : List Expr :=
  if bs.any (fun o => CanProve O (.Bin .bge (.Bin .sub o bound) (.IntImm 0)) R) then bs
  else bs.filter (fun o =>
    !(CanProve O (.Bin .ble (.Bin .sub o bound) (.IntImm 0)) R)) ++ [bound]

/-- std::sort followed by std::unique on an expression vector: the
sorted duplicate-free list with the same members. -/
def sortDedup (l : List Expr) : List Expr :=
  l.foldl (fun acc e => setUnion acc [e]) []

/-- Per-variable bounds of the inequality solver: formulas
coef*v == e, coef*v >= e, coef*v <= e. -/
structure VarBounds where
  coef : Expr
  lower : List Expr
  equal : List Expr
  upper : List Expr
deriving DecidableEq, Repr

/-- Result of SolveSystemOfInequalities. -/
structure SolveSystemOfInequalitiesResult where
  vars : List Nat
  bounds : VMap VarBounds
  other_conditions : List Expr
deriving DecidableEq, Repr

/-- as_conditions (lines 1716-1737): for each variable in order, the
equal, lower and upper bounds against coef*v, then the other
conditions. -/
def SolveSystemOfInequalitiesResult.as_conditions
    (res : SolveSystemOfInequalitiesResult) : List Expr :=
  (res.vars.foldl
    (fun acc v =>
      match lookupVar res.bounds v with
      | some bnds =>
        let lhs := Expr.Bin .mul bnds.coef (.Var v)
        ((acc ++ bnds.equal.map (fun rhs => .Bin .beq lhs rhs))
          ++ bnds.lower.map (fun rhs => .Bin .bge lhs rhs))
          ++ bnds.upper.map (fun rhs => .Bin .ble lhs rhs)
      | none => acc) []) ++ res.other_conditions

/-- The seed state of a variable-elimination step: when the variable
has a range, the (simplified) range bounds enter the coefficient lists
(lines 1814-1821). -/
def rangeSeed (O : Oracles) (R : VMap Rng) (v : Nat) (rest : List Expr) : IneqState :=
  match lookupVar R v with
  | some range =>
    ⟨[], [(1, .Bin .sub (.IntImm 0)
        (O.simp (.Bin .sub (.Bin .add range.rmin range.extent) (.IntImm 1)) R))],
      [(-1, O.simp range.rmin R)], rest⟩
  | none => ⟨[], [], [], rest⟩

/-- The common multiplier of a step (lines 1879-1885): the lcm of all
positive coefficients and of the negated negative ones. -/
def coefLcm (s : IneqState) : Int :=
  s.neg.foldl (fun l n => lcmSrc l (-n.1))
    (s.pos.foldl (fun l p => lcmSrc l p.1) 1)

/-- The bound generated by a coefficient entry (lines 1894, 1912):
(-coef_lcm / c) * e, simplified. -/
def boundExpr (O : Oracles) (R : VMap Rng) (L : Int) (p : Int × Expr) : Expr :=
  O.simp (.Bin .mul (.IntImm ((-L).tdiv p.1)) p.2) R

/-- One variable-elimination step of the solver (lines 1806-1965):
seed the coefficient lists from the variable's range, classify the
current formulas, combine positive with negative ones, compute the
common multiplier, build the pruned bound lists, sort and deduplicate
them and split off the bounds occurring on both sides as equalities. -/
def solveIneqStep (O : Oracles) (R : VMap Rng) (v : Nat)
    (current rest : List Expr) : List Expr × List Expr × VarBounds :=
  let s1 := current.foldl (classifyIneq O R v) (rangeSeed O R v rest)
  let nc2 := s1.pos.foldl (fun nc p =>
    s1.neg.foldl (fun nc n => addToNewCurrent O R (combineIneq O R p n) nc) nc) s1.nc
  let ubs := sortDedup (s1.pos.foldl (fun bs p =>
    addUpperBound O R (boundExpr O R (coefLcm s1) p) bs) [])
  let lbs := sortDedup (s1.neg.foldl (fun bs n =>
    addLowerBound O R (boundExpr O R (coefLcm s1) n) bs) [])
  (nc2, s1.rest,
    ⟨.IntImm (coefLcm s1), setDiff lbs (setInter ubs lbs), setInter ubs lbs,
      setDiff ubs (setInter ubs lbs)⟩)

/-- The elimination loop over the variable list, threading the current
set, the leftover formulas and the recorded bounds. -/
def solveIneqVarsLoop (O : Oracles) (R : VMap Rng) :
    List Nat → List Expr → List Expr → VMap VarBounds →
      List Expr × List Expr × VMap VarBounds
  | [], current, rest, bnds => (current, rest, bnds)
  | v :: vs, current, rest, bnds =>
    let r := solveIneqStep O R v current rest
    solveIneqVarsLoop O R vs r.1 r.2.1 (mapSet v r.2.2 bnds)

/-- The final pass over the remaining formulas (lines 1968-1979): a
provably false one aborts with a contradiction, provably true ones are
dropped, the rest are kept simplified. -/
def finalCurrentConds (O : Oracles) (R : VMap Rng) : List Expr → Option (List Expr)
  | [] => some []
  | e :: es =>
    let s := O.simp e R
    if isConstInt s 0 then none
    else
      match finalCurrentConds O R es with
      | none => none
      | some cs => some (if isConstInt s 1 then cs else s :: cs)

/-- SolveSystemOfInequalities (lines 1741-1985): normalize and insert
the inputs, eliminate the variables in order, then collect the leftover
conditions (replacing everything by false on a contradiction) followed
by the unclassified formulas. -/
def SolveSystemOfInequalities (O : Oracles) (inequalities : List Expr)
    (vs : List Nat) (R : VMap Rng) : SolveSystemOfInequalitiesResult :=
  let current0 := inequalities.foldl
    (fun nc i => addToNewCurrent O R (NormalizeComparisons O (O.simp i R)) nc) []
  let r := solveIneqVarsLoop O R vs current0 [] []
  let oc :=
    match finalCurrentConds O R r.1 with
    | none => [Expr.BoolImm false]
    | some cs => cs ++ r.2.1
  ⟨vs, r.2.2, oc⟩

/-! Theorems. -/

theorem satisfies_nil (σ : Nat → Int) : satisfies σ [] := by
  intro v r h
  simp [lookupVar, List.lookup] at h

theorem trivOracles_simp_sound : SimpSound trivOracles := by
  intro e R σ _
  rfl

theorem eval_band_ne (σ : Nat → Int) (a b : Expr) :
    (eval σ (.Bin .band a b) ≠ 0) ↔ (eval σ a ≠ 0 ∧ eval σ b ≠ 0) := by
  by_cases h : eval σ a ≠ 0 ∧ eval σ b ≠ 0 <;> simp [eval, evalBin, h]

theorem eval_bor_ne (σ : Nat → Int) (a b : Expr) :
    (eval σ (.Bin .bor a b) ≠ 0) ↔ (eval σ a ≠ 0 ∨ eval σ b ≠ 0) := by
  by_cases h : eval σ a ≠ 0 ∨ eval σ b ≠ 0 <;> simp [eval, evalBin, h]

theorem eval_not_ne (σ : Nat → Int) (a : Expr) :
    (eval σ (.Not a) ≠ 0) ↔ ¬(eval σ a ≠ 0) := by
  by_cases h : eval σ a ≠ 0 <;> simp [eval, h]

theorem eval_zeroOf (σ : Nat → Int) (e : Expr) : eval σ (zeroOf e) = 0 := by
  unfold zeroOf
  split <;> rfl

theorem isConstZero_eval (σ : Nat → Int) (e : Expr) (h : isConstZero e = true) :
    eval σ e = 0 := by
  cases e <;> simp [isConstZero, isConstInt] at h <;> simp [eval, h]

theorem isBool_eval_01 (σ : Nat → Int) (e : Expr) (h : isBool e = true) :
    eval σ e = 0 ∨ eval σ e = 1 := by
  induction e with
  | IntImm v => simp [isBool] at h
  | BoolImm b => cases b <;> simp [eval]
  | Var v => simp [isBool] at h
  | Bin op a b iha ihb =>
      cases op <;> simp [isBool] at h <;> simp only [eval, evalBin]
      case mul =>
        rcases iha h.1 with h1 | h1 <;> rcases ihb h.2 with h2 | h2 <;>
          simp [h1, h2]
      all_goals split <;> simp
  | Not a ih => simp only [eval]; split <;> simp
  | Select c t f ihc iht ihf =>
      simp [isBool] at h
      simp only [eval]
      split
      · exact iht h.1
      · exact ihf h.2
  | IfThenElse c t f ihc iht ihf =>
      simp [isBool] at h
      simp only [eval]
      split
      · exact iht h.1
      · exact ihf h.2
  | Cast a ih => simp [isBool] at h

theorem eval_to_expr (σ : Nat → Int) (r : NonzeronessConditionResult) :
    eval σ r.to_expr = if eval σ r.cond ≠ 0 then eval σ r.value else 0 := by
  simp only [NonzeronessConditionResult.to_expr, SelectElseZero, eval, eval_zeroOf]

theorem simp_eval_nil (O : Oracles) (hS : SimpSound O) (e : Expr) (σ : Nat → Int) :
    eval σ (O.simp e []) = eval σ e :=
  hS e [] σ (satisfies_nil σ)

theorem nz_bool (O : Oracles) (e : Expr) (h : isBool e = true) :
    NonzeronessCondition O e = ⟨e, .BoolImm true⟩ := by
  rw [NonzeronessCondition.eq_def]
  simp [h]

theorem nz_bool_eval (O : Oracles) (e : Expr) (σ : Nat → Int) (h : isBool e = true) :
    eval σ ((NonzeronessCondition O e).to_expr) = eval σ e := by
  rw [nz_bool O e h, eval_to_expr]
  rcases isBool_eval_01 σ e h with h0 | h0 <;> simp [h0, eval]

theorem nzAddLike_eval (O : Oracles) (hS : SimpSound O) (op : BinOp)
    (hz : evalBin op 0 0 = 0) (σ : Nat → Int) (a b : Expr)
    (nza nzb : NonzeronessConditionResult)
    (ha : eval σ nza.to_expr = eval σ a)
    (hb : eval σ nzb.to_expr = eval σ b) :
    eval σ ((nzAddLike O op nza nzb).to_expr) = evalBin op (eval σ a) (eval σ b) := by
  have haI := ha
  have hbI := hb
  rw [eval_to_expr] at haI hbI
  unfold nzAddLike
  split
  case isTrue hcc =>
    rw [eval_to_expr]
    by_cases h0 : eval σ nza.cond ≠ 0
    · rw [if_pos h0]
      rw [if_pos h0] at haI
      rw [← hcc] at hbI
      rw [if_pos h0] at hbI
      simp only [eval, haI, hbI]
    · rw [if_neg h0]
      rw [if_neg h0] at haI
      rw [← hcc] at hbI
      rw [if_neg h0] at hbI
      rw [← haI, ← hbI, hz]
  case isFalse hcc =>
    rw [eval_to_expr]
    have hnc : eval σ (O.simp (.Bin .bor nza.cond nzb.cond) []) =
        eval σ (.Bin .bor nza.cond nzb.cond) := simp_eval_nil O hS _ σ
    by_cases h0 : eval σ (O.simp (.Bin .bor nza.cond nzb.cond) []) ≠ 0
    · rw [if_pos h0]
      have hor : eval σ nza.cond ≠ 0 ∨ eval σ nzb.cond ≠ 0 :=
        (eval_bor_ne σ _ _).mp (by rw [← hnc]; exact h0)
      have hA : ∀ x : Expr,
          eval σ (if nza.cond = O.simp (.Bin .bor nza.cond nzb.cond) [] then nza.value
            else nza.to_expr) = eval σ nza.to_expr := by
        intro x
        split
        case isTrue hcs =>
          rw [eval_to_expr, if_pos (by rw [hcs]; exact h0)]
        case isFalse hcs => rfl
      have hB : eval σ (if nzb.cond = O.simp (.Bin .bor nza.cond nzb.cond) [] then nzb.value
            else nzb.to_expr) = eval σ nzb.to_expr := by
        split
        case isTrue hcs =>
          rw [eval_to_expr, if_pos (by rw [hcs]; exact h0)]
        case isFalse hcs => rfl
      simp only [eval]
      rw [hA (.IntImm 0), hB, ha, hb]
    · rw [if_neg h0]
      rw [not_not] at h0
      rw [h0] at hnc
      have hz2 : ¬(eval σ nza.cond ≠ 0 ∨ eval σ nzb.cond ≠ 0) := by
        rw [← eval_bor_ne σ nza.cond nzb.cond, ← hnc]
        simp
      push_neg at hz2
      rw [if_neg (by simp [hz2.1])] at haI
      rw [if_neg (by simp [hz2.2])] at hbI
      rw [← haI, ← hbI, hz]

theorem nzMulLike_eval (O : Oracles) (hS : SimpSound O) (σ : Nat → Int) (a b : Expr)
    (nza nzb : NonzeronessConditionResult)
    (ha : eval σ nza.to_expr = eval σ a)
    (hb : eval σ nzb.to_expr = eval σ b) :
    eval σ ((nzMulLike O .mul nza nzb).to_expr) = eval σ a * eval σ b := by
  rw [eval_to_expr] at ha hb
  unfold nzMulLike
  rw [eval_to_expr]
  have hnc : eval σ (O.simp (.Bin .band nza.cond nzb.cond) []) =
      eval σ (.Bin .band nza.cond nzb.cond) := simp_eval_nil O hS _ σ
  by_cases h0 : eval σ (O.simp (.Bin .band nza.cond nzb.cond) []) ≠ 0
  · have hand : eval σ nza.cond ≠ 0 ∧ eval σ nzb.cond ≠ 0 :=
      (eval_band_ne σ _ _).mp (by rw [← hnc]; exact h0)
    rw [if_pos h0]
    rw [if_pos hand.1] at ha
    rw [if_pos hand.2] at hb
    simp only [eval, evalBin, ha, hb]
  · rw [if_neg h0]
    rw [not_not] at h0
    rw [h0] at hnc
    have hz2 : ¬(eval σ nza.cond ≠ 0 ∧ eval σ nzb.cond ≠ 0) := by
      rw [← eval_band_ne σ nza.cond nzb.cond, ← hnc]
      simp
    rcases Decidable.not_and_iff_or_not.mp hz2 with h | h
    · rw [not_not] at h
      rw [if_neg (by simp [h])] at ha
      rw [← ha]
      ring
    · rw [not_not] at h
      rw [if_neg (by simp [h])] at hb
      rw [← hb]
      ring

theorem nzSelect_eval (O : Oracles) (hS : SimpSound O) (σ : Nat → Int) (c t f : Expr)
    (nza nzb : NonzeronessConditionResult)
    (ha : eval σ nza.to_expr = eval σ t)
    (hb : eval σ nzb.to_expr = eval σ f) :
    eval σ ((nzSelect O c nza nzb).to_expr) = eval σ (.Select c t f) := by
  rw [eval_to_expr] at ha hb
  unfold nzSelect
  split
  case isTrue hzb =>
    have hfb : eval σ f = 0 := by
      rw [← hb, isConstZero_eval σ _ hzb]
      split <;> rfl
    rw [eval_to_expr]
    have hnc : eval σ (O.simp (.Bin .band nza.cond c) []) =
        eval σ (.Bin .band nza.cond c) := simp_eval_nil O hS _ σ
    by_cases h0 : eval σ (O.simp (.Bin .band nza.cond c) []) ≠ 0
    · have hand : eval σ nza.cond ≠ 0 ∧ eval σ c ≠ 0 :=
        (eval_band_ne σ _ _).mp (by rw [← hnc]; exact h0)
      rw [if_pos h0]
      rw [if_pos hand.1] at ha
      simp only [eval, if_pos hand.2]
      exact ha
    · rw [if_neg h0]
      rw [not_not] at h0
      rw [h0] at hnc
      have hz2 : ¬(eval σ nza.cond ≠ 0 ∧ eval σ c ≠ 0) := by
        rw [← eval_band_ne σ nza.cond c, ← hnc]
        simp
      simp only [eval]
      by_cases hc : eval σ c ≠ 0
      · have hca : ¬ eval σ nza.cond ≠ 0 := fun hx => hz2 ⟨hx, hc⟩
        rw [if_pos hc, ← ha, if_neg hca]
      · rw [if_neg hc, hfb]
  case isFalse hzb =>
    split
    case isTrue hza =>
      have htb : eval σ t = 0 := by
        rw [← ha, isConstZero_eval σ _ hza]
        split <;> rfl
      rw [eval_to_expr]
      have hnc : eval σ (O.simp (.Bin .band nzb.cond (.Not c)) []) =
          eval σ (.Bin .band nzb.cond (.Not c)) := simp_eval_nil O hS _ σ
      by_cases h0 : eval σ (O.simp (.Bin .band nzb.cond (.Not c)) []) ≠ 0
      · have hand : eval σ nzb.cond ≠ 0 ∧ eval σ (.Not c) ≠ 0 :=
          (eval_band_ne σ _ _).mp (by rw [← hnc]; exact h0)
        have hc : ¬ eval σ c ≠ 0 := (eval_not_ne σ c).mp hand.2
        rw [if_pos h0]
        rw [if_pos hand.1] at hb
        simp only [eval, if_neg hc]
        exact hb
      · rw [if_neg h0]
        rw [not_not] at h0
        rw [h0] at hnc
        have hz2 : ¬(eval σ nzb.cond ≠ 0 ∧ eval σ (.Not c) ≠ 0) := by
          rw [← eval_band_ne σ nzb.cond (.Not c), ← hnc]
          simp
        simp only [eval]
        by_cases hc : eval σ c ≠ 0
        · rw [if_pos hc, htb]
        · have hnn : eval σ (.Not c) ≠ 0 := (eval_not_ne σ c).mpr hc
          have hcb : ¬ eval σ nzb.cond ≠ 0 := fun hx => hz2 ⟨hx, hnn⟩
          rw [if_neg hc, ← hb, if_neg hcb]
    case isFalse hza =>
      rw [eval_to_expr]
      have hnc : eval σ (O.simp (.Bin .bor (.Bin .band c nza.cond)
          (.Bin .band (.Not c) nzb.cond)) []) =
          eval σ (.Bin .bor (.Bin .band c nza.cond) (.Bin .band (.Not c) nzb.cond)) :=
        simp_eval_nil O hS _ σ
      by_cases hc : eval σ c ≠ 0
      · have hcnd : eval σ (O.simp (.Bin .bor (.Bin .band c nza.cond)
            (.Bin .band (.Not c) nzb.cond)) []) ≠ 0 ↔ eval σ nza.cond ≠ 0 := by
          rw [hnc, eval_bor_ne, eval_band_ne, eval_band_ne, eval_not_ne]
          constructor
          · rintro (⟨_, h⟩ | ⟨h2, _⟩)
            · exact h
            · exact absurd hc h2
          · intro h
            exact Or.inl ⟨hc, h⟩
        by_cases hca : eval σ nza.cond ≠ 0
        · rw [if_pos (hcnd.mpr hca)]
          rw [if_pos hca] at ha
          simp only [eval, if_pos hc]
          exact ha
        · rw [if_neg (fun hx => hca (hcnd.mp hx))]
          rw [if_neg hca] at ha
          simp only [eval, if_pos hc]
          exact ha
      · have hcnd : eval σ (O.simp (.Bin .bor (.Bin .band c nza.cond)
            (.Bin .band (.Not c) nzb.cond)) []) ≠ 0 ↔ eval σ nzb.cond ≠ 0 := by
          rw [hnc, eval_bor_ne, eval_band_ne, eval_band_ne, eval_not_ne]
          constructor
          · rintro (⟨h2, _⟩ | ⟨_, h⟩)
            · exact absurd h2 hc
            · exact h
          · intro h
            exact Or.inr ⟨hc, h⟩
        by_cases hcb : eval σ nzb.cond ≠ 0
        · rw [if_pos (hcnd.mpr hcb)]
          rw [if_pos hcb] at hb
          simp only [eval, if_neg hc]
          exact hb
        · rw [if_neg (fun hx => hcb (hcnd.mp hx))]
          rw [if_neg hcb] at hb
          simp only [eval, if_neg hc]
          exact hb

theorem nz_to_expr_eval (O : Oracles) (hS : SimpSound O) (e : Expr) (σ : Nat → Int) :
    eval σ ((NonzeronessCondition O e).to_expr) = eval σ e := by
  induction e with
  | IntImm v =>
      rw [NonzeronessCondition.eq_def]
      by_cases h : v = 0 <;> simp [isBool, h, eval_to_expr, eval]
  | BoolImm b => exact nz_bool_eval O _ σ rfl
  | Var v =>
      rw [NonzeronessCondition.eq_def]
      simp [isBool, eval_to_expr, eval]
  | Bin op a b iha ihb =>
      by_cases hbl : isBool (.Bin op a b) = true
      · exact nz_bool_eval O _ σ hbl
      · have hdiv : ∀ o : BinOp, (evalBin o 0 (eval σ b) = 0) →
            NonzeronessCondition O (.Bin o a b) =
              ⟨(NonzeronessCondition O a).cond, .Bin o (NonzeronessCondition O a).value b⟩ →
            eval σ ((NonzeronessCondition O (.Bin o a b)).to_expr) = eval σ (.Bin o a b) := by
          intro o hz heq
          rw [heq, eval_to_expr]
          rw [eval_to_expr] at iha
          by_cases h0 : eval σ (NonzeronessCondition O a).cond ≠ 0
          · rw [if_pos h0]
            rw [if_pos h0] at iha
            simp only [eval, iha]
          · rw [if_neg h0]
            rw [if_neg h0] at iha
            simp only [eval, ← iha, hz]
        cases op with
        | add =>
          rw [show NonzeronessCondition O (.Bin .add a b) =
            nzAddLike O .add (NonzeronessCondition O a) (NonzeronessCondition O b) by
            rw [NonzeronessCondition.eq_def]
            rfl]
          exact nzAddLike_eval O hS .add rfl σ a b _ _ iha ihb
        | sub =>
          rw [show NonzeronessCondition O (.Bin .sub a b) =
            nzAddLike O .sub (NonzeronessCondition O a) (NonzeronessCondition O b) by
            rw [NonzeronessCondition.eq_def]
            rfl]
          exact nzAddLike_eval O hS .sub rfl σ a b _ _ iha ihb
        | bmin =>
          rw [show NonzeronessCondition O (.Bin .bmin a b) =
            nzAddLike O .bmin (NonzeronessCondition O a) (NonzeronessCondition O b) by
            rw [NonzeronessCondition.eq_def]
            rfl]
          exact nzAddLike_eval O hS .bmin (by simp [evalBin]) σ a b _ _ iha ihb
        | bmax =>
          rw [show NonzeronessCondition O (.Bin .bmax a b) =
            nzAddLike O .bmax (NonzeronessCondition O a) (NonzeronessCondition O b) by
            rw [NonzeronessCondition.eq_def]
            rfl]
          exact nzAddLike_eval O hS .bmax (by simp [evalBin]) σ a b _ _ iha ihb
        | mul =>
          rw [show NonzeronessCondition O (.Bin .mul a b) =
            nzMulLike O .mul (NonzeronessCondition O a) (NonzeronessCondition O b) by
            rw [NonzeronessCondition.eq_def]
            simp [hbl]]
          exact nzMulLike_eval O hS σ a b _ _ iha ihb
        | tdiv =>
          exact hdiv .tdiv (by simp [evalBin, Int.zero_tdiv])
            (by rw [NonzeronessCondition.eq_def]; rfl)
        | tmod =>
          exact hdiv .tmod (by simp [evalBin, Int.zero_tmod])
            (by rw [NonzeronessCondition.eq_def]; rfl)
        | fdiv =>
          exact hdiv .fdiv (by simp [evalBin, Int.zero_fdiv])
            (by rw [NonzeronessCondition.eq_def]; rfl)
        | fmod =>
          exact hdiv .fmod (by simp [evalBin, Int.zero_fmod])
            (by rw [NonzeronessCondition.eq_def]; rfl)
        | beq => simp [isBool] at hbl
        | bne => simp [isBool] at hbl
        | blt => simp [isBool] at hbl
        | ble => simp [isBool] at hbl
        | bgt => simp [isBool] at hbl
        | bge => simp [isBool] at hbl
        | band => simp [isBool] at hbl
        | bor => simp [isBool] at hbl
  | Not a ih => exact nz_bool_eval O _ σ rfl
  | Select c t f ihc iht ihf =>
      by_cases hbl : isBool (.Select c t f) = true
      · exact nz_bool_eval O _ σ hbl
      · rw [show NonzeronessCondition O (.Select c t f) =
          nzSelect O c (NonzeronessCondition O t) (NonzeronessCondition O f) by
          rw [NonzeronessCondition.eq_def]
          simp [hbl]]
        exact nzSelect_eval O hS σ c t f _ _ iht ihf
  | IfThenElse c t f ihc iht ihf =>
      by_cases hbl : isBool (.IfThenElse c t f) = true
      · exact nz_bool_eval O _ σ hbl
      · rw [show NonzeronessCondition O (.IfThenElse c t f) =
          ⟨O.simp (.Bin .bor (.Bin .band c (NonzeronessCondition O t).cond)
                             (.Bin .band (.Not c) (NonzeronessCondition O f).cond)) [],
           .IfThenElse c (NonzeronessCondition O t).value (NonzeronessCondition O f).value⟩ by
          rw [NonzeronessCondition.eq_def]
          simp [hbl]]
        rw [eval_to_expr] at iht ihf ⊢
        have hnc : eval σ (O.simp (.Bin .bor (.Bin .band c (NonzeronessCondition O t).cond)
            (.Bin .band (.Not c) (NonzeronessCondition O f).cond)) []) =
            eval σ (.Bin .bor (.Bin .band c (NonzeronessCondition O t).cond)
              (.Bin .band (.Not c) (NonzeronessCondition O f).cond)) := simp_eval_nil O hS _ σ
        by_cases hc : eval σ c ≠ 0
        · have hcnd : eval σ (O.simp (.Bin .bor (.Bin .band c (NonzeronessCondition O t).cond)
              (.Bin .band (.Not c) (NonzeronessCondition O f).cond)) []) ≠ 0 ↔
              eval σ (NonzeronessCondition O t).cond ≠ 0 := by
            rw [hnc, eval_bor_ne, eval_band_ne, eval_band_ne, eval_not_ne]
            constructor
            · rintro (⟨_, h⟩ | ⟨h2, _⟩)
              · exact h
              · exact absurd hc h2
            · intro h
              exact Or.inl ⟨hc, h⟩
          by_cases hca : eval σ (NonzeronessCondition O t).cond ≠ 0
          · rw [if_pos (hcnd.mpr hca)]
            rw [if_pos hca] at iht
            simp only [eval, if_pos hc]
            exact iht
          · rw [if_neg (fun hx => hca (hcnd.mp hx))]
            rw [if_neg hca] at iht
            simp only [eval, if_pos hc]
            exact iht
        · have hcnd : eval σ (O.simp (.Bin .bor (.Bin .band c (NonzeronessCondition O t).cond)
              (.Bin .band (.Not c) (NonzeronessCondition O f).cond)) []) ≠ 0 ↔
              eval σ (NonzeronessCondition O f).cond ≠ 0 := by
            rw [hnc, eval_bor_ne, eval_band_ne, eval_band_ne, eval_not_ne]
            constructor
            · rintro (⟨h2, _⟩ | ⟨_, h⟩)
              · exact absurd h2 hc
              · exact h
            · intro h
              exact Or.inr ⟨hc, h⟩
          by_cases hcb : eval σ (NonzeronessCondition O f).cond ≠ 0
          · rw [if_pos (hcnd.mpr hcb)]
            rw [if_pos hcb] at ihf
            simp only [eval, if_neg hc]
            exact ihf
          · rw [if_neg (fun hx => hcb (hcnd.mp hx))]
            rw [if_neg hcb] at ihf
            simp only [eval, if_neg hc]
            exact ihf
  | Cast a ih =>
      rw [show NonzeronessCondition O (.Cast a) =
        ⟨(NonzeronessCondition O a).cond, .Cast (NonzeronessCondition O a).value⟩ by
        rw [NonzeronessCondition.eq_def]
        rfl]
      rw [eval_to_expr] at ih ⊢
      by_cases h0 : eval σ (NonzeronessCondition O a).cond ≠ 0
      · rw [if_pos h0]
        rw [if_pos h0] at ih
        simpa [eval] using ih
      · rw [if_neg h0]
        rw [if_neg h0] at ih
        simpa [eval] using ih

/-- C1: For every expression and every assignment of its free variables
respecting the variable ranges, the expression equals select(c, v, 0)
where (c, v) = NonzeronessCondition(expr); consequently
LiftNonzeronessCondition(expr) denotes the same value as the original
expression. -/
theorem nonzeroness_condition_sound (O : Oracles) (hS : SimpSound O)
    (expr : Expr) (vranges : VMap Rng) (σ : Nat → Int) (_hσ : satisfies σ vranges) :
    eval σ (SelectElseZero (NonzeronessCondition O expr).cond
      (NonzeronessCondition O expr).value) = eval σ expr ∧
    eval σ (LiftNonzeronessCondition O expr) = eval σ expr :=
  ⟨nz_to_expr_eval O hS expr σ, nz_to_expr_eval O hS expr σ⟩

/-- Witness of C1 on the concrete expression select(x0 == 3, x1, 0) and
the assignment x0 = 3, others 7, with empty variable ranges. -/
theorem nonzeroness_condition_sound_witness :
    SimpSound trivOracles ∧
    satisfies (fun v => if v = 0 then 3 else 7) [] ∧
    (eval (fun v => if v = 0 then 3 else 7)
        (SelectElseZero
          (NonzeronessCondition trivOracles
            (.Select (.Bin .beq (.Var 0) (.IntImm 3)) (.Var 1) (.IntImm 0))).cond
          (NonzeronessCondition trivOracles
            (.Select (.Bin .beq (.Var 0) (.IntImm 3)) (.Var 1) (.IntImm 0))).value) =
      eval (fun v => if v = 0 then 3 else 7)
        (.Select (.Bin .beq (.Var 0) (.IntImm 3)) (.Var 1) (.IntImm 0)) ∧
     eval (fun v => if v = 0 then 3 else 7)
        (LiftNonzeronessCondition trivOracles
          (.Select (.Bin .beq (.Var 0) (.IntImm 3)) (.Var 1) (.IntImm 0))) =
      eval (fun v => if v = 0 then 3 else 7)
        (.Select (.Bin .beq (.Var 0) (.IntImm 3)) (.Var 1) (.IntImm 0))) :=
  ⟨fun _ _ _ _ => rfl, satisfies_nil _,
   nonzeroness_condition_sound trivOracles (fun _ _ _ _ => rfl) _ [] _ (satisfies_nil _)⟩

theorem impl_ncv_default (e : Expr) (vars : List Nat)
    (hd : ImplicationNotContainingVars e vars =
      if vars.any (fun v => occurs v e) then (.BoolImm true, e) else (e, .BoolImm true)) :
    (∀ σ : Nat → Int, eval σ e ≠ 0 ↔
      (eval σ (ImplicationNotContainingVars e vars).1 ≠ 0 ∧
       eval σ (ImplicationNotContainingVars e vars).2 ≠ 0)) ∧
    ∀ v ∈ vars, occurs v (ImplicationNotContainingVars e vars).1 = false := by
  rw [hd]
  by_cases h : vars.any (fun v => occurs v e) = true
  · rw [if_pos h]
    refine ⟨fun σ => ?_, fun v hv => rfl⟩
    simp [eval]
  · rw [if_neg h]
    refine ⟨fun σ => ?_, fun v hv => ?_⟩
    · simp [eval]
    · have := List.any_eq_false.mp (Bool.eq_false_iff.mpr h) v hv
      simpa using this

theorem impl_ncv_parts (cond : Expr) (vars : List Nat) :
    (∀ σ : Nat → Int, eval σ cond ≠ 0 ↔
      (eval σ (ImplicationNotContainingVars cond vars).1 ≠ 0 ∧
       eval σ (ImplicationNotContainingVars cond vars).2 ≠ 0)) ∧
    ∀ v ∈ vars, occurs v (ImplicationNotContainingVars cond vars).1 = false := by
  induction cond with
  | IntImm v => exact impl_ncv_default _ _ rfl
  | BoolImm b => exact impl_ncv_default _ _ rfl
  | Var v => exact impl_ncv_default _ _ rfl
  | Not a iha => exact impl_ncv_default _ _ rfl
  | Select c t f ihc iht ihf => exact impl_ncv_default _ _ rfl
  | IfThenElse c t f ihc iht ihf => exact impl_ncv_default _ _ rfl
  | Cast a iha => exact impl_ncv_default _ _ rfl
  | Bin op a b iha ihb =>
      cases op with
      | band =>
          refine ⟨fun σ => ?_, fun v hv => ?_⟩
          · have h1 := iha.1 σ
            have h2 := ihb.1 σ
            show eval σ (.Bin .band a b) ≠ 0 ↔ _
            rw [show ImplicationNotContainingVars (.Bin .band a b) vars =
              (.Bin .band (ImplicationNotContainingVars a vars).1
                 (ImplicationNotContainingVars b vars).1,
               .Bin .band (ImplicationNotContainingVars a vars).2
                 (ImplicationNotContainingVars b vars).2) from rfl]
            rw [eval_band_ne, eval_band_ne, eval_band_ne]
            tauto
          · rw [show ImplicationNotContainingVars (.Bin .band a b) vars =
              (.Bin .band (ImplicationNotContainingVars a vars).1
                 (ImplicationNotContainingVars b vars).1,
               .Bin .band (ImplicationNotContainingVars a vars).2
                 (ImplicationNotContainingVars b vars).2) from rfl]
            simp [occurs, iha.2 v hv, ihb.2 v hv]
      | bor =>
          refine ⟨fun σ => ?_, fun v hv => ?_⟩
          · have h1 := iha.1 σ
            have h2 := ihb.1 σ
            show eval σ (.Bin .bor a b) ≠ 0 ↔ _
            rw [show ImplicationNotContainingVars (.Bin .bor a b) vars =
              (.Bin .bor (ImplicationNotContainingVars a vars).1
                 (ImplicationNotContainingVars b vars).1,
               .Bin .band (.Bin .band
                   (.Bin .bor (ImplicationNotContainingVars a vars).1
                      (ImplicationNotContainingVars b vars).2)
                   (.Bin .bor (ImplicationNotContainingVars b vars).1
                      (ImplicationNotContainingVars a vars).2))
                 (.Bin .bor (ImplicationNotContainingVars a vars).2
                    (ImplicationNotContainingVars b vars).2)) from rfl]
            rw [eval_bor_ne, eval_bor_ne, eval_band_ne, eval_band_ne,
              eval_bor_ne, eval_bor_ne, eval_bor_ne]
            tauto
          · rw [show ImplicationNotContainingVars (.Bin .bor a b) vars =
              (.Bin .bor (ImplicationNotContainingVars a vars).1
                 (ImplicationNotContainingVars b vars).1,
               .Bin .band (.Bin .band
                   (.Bin .bor (ImplicationNotContainingVars a vars).1
                      (ImplicationNotContainingVars b vars).2)
                   (.Bin .bor (ImplicationNotContainingVars b vars).1
                      (ImplicationNotContainingVars a vars).2))
                 (.Bin .bor (ImplicationNotContainingVars a vars).2
                    (ImplicationNotContainingVars b vars).2)) from rfl]
            simp [occurs, iha.2 v hv, ihb.2 v hv]
      | add => exact impl_ncv_default _ _ rfl
      | sub => exact impl_ncv_default _ _ rfl
      | mul => exact impl_ncv_default _ _ rfl
      | tdiv => exact impl_ncv_default _ _ rfl
      | tmod => exact impl_ncv_default _ _ rfl
      | fdiv => exact impl_ncv_default _ _ rfl
      | fmod => exact impl_ncv_default _ _ rfl
      | bmin => exact impl_ncv_default _ _ rfl
      | bmax => exact impl_ncv_default _ _ rfl
      | beq => exact impl_ncv_default _ _ rfl
      | bne => exact impl_ncv_default _ _ rfl
      | blt => exact impl_ncv_default _ _ rfl
      | ble => exact impl_ncv_default _ _ rfl
      | bgt => exact impl_ncv_default _ _ rfl
      | bge => exact impl_ncv_default _ _ rfl

theorem fdiv_neg_divisor (x c : Int) (h : 0 < c) : Int.fdiv x (-c) = Int.fdiv (-x) c := by
  lift c to Nat using h.le with k hk
  obtain ⟨j, rfl⟩ : ∃ j, k = j + 1 := ⟨k - 1, by omega⟩
  rcases x with m | m
  · cases m with
    | zero => rfl
    | succ i => rfl
  · rfl

theorem fmod_neg_divisor (x c : Int) (h : 0 < c) :
    Int.fmod x (-c) = -(Int.fmod (-x) c) := by
  have h1 := fdiv_neg_divisor x c h
  have h2 := Int.fdiv_add_fmod x (-c)
  have h3 := Int.fdiv_add_fmod (-x) c
  rw [h1, neg_mul] at h2
  linarith

/-- C6: in EliminateDivMod, a division or modulo by a negative integer
constant is rewritten through value-preserving identities: for 0 < c,
truncdiv(x,-c) = -truncdiv(x,c) and truncmod(x,-c) = truncmod(x,c) and
floordiv(x,-c) = floordiv(-x,c) and floormod(x,-c) = -floormod(-x,c);
and the mutator performs exactly these rewrites before recursing. -/
theorem eliminate_div_mod_negative_divisor (O : Oracles) (σ : Nat → Int)
    (x a : Expr) (c : Int) (s : ElimState) (hc : 0 < c) :
    (eval σ (.Bin .tdiv x (.IntImm (-c))) =
       eval σ (.Bin .sub (.IntImm 0) (.Bin .tdiv x (.IntImm c))) ∧
     eval σ (.Bin .tmod x (.IntImm (-c))) = eval σ (.Bin .tmod x (.IntImm c)) ∧
     eval σ (.Bin .fdiv x (.IntImm (-c))) =
       eval σ (.Bin .fdiv (.Bin .sub (.IntImm 0) x) (.IntImm c)) ∧
     eval σ (.Bin .fmod x (.IntImm (-c))) =
       eval σ (.Bin .sub (.IntImm 0)
         (.Bin .fmod (.Bin .sub (.IntImm 0) x) (.IntImm c)))) ∧
    (elimMutate O (.Bin .tdiv a (.IntImm (-c))) s =
       (.Bin .sub (.IntImm 0) (elimMutate O (.Bin .tdiv a (.IntImm c)) s).1,
        (elimMutate O (.Bin .tdiv a (.IntImm c)) s).2) ∧
     elimMutate O (.Bin .tmod a (.IntImm (-c))) s =
       elimMutate O (.Bin .tmod a (.IntImm c)) s ∧
     elimMutate O (.Bin .fdiv a (.IntImm (-c))) s =
       elimMutate O (.Bin .fdiv (.Bin .sub (.IntImm 0) a) (.IntImm c)) s ∧
     elimMutate O (.Bin .fmod a (.IntImm (-c))) s =
       elimMutate O (.Bin .sub (.IntImm 0)
         (.Bin .fmod (.Bin .sub (.IntImm 0) a) (.IntImm c))) s) := by
  have hne : (-c : Int) ≠ 0 := by omega
  have hlt : (-c : Int) < 0 := by omega
  constructor
  · refine ⟨?_, ?_, ?_, ?_⟩
    · simp only [eval, evalBin, Int.tdiv_neg]
      omega
    · simp only [eval, evalBin, Int.tmod_neg]
    · simp only [eval, evalBin, zero_sub, fdiv_neg_divisor (eval σ x) c hc]
    · simp only [eval, evalBin, zero_sub, fmod_neg_divisor (eval σ x) c hc]
  · refine ⟨?_, ?_, ?_, ?_⟩
    · conv_lhs => rw [elimMutate]
      rw [if_pos hne, if_pos hlt, neg_neg]
    · conv_lhs => rw [elimMutate]
      rw [if_pos hne, if_pos hlt, neg_neg]
    · conv_lhs => rw [elimMutate]
      rw [if_pos hne, if_pos hlt, neg_neg]
    · conv_lhs => rw [elimMutate]
      rw [if_pos hne, if_pos hlt, neg_neg]

/-- Witness of C6 at c = 4, x = a = the variable x0, the trivial oracles
and an empty eliminator state. -/
theorem eliminate_div_mod_negative_divisor_witness :
    (0 : Int) < 4 ∧
    ((eval (fun _ => 9) (.Bin .tdiv (.Var 0) (.IntImm (-4))) =
       eval (fun _ => 9) (.Bin .sub (.IntImm 0) (.Bin .tdiv (.Var 0) (.IntImm 4))) ∧
      eval (fun _ => 9) (.Bin .tmod (.Var 0) (.IntImm (-4))) =
       eval (fun _ => 9) (.Bin .tmod (.Var 0) (.IntImm 4)) ∧
      eval (fun _ => 9) (.Bin .fdiv (.Var 0) (.IntImm (-4))) =
       eval (fun _ => 9) (.Bin .fdiv (.Bin .sub (.IntImm 0) (.Var 0)) (.IntImm 4)) ∧
      eval (fun _ => 9) (.Bin .fmod (.Var 0) (.IntImm (-4))) =
       eval (fun _ => 9) (.Bin .sub (.IntImm 0)
         (.Bin .fmod (.Bin .sub (.IntImm 0) (.Var 0)) (.IntImm 4)))) ∧
     (elimMutate trivOracles (.Bin .tdiv (.Var 0) (.IntImm (-4)))
         ⟨[], [], [], [], 0, [], 50⟩ =
       (.Bin .sub (.IntImm 0)
          (elimMutate trivOracles (.Bin .tdiv (.Var 0) (.IntImm 4))
             ⟨[], [], [], [], 0, [], 50⟩).1,
        (elimMutate trivOracles (.Bin .tdiv (.Var 0) (.IntImm 4))
           ⟨[], [], [], [], 0, [], 50⟩).2) ∧
      elimMutate trivOracles (.Bin .tmod (.Var 0) (.IntImm (-4)))
         ⟨[], [], [], [], 0, [], 50⟩ =
       elimMutate trivOracles (.Bin .tmod (.Var 0) (.IntImm 4))
         ⟨[], [], [], [], 0, [], 50⟩ ∧
      elimMutate trivOracles (.Bin .fdiv (.Var 0) (.IntImm (-4)))
         ⟨[], [], [], [], 0, [], 50⟩ =
       elimMutate trivOracles (.Bin .fdiv (.Bin .sub (.IntImm 0) (.Var 0)) (.IntImm 4))
         ⟨[], [], [], [], 0, [], 50⟩ ∧
      elimMutate trivOracles (.Bin .fmod (.Var 0) (.IntImm (-4)))
         ⟨[], [], [], [], 0, [], 50⟩ =
       elimMutate trivOracles (.Bin .sub (.IntImm 0)
           (.Bin .fmod (.Bin .sub (.IntImm 0) (.Var 0)) (.IntImm 4)))
         ⟨[], [], [], [], 0, [], 50⟩)) :=
  ⟨by decide,
   eliminate_div_mod_negative_divisor trivOracles (fun _ => 9) (.Var 0) (.Var 0) 4
     ⟨[], [], [], [], 0, [], 50⟩ (by decide)⟩

/-- C8: during div/mod elimination, when the range of the candidate div
or mod expression cannot be inferred (the interval evaluator returns an
undefined range), AddNewVarPair aborts without an error: the
substitution, variable list, conditions, range map and memo map are
unchanged (only the naming counter advances), and the mutator keeps the
original division node over the recursively mutated numerator. -/
theorem eliminate_div_mod_unbounded_abort (O : Oracles) (e emut : Expr) (val : Int)
    (mode : DivMode) (s : ElimState) (a : Expr) (c : Int) (s0 : ElimState)
    (hmiss : (if e = emut then none else lookupMemo s.exprToVars (mode, emut, val)) = none)
    (hrange : O.evalSet (DivImpl emut (.IntImm val) mode) s.ranges = none ∨
              O.evalSet (ModImpl emut (.IntImm val) mode) s.ranges = none)
    (hc : 0 < c)
    (hm0 : lookupMemo s0.exprToVars (.kTruncDiv, a, c) = none)
    (hab : (AddNewVarPair O a (elimMutate O a s0).1 c .kTruncDiv
             (elimMutate O a s0).2).1 = none) :
    AddNewVarPair O e emut val mode s = (none, { s with idx := s.idx + 1 }) ∧
    elimMutate O (.Bin .tdiv a (.IntImm c)) s0 =
      (.Bin .tdiv (elimMutate O a s0).1 (.IntImm c),
       (AddNewVarPair O a (elimMutate O a s0).1 c .kTruncDiv (elimMutate O a s0).2).2) := by
  constructor
  · rcases hrange with h | h
    · cases hm : O.evalSet (ModImpl emut (.IntImm val) mode) s.ranges <;>
        simp [AddNewVarPair, hmiss, h, hm]
    · cases hd : O.evalSet (DivImpl emut (.IntImm val) mode) s.ranges <;>
        simp [AddNewVarPair, hmiss, h, hd]
  · have hc0 : c ≠ 0 := by omega
    have hcn : ¬ c < 0 := by omega
    conv_lhs => rw [elimMutate]
    rw [if_pos hc0, if_neg hcn, hm0]
    simp only [hab]

/-- Witness of C8 with the trivial oracles (whose interval evaluator is
everywhere undefined), empty states and the subterm x0 / 7. -/
theorem eliminate_div_mod_unbounded_abort_witness :
    ((if (Expr.Var 0 : Expr) = .Var 0 then none
        else lookupMemo ([] : List ((DivMode × Expr × Int) × (Nat × Nat)))
          (DivMode.kTruncDiv, .Var 0, 7)) = none) ∧
    (trivOracles.evalSet (DivImpl (.Var 0) (.IntImm 7) .kTruncDiv) [] = none ∨
     trivOracles.evalSet (ModImpl (.Var 0) (.IntImm 7) .kTruncDiv) [] = none) ∧
    (0 : Int) < 7 ∧
    (AddNewVarPair trivOracles (.Var 0) (.Var 0) 7 .kTruncDiv
       ⟨[], [], [], [], 0, [], 50⟩ =
      (none, { substitution := [], new_variables := [], conditions := [], ranges := [],
               idx := 1, exprToVars := [], base := 50 }) ∧
     elimMutate trivOracles (.Bin .tdiv (.Var 0) (.IntImm 7)) ⟨[], [], [], [], 0, [], 50⟩ =
      (.Bin .tdiv (elimMutate trivOracles (.Var 0) ⟨[], [], [], [], 0, [], 50⟩).1 (.IntImm 7),
       (AddNewVarPair trivOracles (.Var 0)
          (elimMutate trivOracles (.Var 0) ⟨[], [], [], [], 0, [], 50⟩).1 7 .kTruncDiv
          (elimMutate trivOracles (.Var 0) ⟨[], [], [], [], 0, [], 50⟩).2).2)) :=
  ⟨rfl, Or.inl rfl, by decide,
   eliminate_div_mod_unbounded_abort trivOracles (.Var 0) (.Var 0) 7 .kTruncDiv
     ⟨[], [], [], [], 0, [], 50⟩ (.Var 0) 7 ⟨[], [], [], [], 0, [], 50⟩
     rfl (Or.inl rfl) (by decide) rfl
     (by simp [elimMutate, AddNewVarPair, trivOracles, lookupMemo])⟩

theorem encInt_inj (v w : Int) (h : encInt v = encInt w) : v = w := by
  unfold encInt at h
  rw [Nat.pair_eq_pair] at h
  rcases h with ⟨h1, h2⟩
  split_ifs at h1 <;> omega

theorem encBinOp_inj : ∀ o1 o2 : BinOp, encBinOp o1 = encBinOp o2 → o1 = o2 := by
  intro o1 o2 h
  cases o1 <;> cases o2 <;> first | rfl | simp [encBinOp] at h

theorem enc_inj : ∀ a b : Expr, enc a = enc b → a = b := by
  intro a
  induction a with
  | IntImm v =>
      intro b h
      cases b <;> simp [enc, Nat.pair_eq_pair] at h
      rw [encInt_inj _ _ h]
  | BoolImm v =>
      intro b h
      cases b <;> simp [enc, Nat.pair_eq_pair] at h
      rename_i b2
      cases v <;> cases b2 <;> simp at h <;> rfl
  | Var v =>
      intro b h
      cases b <;> simp [enc, Nat.pair_eq_pair] at h
      rw [h]
  | Bin op a b iha ihb =>
      intro e h
      cases e <;> simp [enc, Nat.pair_eq_pair] at h
      rw [encBinOp_inj _ _ h.1, iha _ h.2.1, ihb _ h.2.2]
  | Not a iha =>
      intro b h
      cases b <;> simp [enc, Nat.pair_eq_pair] at h
      rw [iha _ h]
  | Select c t f ihc iht ihf =>
      intro b h
      cases b <;> simp [enc, Nat.pair_eq_pair] at h
      rw [ihc _ h.1, iht _ h.2.1, ihf _ h.2.2]
  | IfThenElse c t f ihc iht ihf =>
      intro b h
      cases b <;> simp [enc, Nat.pair_eq_pair] at h
      rw [ihc _ h.1, iht _ h.2.1, ihf _ h.2.2]
  | Cast a iha =>
      intro b h
      cases b <;> simp [enc, Nat.pair_eq_pair] at h
      rw [iha _ h]

theorem expr_eq_of_not_less (x y : Expr) (h1 : ExprLess x y = false)
    (h2 : ExprLess y x = false) : x = y := by
  unfold ExprLess at h1 h2
  simp at h1 h2
  exact enc_inj x y (Nat.le_antisymm h2 h1)

theorem expr_lt_of_less (x y : Expr) (h : ExprLess x y = true) : enc x < enc y := by
  unfold ExprLess at h
  simpa using h

theorem mem_setUnion (xs ys : List Expr) :
    ∀ z, z ∈ setUnion xs ys → z ∈ xs ∨ z ∈ ys := by
  induction xs, ys using setUnion.induct with
  | case1 ys => intro z hz; exact Or.inr (by simpa [setUnion] using hz)
  | case2 x xs => intro z hz; exact Or.inl (by simpa [setUnion] using hz)
  | case3 x xs y ys hlt ih =>
      intro z hz
      rw [setUnion, if_pos hlt] at hz
      rcases List.mem_cons.mp hz with h | h
      · exact Or.inl (List.mem_cons.mpr (Or.inl h))
      · rcases ih z h with h2 | h2
        · exact Or.inl (List.mem_cons.mpr (Or.inr h2))
        · exact Or.inr h2
  | case4 x xs y ys hlt hgt ih =>
      intro z hz
      rw [setUnion, if_neg (by simp [hlt]), if_pos hgt] at hz
      rcases List.mem_cons.mp hz with h | h
      · exact Or.inr (List.mem_cons.mpr (Or.inl h))
      · rcases ih z h with h2 | h2
        · exact Or.inl h2
        · exact Or.inr (List.mem_cons.mpr (Or.inr h2))
  | case5 x xs y ys hlt hgt ih =>
      intro z hz
      rw [setUnion, if_neg (by simp [hlt]), if_neg (by simp [hgt])] at hz
      rcases List.mem_cons.mp hz with h | h
      · exact Or.inl (List.mem_cons.mpr (Or.inl h))
      · rcases ih z h with h2 | h2
        · exact Or.inl (List.mem_cons.mpr (Or.inr h2))
        · exact Or.inr (List.mem_cons.mpr (Or.inr h2))

theorem setUnion_mem_of_mem (xs ys : List Expr) :
    ∀ z, (z ∈ xs ∨ z ∈ ys) → z ∈ setUnion xs ys := by
  induction xs, ys using setUnion.induct with
  | case1 ys =>
      intro z hz
      rcases hz with h | h
      · cases h
      · simpa [setUnion] using h
  | case2 x xs =>
      intro z hz
      rcases hz with h | h
      · simpa [setUnion] using h
      · cases h
  | case3 x xs y ys hlt ih =>
      intro z hz
      rw [setUnion, if_pos hlt]
      rcases hz with h | h
      · rcases List.mem_cons.mp h with h2 | h2
        · exact List.mem_cons.mpr (Or.inl h2)
        · exact List.mem_cons.mpr (Or.inr (ih z (Or.inl h2)))
      · exact List.mem_cons.mpr (Or.inr (ih z (Or.inr h)))
  | case4 x xs y ys hlt hgt ih =>
      intro z hz
      rw [setUnion, if_neg (by simp [hlt]), if_pos hgt]
      rcases hz with h | h
      · exact List.mem_cons.mpr (Or.inr (ih z (Or.inl h)))
      · rcases List.mem_cons.mp h with h2 | h2
        · exact List.mem_cons.mpr (Or.inl h2)
        · exact List.mem_cons.mpr (Or.inr (ih z (Or.inr h2)))
  | case5 x xs y ys hlt hgt ih =>
      intro z hz
      rw [setUnion, if_neg (by simp [hlt]), if_neg (by simp [hgt])]
      have hxy : x = y := expr_eq_of_not_less x y (by simp [hlt]) (by simp [hgt])
      rcases hz with h | h
      · rcases List.mem_cons.mp h with h2 | h2
        · exact List.mem_cons.mpr (Or.inl h2)
        · exact List.mem_cons.mpr (Or.inr (ih z (Or.inl h2)))
      · rcases List.mem_cons.mp h with h2 | h2
        · exact List.mem_cons.mpr (Or.inl (by rw [h2, hxy]))
        · exact List.mem_cons.mpr (Or.inr (ih z (Or.inr h2)))

theorem setInter_sublist (xs ys : List Expr) : (setInter xs ys).Sublist xs := by
  induction xs, ys using setInter.induct with
  | case1 ys => simp [setInter]
  | case2 x xs => simp [setInter]
  | case3 x xs y ys hlt ih =>
      rw [setInter, if_pos hlt]
      exact ih.trans (List.sublist_cons_self x xs)
  | case4 x xs y ys hlt hgt ih =>
      rw [setInter, if_neg (by simp [hlt]), if_pos hgt]
      exact ih
  | case5 x xs y ys hlt hgt ih =>
      rw [setInter, if_neg (by simp [hlt]), if_neg (by simp [hgt])]
      exact ih.cons₂ x

theorem setDiff_sublist (xs ys : List Expr) : (setDiff xs ys).Sublist xs := by
  induction xs, ys using setDiff.induct with
  | case1 ys => simp [setDiff]
  | case2 x xs => simp [setDiff]
  | case3 x xs y ys hlt ih =>
      rw [setDiff, if_pos hlt]
      exact ih.cons₂ x
  | case4 x xs y ys hlt hgt ih =>
      rw [setDiff, if_neg (by simp [hlt]), if_pos hgt]
      exact ih
  | case5 x xs y ys hlt hgt ih =>
      rw [setDiff, if_neg (by simp [hlt]), if_neg (by simp [hgt])]
      exact ih.trans (List.sublist_cons_self x xs)

theorem setDiff_cover (xs ys : List Expr) :
    ∀ z, z ∈ xs → z ∈ setDiff xs ys ∨ z ∈ ys := by
  induction xs, ys using setDiff.induct with
  | case1 ys => intro z hz; cases hz
  | case2 x xs => intro z hz; exact Or.inl (by simpa [setDiff] using hz)
  | case3 x xs y ys hlt ih =>
      intro z hz
      rw [setDiff, if_pos hlt]
      rcases List.mem_cons.mp hz with h | h
      · exact Or.inl (List.mem_cons.mpr (Or.inl h))
      · rcases ih z h with h2 | h2
        · exact Or.inl (List.mem_cons.mpr (Or.inr h2))
        · exact Or.inr h2
  | case4 x xs y ys hlt hgt ih =>
      intro z hz
      rw [setDiff, if_neg (by simp [hlt]), if_pos hgt]
      rcases ih z hz with h2 | h2
      · exact Or.inl h2
      · exact Or.inr (List.mem_cons.mpr (Or.inr h2))
  | case5 x xs y ys hlt hgt ih =>
      intro z hz
      have hxy : x = y := expr_eq_of_not_less x y (by simp [hlt]) (by simp [hgt])
      rw [setDiff, if_neg (by simp [hlt]), if_neg (by simp [hgt])]
      rcases List.mem_cons.mp hz with h | h
      · exact Or.inr (List.mem_cons.mpr (Or.inl (by rw [h, hxy])))
      · rcases ih z h with h2 | h2
        · exact Or.inl h2
        · exact Or.inr (List.mem_cons.mpr (Or.inr h2))

theorem setUnion_sorted (xs ys : List Expr)
    (hx : xs.Pairwise (fun a b => enc a < enc b))
    (hy : ys.Pairwise (fun a b => enc a < enc b)) :
    (setUnion xs ys).Pairwise (fun a b => enc a < enc b) := by
  induction xs, ys using setUnion.induct with
  | case1 ys => simpa [setUnion] using hy
  | case2 x xs => simpa [setUnion] using hx
  | case3 x xs y ys hlt ih =>
      rw [setUnion, if_pos hlt]
      refine List.Pairwise.cons ?_ (ih (List.Pairwise.of_cons hx) hy)
      intro z hz
      rcases mem_setUnion _ _ z hz with h | h
      · exact (List.pairwise_cons.mp hx).1 z h
      · rcases List.mem_cons.mp h with h2 | h2
        · rw [h2]; exact expr_lt_of_less x y hlt
        · exact Nat.lt_trans (expr_lt_of_less x y hlt) ((List.pairwise_cons.mp hy).1 z h2)
  | case4 x xs y ys hlt hgt ih =>
      rw [setUnion, if_neg (by simp [hlt]), if_pos hgt]
      refine List.Pairwise.cons ?_ (ih hx (List.Pairwise.of_cons hy))
      intro z hz
      rcases mem_setUnion _ _ z hz with h | h
      · rcases List.mem_cons.mp h with h2 | h2
        · rw [h2]; exact expr_lt_of_less y x hgt
        · exact Nat.lt_trans (expr_lt_of_less y x hgt) ((List.pairwise_cons.mp hx).1 z h2)
      · exact (List.pairwise_cons.mp hy).1 z h
  | case5 x xs y ys hlt hgt ih =>
      have hxy : x = y := expr_eq_of_not_less x y (by simp [hlt]) (by simp [hgt])
      rw [setUnion, if_neg (by simp [hlt]), if_neg (by simp [hgt])]
      refine List.Pairwise.cons ?_ (ih (List.Pairwise.of_cons hx) (List.Pairwise.of_cons hy))
      intro z hz
      rcases mem_setUnion _ _ z hz with h | h
      · exact (List.pairwise_cons.mp hx).1 z h
      · rw [hxy]; exact (List.pairwise_cons.mp hy).1 z h

theorem mem_setInter_right (xs ys : List Expr) :
    ∀ z, z ∈ setInter xs ys → z ∈ ys := by
  induction xs, ys using setInter.induct with
  | case1 ys => intro z hz; simp [setInter] at hz
  | case2 x xs => intro z hz; simp [setInter] at hz
  | case3 x xs y ys hlt ih =>
      intro z hz
      rw [setInter, if_pos hlt] at hz
      exact ih z hz
  | case4 x xs y ys hlt hgt ih =>
      intro z hz
      rw [setInter, if_neg (by simp [hlt]), if_pos hgt] at hz
      exact List.mem_cons.mpr (Or.inr (ih z hz))
  | case5 x xs y ys hlt hgt ih =>
      intro z hz
      have hxy : x = y := expr_eq_of_not_less x y (by simp [hlt]) (by simp [hgt])
      rw [setInter, if_neg (by simp [hlt]), if_neg (by simp [hgt])] at hz
      rcases List.mem_cons.mp hz with h | h
      · exact List.mem_cons.mpr (Or.inl (by rw [h, hxy]))
      · exact List.mem_cons.mpr (Or.inr (ih z h))

theorem to_expr_nz (σ : Nat → Int) :
    ∀ (atoms : List Expr) (rest : Expr),
    (eval σ (FactorOutAtomicFormulasResult.to_expr ⟨atoms, rest⟩) ≠ 0 ↔
      ((∀ x ∈ atoms, eval σ x ≠ 0) ∧ eval σ rest ≠ 0)) := by
  intro atoms
  induction atoms with
  | nil => simp [FactorOutAtomicFormulasResult.to_expr]
  | cons x xs ih =>
      intro rest
      have hstep : FactorOutAtomicFormulasResult.to_expr ⟨x :: xs, rest⟩ =
          FactorOutAtomicFormulasResult.to_expr ⟨xs, .Bin .band x rest⟩ := rfl
      rw [hstep, ih (.Bin .band x rest), eval_band_ne]
      constructor
      · rintro ⟨hall, hx, hrest⟩
        exact ⟨fun z hz => by
          rcases List.mem_cons.mp hz with h | h
          · rw [h]; exact hx
          · exact hall z h, hrest⟩
      · rintro ⟨hall, hrest⟩
        exact ⟨fun z hz => hall z (List.mem_cons.mpr (Or.inr hz)),
               hall x (List.mem_cons.mpr (Or.inl rfl)), hrest⟩

theorem to_expr_nz_eta (σ : Nat → Int) (r : FactorOutAtomicFormulasResult) :
    (eval σ r.to_expr ≠ 0 ↔
      ((∀ x ∈ r.atomic_formulas, eval σ x ≠ 0) ∧ eval σ r.rest ≠ 0)) := by
  cases r
  exact to_expr_nz σ _ _

theorem fo_main (e : Expr) :
    (∀ σ : Nat → Int, eval σ ((FactorOutAtomicFormulas e).to_expr) ≠ 0 ↔ eval σ e ≠ 0) ∧
    ((FactorOutAtomicFormulas e).atomic_formulas.Pairwise (fun a b => enc a < enc b)) ∧
    (∀ x ∈ (FactorOutAtomicFormulas e).atomic_formulas, atomOutShape x = true) := by
  induction e using FactorOutAtomicFormulas.induct with
  | case1 a b iha ihb =>
      have heq : FactorOutAtomicFormulas (.Bin .band a b) =
          ⟨setUnion (FactorOutAtomicFormulas a).atomic_formulas
             (FactorOutAtomicFormulas b).atomic_formulas,
           .Bin .band (FactorOutAtomicFormulas a).rest (FactorOutAtomicFormulas b).rest⟩ := by
        conv_lhs => rw [FactorOutAtomicFormulas]
      rw [heq]
      refine ⟨fun σ => ?_, ?_, ?_⟩
      · rw [to_expr_nz σ _ _, eval_band_ne, eval_band_ne]
        have ha := iha.1 σ
        have hb := ihb.1 σ
        rw [to_expr_nz_eta] at ha hb
        have hun : (∀ x ∈ setUnion (FactorOutAtomicFormulas a).atomic_formulas
              (FactorOutAtomicFormulas b).atomic_formulas, eval σ x ≠ 0) ↔
            ((∀ x ∈ (FactorOutAtomicFormulas a).atomic_formulas, eval σ x ≠ 0) ∧
             (∀ x ∈ (FactorOutAtomicFormulas b).atomic_formulas, eval σ x ≠ 0)) := by
          constructor
          · intro h
            exact ⟨fun x hx => h x (setUnion_mem_of_mem _ _ x (Or.inl hx)),
                   fun x hx => h x (setUnion_mem_of_mem _ _ x (Or.inr hx))⟩
          · intro h x hx
            rcases mem_setUnion _ _ x hx with h2 | h2
            · exact h.1 x h2
            · exact h.2 x h2
        rw [hun]
        tauto
      · exact setUnion_sorted _ _ iha.2.1 ihb.2.1
      · intro x hx
        rcases mem_setUnion _ _ x hx with h | h
        · exact iha.2.2 x h
        · exact ihb.2.2 x h
  | case2 a b iha ihb =>
      have heq : FactorOutAtomicFormulas (.Bin .bor a b) =
          ⟨setInter (FactorOutAtomicFormulas a).atomic_formulas
             (FactorOutAtomicFormulas b).atomic_formulas,
           .Bin .bor
             (FactorOutAtomicFormulasResult.to_expr
               ⟨setDiff (FactorOutAtomicFormulas a).atomic_formulas
                  (setInter (FactorOutAtomicFormulas a).atomic_formulas
                    (FactorOutAtomicFormulas b).atomic_formulas),
                (FactorOutAtomicFormulas a).rest⟩)
             (FactorOutAtomicFormulasResult.to_expr
               ⟨setDiff (FactorOutAtomicFormulas b).atomic_formulas
                  (setInter (FactorOutAtomicFormulas a).atomic_formulas
                    (FactorOutAtomicFormulas b).atomic_formulas),
                (FactorOutAtomicFormulas b).rest⟩)⟩ := by
        conv_lhs => rw [FactorOutAtomicFormulas]
      rw [heq]
      refine ⟨fun σ => ?_, ?_, ?_⟩
      · rw [to_expr_nz σ _ _, eval_bor_ne, to_expr_nz σ _ _, to_expr_nz σ _ _]
        have ha := iha.1 σ
        have hb := ihb.1 σ
        rw [to_expr_nz_eta] at ha hb
        have hA : (∀ x ∈ (FactorOutAtomicFormulas a).atomic_formulas, eval σ x ≠ 0) ↔
            ((∀ x ∈ setInter (FactorOutAtomicFormulas a).atomic_formulas
                (FactorOutAtomicFormulas b).atomic_formulas, eval σ x ≠ 0) ∧
             (∀ x ∈ setDiff (FactorOutAtomicFormulas a).atomic_formulas
                (setInter (FactorOutAtomicFormulas a).atomic_formulas
                  (FactorOutAtomicFormulas b).atomic_formulas), eval σ x ≠ 0)) := by
          constructor
          · intro h
            exact ⟨fun x hx => h x ((setInter_sublist _ _).subset hx),
                   fun x hx => h x ((setDiff_sublist _ _).subset hx)⟩
          · intro h x hx
            rcases setDiff_cover _ _ x hx with h2 | h2
            · exact h.2 x h2
            · exact h.1 x h2
        have hB : (∀ x ∈ (FactorOutAtomicFormulas b).atomic_formulas, eval σ x ≠ 0) ↔
            ((∀ x ∈ setInter (FactorOutAtomicFormulas a).atomic_formulas
                (FactorOutAtomicFormulas b).atomic_formulas, eval σ x ≠ 0) ∧
             (∀ x ∈ setDiff (FactorOutAtomicFormulas b).atomic_formulas
                (setInter (FactorOutAtomicFormulas a).atomic_formulas
                  (FactorOutAtomicFormulas b).atomic_formulas), eval σ x ≠ 0)) := by
          constructor
          · intro h
            exact ⟨fun x hx => h x (mem_setInter_right _ _ x hx),
                   fun x hx => h x ((setDiff_sublist _ _).subset hx)⟩
          · intro h x hx
            rcases setDiff_cover _ (setInter (FactorOutAtomicFormulas a).atomic_formulas
                (FactorOutAtomicFormulas b).atomic_formulas) x hx with h2 | h2
            · exact h.2 x h2
            · exact h.1 x h2
        rw [eval_bor_ne, ← ha, ← hb] at *
        rw [hA, hB] at *
        tauto
      · exact List.Pairwise.sublist (setInter_sublist _ _) iha.2.1
      · intro x hx
        exact iha.2.2 x ((setInter_sublist _ _).subset hx)
  | case3 a b ih =>
      have heq : FactorOutAtomicFormulas (.Bin .mul a b) =
          FactorOutAtomicFormulas (.Bin .band a b) := by
        conv_lhs => rw [FactorOutAtomicFormulas]
      rw [heq]
      refine ⟨fun σ => ?_, ih.2.1, ih.2.2⟩
      rw [ih.1 σ, eval_band_ne]
      show _ ↔ evalBin .mul (eval σ a) (eval σ b) ≠ 0
      simp only [evalBin]
      constructor
      · intro h
        exact mul_ne_zero h.1 h.2
      · intro h
        exact ⟨left_ne_zero_of_mul h, right_ne_zero_of_mul h⟩
  | case4 c t f ih =>
      have heq : FactorOutAtomicFormulas (.Select c t f) =
          FactorOutAtomicFormulas (.Bin .bor (.Bin .band c t) (.Bin .band (.Not c) f)) := by
        conv_lhs => rw [FactorOutAtomicFormulas]
      rw [heq]
      refine ⟨fun σ => ?_, ih.2.1, ih.2.2⟩
      rw [ih.1 σ, eval_bor_ne, eval_band_ne, eval_band_ne, eval_not_ne]
      show _ ↔ (if eval σ c ≠ 0 then eval σ t else eval σ f) ≠ 0
      by_cases hc : eval σ c ≠ 0 <;> simp [hc]
  | case5 x y ih =>
      have heq : FactorOutAtomicFormulas (.Not (.Bin .bor x y)) =
          FactorOutAtomicFormulas (.Bin .band (.Not x) (.Not y)) := by
        conv_lhs => rw [FactorOutAtomicFormulas]
      rw [heq]
      refine ⟨fun σ => ?_, ih.2.1, ih.2.2⟩
      rw [ih.1 σ, eval_band_ne, eval_not_ne, eval_not_ne, eval_not_ne, eval_bor_ne]
      tauto
  | case6 x y ih =>
      have heq : FactorOutAtomicFormulas (.Not (.Bin .band x y)) =
          FactorOutAtomicFormulas (.Bin .bor (.Not x) (.Not y)) := by
        conv_lhs => rw [FactorOutAtomicFormulas]
      rw [heq]
      refine ⟨fun σ => ?_, ih.2.1, ih.2.2⟩
      rw [ih.1 σ, eval_bor_ne, eval_not_ne, eval_not_ne, eval_not_ne, eval_band_ne]
      tauto
  | case7 c t f ih =>
      have heq : FactorOutAtomicFormulas (.Not (.Select c t f)) =
          FactorOutAtomicFormulas (.Bin .band (.Bin .bor (.Not c) (.Not t))
            (.Bin .bor c (.Not f))) := by
        conv_lhs => rw [FactorOutAtomicFormulas]
      rw [heq]
      refine ⟨fun σ => ?_, ih.2.1, ih.2.2⟩
      rw [ih.1 σ, eval_band_ne, eval_bor_ne, eval_bor_ne, eval_not_ne, eval_not_ne,
        eval_not_ne, eval_not_ne]
      simp only [eval]
      by_cases hc : eval σ c ≠ 0 <;> by_cases ht : eval σ t ≠ 0 <;>
        by_cases hf : eval σ f ≠ 0 <;> simp [hc, ht, hf]
  | case8 a hbor hband hsel =>
      have heq : FactorOutAtomicFormulas (.Not a) = ⟨[.Not a], .BoolImm true⟩ := by
        cases a with
        | Bin op x y =>
            cases op <;> first
              | exact (hband _ _ rfl).elim
              | exact (hbor _ _ rfl).elim
              | (rw [FactorOutAtomicFormulas] <;> (intros; rename_i h; simp at h))
        | Select c t f => exact (hsel c t f rfl).elim
        | IntImm v => rw [FactorOutAtomicFormulas] <;> (intros; rename_i h; simp at h)
        | BoolImm b => rw [FactorOutAtomicFormulas] <;> (intros; rename_i h; simp at h)
        | Var v => rw [FactorOutAtomicFormulas] <;> (intros; rename_i h; simp at h)
        | Not x => rw [FactorOutAtomicFormulas] <;> (intros; rename_i h; simp at h)
        | IfThenElse c t f => rw [FactorOutAtomicFormulas] <;> (intros; rename_i h; simp at h)
        | Cast x => rw [FactorOutAtomicFormulas] <;> (intros; rename_i h; simp at h)
      rw [heq]
      refine ⟨fun σ => ?_, by simp, ?_⟩
      · rw [to_expr_nz σ _ _]
        simp [eval]
      · intro z hz
        simp only [List.mem_singleton] at hz
        subst hz
        cases a with
        | Bin op x y =>
            cases op <;> first
              | exact (hband _ _ rfl).elim
              | exact (hbor _ _ rfl).elim
              | rfl
        | Select c t f => exact (hsel c t f rfl).elim
        | IntImm v => rfl
        | BoolImm b => rfl
        | Var v => rfl
        | Not x => rfl
        | IfThenElse c t f => rfl
        | Cast x => rfl
  | case9 e hband hbor hmul hsel hnot =>
      have heq : FactorOutAtomicFormulas e = ⟨[e], .BoolImm true⟩ := by
        cases e with
        | Bin op x y =>
            cases op <;> first
              | exact (hband _ _ rfl).elim
              | exact (hbor _ _ rfl).elim
              | exact (hmul _ _ rfl).elim
              | (rw [FactorOutAtomicFormulas] <;> (intros; rename_i h; simp at h))
        | Select c t f => exact (hsel c t f rfl).elim
        | Not x => exact (hnot x rfl).elim
        | IntImm v => rw [FactorOutAtomicFormulas] <;> (intros; rename_i h; simp at h)
        | BoolImm b => rw [FactorOutAtomicFormulas] <;> (intros; rename_i h; simp at h)
        | Var v => rw [FactorOutAtomicFormulas] <;> (intros; rename_i h; simp at h)
        | IfThenElse c t f => rw [FactorOutAtomicFormulas] <;> (intros; rename_i h; simp at h)
        | Cast x => rw [FactorOutAtomicFormulas] <;> (intros; rename_i h; simp at h)
      rw [heq]
      refine ⟨fun σ => ?_, by simp, ?_⟩
      · rw [to_expr_nz σ _ _]
        simp [eval]
      · intro z hz
        simp only [List.mem_singleton] at hz
        subst hz
        cases z with
        | Bin op x y =>
            cases op <;> first
              | exact (hband _ _ rfl).elim
              | exact (hbor _ _ rfl).elim
              | exact (hmul _ _ rfl).elim
              | rfl
        | Select c t f => exact (hsel c t f rfl).elim
        | Not x => exact (hnot x rfl).elim
        | IntImm v => rfl
        | BoolImm b => rfl
        | Var v => rfl
        | IfThenElse c t f => rfl
        | Cast x => rfl

/-- C5 counterexample: the claim asserts that no returned atom is a
top-level Not, but on the boolean expression not(x0 == 0) the functor
returns the whole negation as its single atomic formula (a Not whose
operand is not an And, Or or Select is atomic in the source). -/
theorem factor_out_atomic_formulas_counterexample :
    isBool (.Not (.Bin .beq (.Var 0) (.IntImm 0))) = true ∧
    (FactorOutAtomicFormulas (.Not (.Bin .beq (.Var 0) (.IntImm 0)))).atomic_formulas =
      [.Not (.Bin .beq (.Var 0) (.IntImm 0))] ∧
    specAtomKind (.Not (.Bin .beq (.Var 0) (.IntImm 0))) = false ∧
    ((FactorOutAtomicFormulas (.Not (.Bin .beq (.Var 0) (.IntImm 0)))).atomic_formulas.all
      specAtomKind) = false := by
  refine ⟨rfl, ?_, rfl, ?_⟩ <;> simp [FactorOutAtomicFormulas, specAtomKind]

/-- C5 amended: for every boolean expression, FactorOutAtomicFormulas
returns a sequence of atomic formulas sorted by deep comparison, each
free of top-level And, Or, boolean Mul and Select and with Not only
around an operand that is not an And, Or or Select, such that the
conjunction of the atoms with the rest is boolean-equivalent to the
original expression. -/
theorem factor_out_atomic_formulas_sound (e : Expr) (_hb : isBool e = true)
    (σ : Nat → Int) :
    (eval σ ((FactorOutAtomicFormulas e).to_expr) ≠ 0 ↔ eval σ e ≠ 0) ∧
    ((FactorOutAtomicFormulas e).atomic_formulas.Pairwise (fun a b => enc a < enc b)) ∧
    (∀ x ∈ (FactorOutAtomicFormulas e).atomic_formulas, atomOutShape x = true) :=
  ⟨(fo_main e).1 σ, (fo_main e).2.1, (fo_main e).2.2⟩

/-- Witness of C5 on the specification scenario
(x0 > 0) and ((x1 < 5) or (x1 > 10)). -/
theorem factor_out_atomic_formulas_sound_witness :
    isBool (.Bin .band (.Bin .bgt (.Var 0) (.IntImm 0))
      (.Bin .bor (.Bin .blt (.Var 1) (.IntImm 5)) (.Bin .bgt (.Var 1) (.IntImm 10)))) = true ∧
    ((eval (fun v => if v = 0 then 1 else 3)
        ((FactorOutAtomicFormulas (.Bin .band (.Bin .bgt (.Var 0) (.IntImm 0))
          (.Bin .bor (.Bin .blt (.Var 1) (.IntImm 5))
            (.Bin .bgt (.Var 1) (.IntImm 10))))).to_expr) ≠ 0 ↔
      eval (fun v => if v = 0 then 1 else 3)
        (.Bin .band (.Bin .bgt (.Var 0) (.IntImm 0))
          (.Bin .bor (.Bin .blt (.Var 1) (.IntImm 5))
            (.Bin .bgt (.Var 1) (.IntImm 10)))) ≠ 0) ∧
     ((FactorOutAtomicFormulas (.Bin .band (.Bin .bgt (.Var 0) (.IntImm 0))
        (.Bin .bor (.Bin .blt (.Var 1) (.IntImm 5))
          (.Bin .bgt (.Var 1) (.IntImm 10))))).atomic_formulas.Pairwise
        (fun a b => enc a < enc b)) ∧
     (∀ x ∈ (FactorOutAtomicFormulas (.Bin .band (.Bin .bgt (.Var 0) (.IntImm 0))
        (.Bin .bor (.Bin .blt (.Var 1) (.IntImm 5))
          (.Bin .bgt (.Var 1) (.IntImm 10))))).atomic_formulas, atomOutShape x = true)) :=
  ⟨rfl, factor_out_atomic_formulas_sound
    (.Bin .band (.Bin .bgt (.Var 0) (.IntImm 0))
      (.Bin .bor (.Bin .blt (.Var 1) (.IntImm 5)) (.Bin .bgt (.Var 1) (.IntImm 10))))
    rfl (fun v => if v = 0 then 1 else 3)⟩

/-- C9 counterexample: with a side-effect analysis that reports a side
effect on every node and the identity simplifier, an if_then_else call
with constant-true condition still collapses to its true branch,
although the claim allows collapsing only side-effect-free
expressions. -/
theorem remove_redundant_inequalities_counterexample :
    effOracles.hasSideEffect (.IfThenElse (.BoolImm true) (.Var 0) (.Var 1)) = true ∧
    rriMutate effOracles [] (.IfThenElse (.BoolImm true) (.Var 0) (.Var 1)) = .Var 0 := by
  refine ⟨rfl, ?_⟩
  simp [rriMutate, effOracles, isConstInt]

/-- C9 amended: a Select whose simplified condition is constant true or
false collapses to the corresponding branch only when the whole node is
side-effect free, while an if_then_else call collapses on a constant
condition regardless of side effects; in the non-collapsing case both
rebuild the node from the simplified condition, with the true branch
rewritten under the known facts extended by the atomic formulas of the
condition and the false branch rewritten under the original known
facts. -/
theorem remove_redundant_inequalities_select_ite (O : Oracles) (known : List Expr)
    (c t f : Expr) :
    rriMutate O known (.Select c t f) =
      (if isConstInt (O.simp (rriMutate O known c) []) 1 ∧
          O.hasSideEffect (.Select c t f) = false then rriMutate O known t
       else if isConstInt (O.simp (rriMutate O known c) []) 0 ∧
          O.hasSideEffect (.Select c t f) = false then rriMutate O known f
       else .Select (O.simp (rriMutate O known c) [])
         (rriMutate O (mkKnown O (known ++
            (FactorOutAtomicFormulas (O.simp (rriMutate O known c) [])).atomic_formulas)) t)
         (rriMutate O known f)) ∧
    rriMutate O known (.IfThenElse c t f) =
      (if isConstInt (O.simp (rriMutate O known c) []) 1 then rriMutate O known t
       else if isConstInt (O.simp (rriMutate O known c) []) 0 then rriMutate O known f
       else .IfThenElse (O.simp (rriMutate O known c) [])
         (rriMutate O (mkKnown O (known ++
            (FactorOutAtomicFormulas (O.simp (rriMutate O known c) [])).atomic_formulas)) t)
         (rriMutate O known f)) := by
  constructor <;> conv_lhs => rw [rriMutate]

/-- Lookup on a cons cell. -/
theorem lookupVar_cons {α : Type} (k : Nat) (x : α) (m : VMap α) (v : Nat) :
    lookupVar ((k, x) :: m) v = if v = k then some x else lookupVar m v := by
  by_cases h : v = k
  · subst h
    simp [lookupVar, List.lookup]
  · have hb : (v == k) = false := by simpa using h
    simp [lookupVar, List.lookup, hb, h]

/-- Lookup ignores bindings filtered out for a different key. -/
theorem lookupVar_filter_ne {α : Type} (m : VMap α) (k v : Nat) (h : v ≠ k) :
    lookupVar (m.filter (fun p => p.1 ≠ k)) v = lookupVar m v := by
  induction m with
  | nil => rfl
  | cons p rest ih =>
    obtain ⟨pk, px⟩ := p
    simp only [List.filter_cons]
    by_cases hp : pk = k
    · rw [if_neg (by simp [hp])]
      rw [ih, lookupVar_cons, if_neg (by rw [hp]; exact h)]
    · rw [if_pos (by simp [hp])]
      rw [lookupVar_cons, lookupVar_cons, ih]

/-- Lookup after Map::Set. -/
theorem lookupVar_mapSet {α : Type} (k : Nat) (x : α) (m : VMap α) (v : Nat) :
    lookupVar (mapSet k x m) v = if v = k then some x else lookupVar m v := by
  unfold mapSet
  rw [lookupVar_cons]
  by_cases h : v = k
  · simp [h]
  · rw [if_neg h, if_neg h, lookupVar_filter_ne m k v h]

/-- A key outside the key list of a map has no binding. -/
theorem lookupVar_eq_none_of_not_mem {α : Type} (m : VMap α) (v : Nat)
    (h : v ∉ m.map Prod.fst) : lookupVar m v = none := by
  induction m with
  | nil => rfl
  | cons p rest ih =>
    obtain ⟨pk, px⟩ := p
    simp only [List.map_cons, List.mem_cons, not_or] at h
    rw [lookupVar_cons, if_neg h.1, ih h.2]

/-- Map::Set keeps the keys duplicate-free. -/
theorem mapSet_keys_nodup {α : Type} (k : Nat) (x : α) (m : VMap α)
    (h : (m.map Prod.fst).Nodup) : ((mapSet k x m).map Prod.fst).Nodup := by
  unfold mapSet
  rw [List.map_cons, List.nodup_cons]
  constructor
  · intro hmem
    obtain ⟨p, hp, hpk⟩ := List.mem_map.mp hmem
    have hq := List.of_mem_filter hp
    rw [decide_eq_true_eq] at hq
    exact hq hpk
  · exact h.sublist (List.Sublist.map Prod.fst (List.filter_sublist m))

/-- A map built by folding Map::Set over a key-value list with
duplicate-free keys binds exactly the transformed entries, falling back
to the accumulator on unbound keys. -/
theorem lookupVar_foldl_transform (g : Nat → Expr → Expr) (m : VMap Expr)
    (hnd : (m.map Prod.fst).Nodup) (acc : VMap Expr) (v : Nat) :
    lookupVar (m.foldl (fun a p => mapSet p.1 (g p.1 p.2) a) acc) v =
      match lookupVar m v with
      | some e => some (g v e)
      | none => lookupVar acc v := by
  induction m generalizing acc with
  | nil => rfl
  | cons p rest ih =>
    obtain ⟨pk, px⟩ := p
    simp only [List.map_cons, List.nodup_cons] at hnd
    rw [List.foldl_cons, ih hnd.2]
    rw [lookupVar_cons]
    by_cases hv : v = pk
    · subst hv
      rw [lookupVar_eq_none_of_not_mem rest v hnd.1]
      simp [lookupVar_mapSet]
    · rw [if_neg hv]
      cases hres : lookupVar rest v with
      | some e => rfl
      | none => simp [lookupVar_mapSet, hv]

/-- Specialisation of the previous lemma to the empty accumulator. -/
theorem lookupVar_foldl_transform_nil (g : Nat → Expr → Expr) (m : VMap Expr)
    (hnd : (m.map Prod.fst).Nodup) (v : Nat) :
    lookupVar (m.foldl (fun a p => mapSet p.1 (g p.1 p.2) a) []) v =
      (lookupVar m v).map (fun e => g v e) := by
  rw [lookupVar_foldl_transform g m hnd [] v]
  cases lookupVar m v <;> rfl

/-- A map built by folding Map::Set of f(v) over a variable list binds
exactly the listed variables. -/
theorem lookupVar_foldl_mk (f : Nat → Expr) (vs : List Nat) (acc : VMap Expr) (w : Nat) :
    lookupVar (vs.foldl (fun a v => mapSet v (f v) a) acc) w =
      if w ∈ vs then some (f w) else lookupVar acc w := by
  induction vs generalizing acc with
  | nil => simp
  | cons v rest ih =>
    rw [List.foldl_cons, ih]
    by_cases hw : w ∈ rest
    · simp [hw]
    · by_cases hv : w = v
      · subst hv
        simp [hw, lookupVar_mapSet]
      · simp [hw, hv, lookupVar_mapSet]

/-- Folding Map::Set keeps the keys duplicate-free. -/
theorem foldl_mk_keys_nodup (f : Nat → Expr) (vs : List Nat) (acc : VMap Expr)
    (h : (acc.map Prod.fst).Nodup) :
    ((vs.foldl (fun a v => mapSet v (f v) a) acc).map Prod.fst).Nodup := by
  induction vs generalizing acc with
  | nil => exact h
  | cons v rest ih => exact ih _ (mapSet_keys_nodup v (f v) acc h)

/-- The identity transformation binds each domain variable to itself in
new_to_old. -/
theorem idMap_lookup (d : Domain) (v : Nat) :
    lookupVar (IdDomainTransformation d).new_to_old v =
      if v ∈ d.vars then some (Expr.Var v) else none :=
  lookupVar_foldl_mk (fun w => Expr.Var w) d.vars [] v

/-- The identity transformation binds each domain variable to itself in
old_to_new. -/
theorem idMap_lookup_old (d : Domain) (v : Nat) :
    lookupVar (IdDomainTransformation d).old_to_new v =
      if v ∈ d.vars then some (Expr.Var v) else none :=
  lookupVar_foldl_mk (fun w => Expr.Var w) d.vars [] v

/-- The identity transformation map has duplicate-free keys
(new_to_old). -/
theorem idMap_keys_nodup (d : Domain) :
    ((IdDomainTransformation d).new_to_old.map Prod.fst).Nodup :=
  foldl_mk_keys_nodup (fun w => Expr.Var w) d.vars [] List.nodup_nil

/-- The identity transformation map has duplicate-free keys
(old_to_new). -/
theorem idMap_keys_nodup_old (d : Domain) :
    ((IdDomainTransformation d).old_to_new.map Prod.fst).Nodup :=
  foldl_mk_keys_nodup (fun w => Expr.Var w) d.vars [] List.nodup_nil

/-- Substituting through a map that only binds variables to themselves
is the identity. -/
theorem subst_id_of_var_map (m : VMap Expr)
    (h : ∀ v, lookupVar m v = none ∨ lookupVar m v = some (Expr.Var v)) (e : Expr) :
    subst m e = e := by
  induction e with
  | IntImm n => rfl
  | BoolImm b => rfl
  | Var v => rcases h v with h1 | h1 <;> simp [subst, h1]
  | Bin op a b iha ihb => simp [subst, iha, ihb]
  | Not a ih => simp [subst, ih]
  | Select c t f ihc iht ihf => simp [subst, ihc, iht, ihf]
  | IfThenElse c t f ihc iht ihf => simp [subst, ihc, iht, ihf]
  | Cast a ih => simp [subst, ih]

/-- Substituting through the identity transformation's new_to_old map
changes nothing. -/
theorem idMap_id (d : Domain) (e : Expr) :
    subst (IdDomainTransformation d).new_to_old e = e := by
  apply subst_id_of_var_map
  intro v
  rw [idMap_lookup]
  by_cases h : v ∈ d.vars <;> simp [h]

/-- Substituting through the identity transformation's old_to_new map
changes nothing. -/
theorem idMap_id_old (d : Domain) (e : Expr) :
    subst (IdDomainTransformation d).old_to_new e = e := by
  apply subst_id_of_var_map
  intro v
  rw [idMap_lookup_old]
  by_cases h : v ∈ d.vars <;> simp [h]

/-- Each new_to_old entry of a composition is the corresponding entry of
the second transformation, substituted through the first and
simplified. -/
theorem compose_lookup_new (O : Oracles) (first second : DomainTransformation)
    (hnd : (second.new_to_old.map Prod.fst).Nodup) (v : Nat) :
    lookupVar (ComposeDomainTransformations O first second).new_to_old v =
      (lookupVar second.new_to_old v).map
        (fun e => O.simp (subst first.new_to_old e) first.old_domain.ranges) :=
  lookupVar_foldl_transform_nil
    (fun _ e => O.simp (subst first.new_to_old e) first.old_domain.ranges)
    second.new_to_old hnd v

/-- Each old_to_new entry of a composition is the corresponding entry of
the first transformation, substituted through the second and
simplified. -/
theorem compose_lookup_old (O : Oracles) (first second : DomainTransformation)
    (hnd : (first.old_to_new.map Prod.fst).Nodup) (v : Nat) :
    lookupVar (ComposeDomainTransformations O first second).old_to_new v =
      (lookupVar first.old_to_new v).map
        (fun e => O.simp (subst second.old_to_new e) second.new_domain.ranges) :=
  lookupVar_foldl_transform_nil
    (fun _ e => O.simp (subst second.old_to_new e) second.new_domain.ranges)
    first.old_to_new hnd v

/-- C4: For every domain transformation t whose maps have
duplicate-free keys binding exactly the variables of the respective
domains, and any semantics-preserving base simplifier, composing with
the identity transformation of t's old domain on the left (resp. of t's
new domain on the right) yields a transformation equal to t: the
domains coincide, the maps bind the same keys, and each map entry is
semantically equal to the corresponding entry of t on every assignment
within the relevant domain ranges. -/
theorem compose_id_unit (O : Oracles) (t : DomainTransformation)
    (hS : SimpSound O)
    (hnd1 : (t.new_to_old.map Prod.fst).Nodup)
    (hnd2 : (t.old_to_new.map Prod.fst).Nodup)
    (hkOld : ∀ v, (lookupVar t.old_to_new v).isSome = true ↔ v ∈ t.old_domain.vars)
    (hkNew : ∀ v, (lookupVar t.new_to_old v).isSome = true ↔ v ∈ t.new_domain.vars) :
    DTEquiv (ComposeDomainTransformations O (IdDomainTransformation t.old_domain) t) t ∧
    DTEquiv (ComposeDomainTransformations O t (IdDomainTransformation t.new_domain)) t := by
  constructor
  · refine ⟨rfl, rfl, ?_, ?_, ?_, ?_⟩
    · intro v
      rw [compose_lookup_new O (IdDomainTransformation t.old_domain) t hnd1 v]
      cases lookupVar t.new_to_old v <;> rfl
    · intro v e1 e2 h1 h2 σ hσ
      rw [compose_lookup_new O (IdDomainTransformation t.old_domain) t hnd1 v, h2] at h1
      simp only [Option.map_some', Option.some.injEq] at h1
      subst h1
      rw [idMap_id]
      exact hS _ _ _ hσ
    · intro v
      rw [compose_lookup_old O (IdDomainTransformation t.old_domain) t
        (idMap_keys_nodup_old t.old_domain) v, idMap_lookup_old]
      by_cases hv : v ∈ t.old_domain.vars
      · rw [if_pos hv, (hkOld v).2 hv]
        rfl
      · rw [if_neg hv]
        cases hio : (lookupVar t.old_to_new v).isSome
        · rfl
        · exact absurd ((hkOld v).1 hio) hv
    · intro v e1 e2 h1 h2 σ hσ
      rw [compose_lookup_old O (IdDomainTransformation t.old_domain) t
        (idMap_keys_nodup_old t.old_domain) v, idMap_lookup_old] at h1
      by_cases hv : v ∈ t.old_domain.vars
      · rw [if_pos hv] at h1
        simp only [Option.map_some', Option.some.injEq] at h1
        subst h1
        rw [hS (subst t.old_to_new (Expr.Var v)) t.new_domain.ranges σ hσ]
        simp [subst, lookupVar, show List.lookup v t.old_to_new = some e2 from h2]
      · rw [if_neg hv, Option.map_none'] at h1
        exact Option.noConfusion h1
  · refine ⟨rfl, rfl, ?_, ?_, ?_, ?_⟩
    · intro v
      rw [compose_lookup_new O t (IdDomainTransformation t.new_domain)
        (idMap_keys_nodup t.new_domain) v, idMap_lookup]
      by_cases hv : v ∈ t.new_domain.vars
      · rw [if_pos hv, (hkNew v).2 hv]
        rfl
      · rw [if_neg hv]
        cases hio : (lookupVar t.new_to_old v).isSome
        · rfl
        · exact absurd ((hkNew v).1 hio) hv
    · intro v e1 e2 h1 h2 σ hσ
      rw [compose_lookup_new O t (IdDomainTransformation t.new_domain)
        (idMap_keys_nodup t.new_domain) v, idMap_lookup] at h1
      by_cases hv : v ∈ t.new_domain.vars
      · rw [if_pos hv] at h1
        simp only [Option.map_some', Option.some.injEq] at h1
        subst h1
        rw [hS (subst t.new_to_old (Expr.Var v)) t.old_domain.ranges σ hσ]
        simp [subst, lookupVar, show List.lookup v t.new_to_old = some e2 from h2]
      · rw [if_neg hv, Option.map_none'] at h1
        exact Option.noConfusion h1
    · intro v
      rw [compose_lookup_old O t (IdDomainTransformation t.new_domain) hnd2 v]
      cases lookupVar t.old_to_new v <;> rfl
    · intro v e1 e2 h1 h2 σ hσ
      rw [compose_lookup_old O t (IdDomainTransformation t.new_domain) hnd2 v, h2] at h1
      simp only [Option.map_some', Option.some.injEq] at h1
      subst h1
      rw [idMap_id_old]
      exact hS _ _ _ hσ

/-- The theorem applied to a concrete identity transformation over a
one-variable domain, with the trivial oracles. -/
theorem compose_id_unit_witness :
    DTEquiv (ComposeDomainTransformations trivOracles
        (IdDomainTransformation ⟨[0], [], []⟩)
        (IdDomainTransformation ⟨[0], [], []⟩))
      (IdDomainTransformation ⟨[0], [], []⟩) ∧
    DTEquiv (ComposeDomainTransformations trivOracles
        (IdDomainTransformation ⟨[0], [], []⟩)
        (IdDomainTransformation ⟨[0], [], []⟩))
      (IdDomainTransformation ⟨[0], [], []⟩) :=
  compose_id_unit trivOracles (IdDomainTransformation ⟨[0], [], []⟩)
    trivOracles_simp_sound (by decide) (by decide)
    (fun v => by
      rw [idMap_lookup_old]
      by_cases h : v ∈ (⟨[0], [], []⟩ : Domain).vars <;>
        simp [h, IdDomainTransformation])
    (fun v => by
      rw [idMap_lookup]
      by_cases h : v ∈ (⟨[0], [], []⟩ : Domain).vars <;>
        simp [h, IdDomainTransformation])

/-- The empty transformation binds each domain variable to the zero
constant in old_to_new. -/
theorem emptyMap_lookup (d : Domain) (v : Nat) :
    lookupVar (EmptyDomainTransformation d).old_to_new v =
      if v ∈ d.vars then some (Expr.IntImm 0) else none :=
  lookupVar_foldl_mk (fun _ => Expr.IntImm 0) d.vars [] v

/-- The condition-emission loop aborts exactly when some row condition
simplifies to the constant false. -/
theorem emitSolutionConds_eq_none_iff (O : Oracles) (R : VMap Rng) (vs : Nat)
    (matrix : Nat → Nat → Int) (rhs : Nat → Expr) (js : List Nat) :
    emitSolutionConds O R vs matrix rhs js = none ↔
      ∃ j, j ∈ js ∧ isConstInt (O.simp (rowCond vs matrix rhs j) R) 0 = true := by
  induction js with
  | nil => simp [emitSolutionConds]
  | cons j js ih =>
    by_cases h0 : isConstInt (O.simp (rowCond vs matrix rhs j) R) 0 = true
    · rw [show emitSolutionConds O R vs matrix rhs (j :: js) = none by
        simp [emitSolutionConds, h0]]
      exact iff_of_true rfl ⟨j, List.mem_cons_self j js, h0⟩
    · cases hrec : emitSolutionConds O R vs matrix rhs js with
      | none =>
        obtain ⟨x, hx, hpx⟩ := ih.mp hrec
        rw [show emitSolutionConds O R vs matrix rhs (j :: js) = none by
          simp [emitSolutionConds, h0, hrec]]
        exact iff_of_true rfl ⟨x, List.mem_cons_of_mem j hx, hpx⟩
      | some cs =>
        rw [show emitSolutionConds O R vs matrix rhs (j :: js) =
            some (if isConstInt (O.simp (rowCond vs matrix rhs j) R) 1 then cs
                  else O.simp (rowCond vs matrix rhs j) R :: cs) by
          simp [emitSolutionConds, h0, hrec]]
        refine iff_of_false (by simp) ?_
        rintro ⟨x, hx, hpx⟩
        rcases List.mem_cons.mp hx with hxj | hxs
        · exact h0 (hxj ▸ hpx)
        · exact Option.noConfusion (hrec ▸ ih.mpr ⟨x, hxs, hpx⟩)

/-- When no row condition simplifies to the constant false, the
emission loop returns the simplified row conditions that are not
constant-true, in row order. -/
theorem emitSolutionConds_eq_some (O : Oracles) (R : VMap Rng) (vs : Nat)
    (matrix : Nat → Nat → Int) (rhs : Nat → Expr) (js : List Nat)
    (h : ∀ j ∈ js, ¬ isConstInt (O.simp (rowCond vs matrix rhs j) R) 0 = true) :
    emitSolutionConds O R vs matrix rhs js =
      some ((js.map (fun j => O.simp (rowCond vs matrix rhs j) R)).filter
        (fun c => !(isConstInt c 1))) := by
  induction js with
  | nil => simp [emitSolutionConds]
  | cons j js ih =>
    have h0 := h j (List.mem_cons_self j js)
    rw [emitSolutionConds, ih (fun x hx => h x (List.mem_cons_of_mem j hx))]
    simp only [List.map_cons, List.filter_cons]
    by_cases h1 : isConstInt (O.simp (rowCond vs matrix rhs j) R) 1 = true
    · simp [h0, h1]
    · simp [h0, h1]

/-- C7: After diagonalization, SolveSystemOfEquations builds for every
matrix row j the condition rhs[j] == 0 when the row is beyond the
diagonal or its diagonal element is zero, and the condition
floormod(rhs[j], |d_j|) == 0 for a nonzero diagonal element d_j; the
simplified conditions that are not constant-true open the new domain's
condition list; if some simplified condition is the constant false, the
result is EmptyDomainTransformation(domain), whose new domain has no
variables and the single condition false, and whose old_to_new maps
every old domain variable to the zero constant. -/
theorem solve_equations_conditions (O : Oracles) (domain : Domain)
    (rest : List Expr) (rows : Nat) (matrix : Nat → Nat → Int)
    (rhs0 : Nat → Expr) (otn : Nat → Nat → Int) (nto : Nat → Expr) (base : Nat) :
    ((∃ j, j ∈ List.range rows ∧
        isConstInt (O.simp (rowCond domain.vars.length matrix
          (fun k => O.simp (rhs0 k) domain.ranges) j) domain.ranges) 0 = true) →
      solveAfterDiag O domain rest rows matrix rhs0 otn nto base =
        EmptyDomainTransformation domain) ∧
    ((∀ j ∈ List.range rows,
        ¬ isConstInt (O.simp (rowCond domain.vars.length matrix
          (fun k => O.simp (rhs0 k) domain.ranges) j) domain.ranges) 0 = true) →
      ∃ tail,
        (solveAfterDiag O domain rest rows matrix rhs0 otn nto base).new_domain.conditions =
          (((List.range rows).map (fun j => O.simp (rowCond domain.vars.length matrix
              (fun k => O.simp (rhs0 k) domain.ranges) j) domain.ranges)).filter
            (fun c => !(isConstInt c 1))) ++ tail) ∧
    (EmptyDomainTransformation domain).new_domain.vars = [] ∧
    (EmptyDomainTransformation domain).new_domain.conditions = [.BoolImm false] ∧
    ∀ v ∈ domain.vars,
      lookupVar (EmptyDomainTransformation domain).old_to_new v =
        some (.IntImm 0) := by
  refine ⟨?_, ?_, rfl, rfl, ?_⟩
  · intro hex
    have hnone : emitSolutionConds O domain.ranges domain.vars.length matrix
        (fun k => O.simp (rhs0 k) domain.ranges) (List.range rows) = none :=
      (emitSolutionConds_eq_none_iff O domain.ranges domain.vars.length matrix
        (fun k => O.simp (rhs0 k) domain.ranges) (List.range rows)).mpr hex
    simp [solveAfterDiag, hnone]
  · intro hall
    have hsome := emitSolutionConds_eq_some O domain.ranges domain.vars.length matrix
      (fun k => O.simp (rhs0 k) domain.ranges) (List.range rows) hall
    refine ⟨oldRangeConds O domain
        (buildOldToNew O domain.vars domain.vars.length otn
          (solveVarsLoop O domain.ranges rows matrix
            (fun k => O.simp (rhs0 k) domain.ranges) nto base
            (List.range domain.vars.length) 0).1)
        (buildRanges O domain
          (solveVarsLoop O domain.ranges rows matrix
            (fun k => O.simp (rhs0 k) domain.ranges) nto base
            (List.range domain.vars.length) 0).2.2) ++
      rest.map (subst (buildOldToNew O domain.vars domain.vars.length otn
        (solveVarsLoop O domain.ranges rows matrix
          (fun k => O.simp (rhs0 k) domain.ranges) nto base
          (List.range domain.vars.length) 0).1)), ?_⟩
    simp [solveAfterDiag, hsome, List.append_assoc]
  · intro v hv
    rw [emptyMap_lookup, if_pos hv]

/-- The theorem applied to concrete inputs: a false-collapsing
simplifier triggers the empty transformation, the identity simplifier
keeps the trivial row condition. -/
theorem solve_equations_conditions_witness :
    (solveAfterDiag falseOracles ⟨[0], [], []⟩ [] 1 (fun _ _ => 0)
        (fun _ => .IntImm 0) (fun _ _ => 0) (fun _ => .IntImm 0) 10 =
      EmptyDomainTransformation ⟨[0], [], []⟩) ∧
    ∃ tail,
      (solveAfterDiag trivOracles ⟨[0], [], []⟩ [] 1 (fun _ _ => 0)
          (fun _ => .IntImm 0) (fun _ _ => 0) (fun _ => .IntImm 0) 10).new_domain.conditions =
        [Expr.Bin .beq (.IntImm 0) (.IntImm 0)] ++ tail :=
  ⟨(solve_equations_conditions falseOracles ⟨[0], [], []⟩ [] 1 (fun _ _ => 0)
      (fun _ => .IntImm 0) (fun _ _ => 0) (fun _ => .IntImm 0) 10).1
        ⟨0, by decide, by decide⟩,
   (solve_equations_conditions trivOracles ⟨[0], [], []⟩ [] 1 (fun _ _ => 0)
      (fun _ => .IntImm 0) (fun _ _ => 0) (fun _ => .IntImm 0) 10).2.1
        (by decide)⟩

/-- The truth of a formula list: every member evaluates to a nonzero
value (the conjunction of the list). -/
def conjList (σ : Nat → Int) (l : List Expr) : Prop :=
  ∀ e ∈ l, eval σ e ≠ 0

theorem conjList_nil (σ : Nat → Int) : conjList σ [] := by
  intro e he
  cases he

theorem conjList_append (σ : Nat → Int) (l1 l2 : List Expr) :
    conjList σ (l1 ++ l2) ↔ conjList σ l1 ∧ conjList σ l2 := by
  unfold conjList
  exact List.forall_mem_append

theorem conjList_cons (σ : Nat → Int) (e : Expr) (l : List Expr) :
    conjList σ (e :: l) ↔ eval σ e ≠ 0 ∧ conjList σ l := by
  unfold conjList
  exact List.forall_mem_cons

/-- A constant-n expression evaluates to n. -/
theorem isConstInt_eval (σ : Nat → Int) (e : Expr) (n : Int)
    (h : isConstInt e n = true) : eval σ e = n := by
  cases e <;> simp [isConstInt] at h <;> simp [eval, h]

/-- Soundness of CanProve: a provable formula evaluates to one on every
assignment within the ranges. -/
theorem canProve_sound (O : Oracles) (hS : SimpSound O) (e : Expr) (R : VMap Rng)
    (σ : Nat → Int) (hσ : satisfies σ R) (h : CanProve O e R = true) :
    eval σ e = 1 := by
  unfold CanProve at h
  rw [← hS e R σ hσ]
  exact isConstInt_eval σ _ 1 h

theorem eval_ble_ne (σ : Nat → Int) (a b : Expr) :
    eval σ (.Bin .ble a b) ≠ 0 ↔ eval σ a ≤ eval σ b := by
  simp [eval, evalBin]

theorem eval_bge_ne (σ : Nat → Int) (a b : Expr) :
    eval σ (.Bin .bge a b) ≠ 0 ↔ eval σ b ≤ eval σ a := by
  simp [eval, evalBin]

theorem eval_beq_ne (σ : Nat → Int) (a b : Expr) :
    eval σ (.Bin .beq a b) ≠ 0 ↔ eval σ a = eval σ b := by
  simp [eval, evalBin]

theorem eval_bne_ne (σ : Nat → Int) (a b : Expr) :
    eval σ (.Bin .bne a b) ≠ 0 ↔ ¬ eval σ a = eval σ b := by
  simp [eval, evalBin]

/-- A provable LE gives the value inequality of its sides. -/
theorem canProve_le (O : Oracles) (hS : SimpSound O) (x y : Expr) (R : VMap Rng)
    (σ : Nat → Int) (hσ : satisfies σ R)
    (h : CanProve O (.Bin .ble x y) R = true) : eval σ x ≤ eval σ y := by
  have h1 := canProve_sound O hS _ R σ hσ h
  rw [← eval_ble_ne σ x y, h1]
  exact one_ne_zero

/-- A provable GE gives the value inequality of its sides. -/
theorem canProve_ge (O : Oracles) (hS : SimpSound O) (x y : Expr) (R : VMap Rng)
    (σ : Nat → Int) (hσ : satisfies σ R)
    (h : CanProve O (.Bin .bge x y) R = true) : eval σ y ≤ eval σ x := by
  have h1 := canProve_sound O hS _ R σ hσ h
  rw [← eval_bge_ne σ x y, h1]
  exact one_ne_zero

/-- NormalizeComparisons preserves the denotation of every expression
on every assignment, for a semantics-preserving base simplifier. -/
theorem normalize_comparisons_eval (O : Oracles) (hS : SimpSound O)
    (σ : Nat → Int) (e : Expr) :
    eval σ (NormalizeComparisons O e) = eval σ e := by
  induction e using NormalizeComparisons.induct O with
  | case1 a b =>
    rw [NormalizeComparisons]
    simp only [eval, evalBin, hS _ [] σ (satisfies_nil σ)]
    by_cases h : eval σ a = eval σ b <;> simp [h] <;> omega
  | case2 a b =>
    rw [NormalizeComparisons]
    simp only [eval, evalBin, hS _ [] σ (satisfies_nil σ)]
    by_cases h : eval σ a = eval σ b <;> simp [h] <;> omega
  | case3 a b =>
    rw [NormalizeComparisons]
    simp only [eval, evalBin, hS _ [] σ (satisfies_nil σ)]
    by_cases h : eval σ a < eval σ b
    · rw [if_pos (by omega), if_pos h]
    · rw [if_neg (by omega), if_neg h]
  | case4 a b =>
    rw [NormalizeComparisons]
    simp only [eval, evalBin, hS _ [] σ (satisfies_nil σ)]
    by_cases h : eval σ a ≤ eval σ b
    · rw [if_pos (by omega), if_pos h]
    · rw [if_neg (by omega), if_neg h]
  | case5 a b =>
    rw [NormalizeComparisons]
    simp only [eval, evalBin, hS _ [] σ (satisfies_nil σ)]
    by_cases h : eval σ b < eval σ a
    · rw [if_pos (by omega), if_pos h]
    · rw [if_neg (by omega), if_neg h]
  | case6 a b =>
    rw [NormalizeComparisons]
    simp only [eval, evalBin, hS _ [] σ (satisfies_nil σ)]
    by_cases h : eval σ b ≤ eval σ a
    · rw [if_pos (by omega), if_pos h]
    · rw [if_neg (by omega), if_neg h]
  | case7 op a b h1 h2 h3 h4 h5 h6 iha ihb =>
    rw [NormalizeComparisons.eq_7 O op a b h1 h2 h3 h4 h5 h6]
    simp [eval, iha, ihb]
  | case8 a ih =>
    rw [NormalizeComparisons]
    simp [eval, ih]
  | case9 c t f ihc iht ihf =>
    rw [NormalizeComparisons]
    simp [eval, ihc, iht, ihf]
  | case10 c t f ihc iht ihf =>
    rw [NormalizeComparisons]
    simp [eval, ihc, iht, ihf]
  | case11 a ih =>
    rw [NormalizeComparisons]
    simp [eval, ih]
  | case12 e h1 h2 h3 h4 h5 h6 h7 h8 h9 h10 h11 =>
    cases e with
    | IntImm v => rfl
    | BoolImm b => rfl
    | Var v => rfl
    | Bin op a b => exact (h7 op a b rfl).elim
    | Not a => exact (h8 a rfl).elim
    | Select c t f => exact (h9 c t f rfl).elim
    | IfThenElse c t f => exact (h10 c t f rfl).elim
    | Cast a => exact (h11 a rfl).elim

/-- Every output of NormalizeComparisons is normalized: a top-level LE
or EQ has the zero constant on the right. -/
theorem normShape_normalize (O : Oracles) (e : Expr) :
    normShape (NormalizeComparisons O e) = true := by
  cases e with
  | Bin op a b => cases op <;> simp [NormalizeComparisons, normShape]
  | IntImm v => rfl
  | BoolImm b => rfl
  | Var v => rfl
  | Not a => rfl
  | Select c t f => rfl
  | IfThenElse c t f => rfl
  | Cast a => rfl

/-- Splitting a conjunction along a filter partition. -/
theorem conjList_filter_partition (σ : Nat → Int) (s : List Expr) (p : Expr → Bool) :
    conjList σ s ↔
      conjList σ (s.filter p) ∧ conjList σ (s.filter (fun e => !(p e))) := by
  unfold conjList
  constructor
  · intro h
    exact ⟨fun e he => h e (List.mem_of_mem_filter he),
           fun e he => h e (List.mem_of_mem_filter he)⟩
  · rintro ⟨h1, h2⟩ e he
    by_cases hp : p e
    · exact h1 e (List.mem_filter.mpr ⟨he, hp⟩)
    · exact h2 e (List.mem_filter.mpr ⟨he, by simp [hp]⟩)

/-- Sorted-position insertion only adds the new element. -/
theorem addInsertPos_subset (n : Expr) (l r : List Expr) :
    ∀ z ∈ addInsertPos n l r, z ∈ l ∨ z ∈ r ∨ z = n := by
  intro z hz
  unfold addInsertPos at hz
  split at hz
  · rcases List.mem_append.mp hz with h1 | h1
    · exact Or.inl h1
    · exact Or.inr (Or.inl h1)
  · rcases List.mem_append.mp hz with h1 | h1
    · exact Or.inl h1
    · rcases List.mem_cons.mp h1 with h2 | h2
      · exact Or.inr (Or.inr h2)
      · exact Or.inr (Or.inl h2)

/-- The conjunction over a sorted-position insertion. -/
theorem addInsertPos_conj (σ : Nat → Int) (n : Expr) (l r : List Expr) :
    conjList σ (addInsertPos n l r) ↔
      (eval σ n ≠ 0 ∧ conjList σ l ∧ conjList σ r) := by
  unfold addInsertPos
  split
  · rename_i h
    rw [conjList_append]
    have hn : n ∈ r := List.mem_of_mem_head? (by simp [h])
    constructor
    · rintro ⟨hl, hr⟩
      exact ⟨hr n hn, hl, hr⟩
    · rintro ⟨_, hl, hr⟩
      exact ⟨hl, hr⟩
  · rw [conjList_append, conjList_cons]
    tauto

/-- The neighbor check only removes elements or adds the new one. -/
theorem addCheckNext_subset (O : Oracles) (R : VMap Rng) (n na : Expr)
    (l r : List Expr) :
    ∀ z ∈ addCheckNext O R n na l r, z ∈ l ∨ z ∈ r ∨ z = n := by
  intro z hz
  unfold addCheckNext at hz
  split at hz
  · split at hz
    · rcases List.mem_append.mp hz with h1 | h1
      · exact Or.inl h1
      · exact Or.inr (Or.inl h1)
    · split at hz
      · rcases addInsertPos_subset n l _ z hz with h1 | h1 | h1
        · exact Or.inl h1
        · exact Or.inr (Or.inl (List.drop_subset 1 r h1))
        · exact Or.inr (Or.inr h1)
      · exact addInsertPos_subset n l r z hz
  · exact addInsertPos_subset n l r z hz

/-- The conjunction over the neighbor check: the result holds exactly
when the new inequality, the left part and the right part all hold. -/
theorem addCheckNext_conj (O : Oracles) (R : VMap Rng) (hS : SimpSound O)
    (σ : Nat → Int) (hσ : satisfies σ R) (na : Expr) (l r : List Expr)
    (hr : ∀ e ∈ r, normShape e = true) :
    conjList σ (addCheckNext O R (.Bin .ble na (.IntImm 0)) na l r) ↔
      (eval σ (Expr.Bin .ble na (.IntImm 0)) ≠ 0 ∧ conjList σ l ∧ conjList σ r) := by
  have hble : ∀ x : Expr, eval σ (Expr.Bin .ble x (.IntImm 0)) ≠ 0 ↔ eval σ x ≤ 0 :=
    fun x => by rw [eval_ble_ne]; rfl
  unfold addCheckNext
  split
  · rename_i ka kb heq
    obtain ⟨tail, htail⟩ : ∃ t, r = (Expr.Bin .ble ka kb) :: t := by
      cases r with
      | nil => simp at heq
      | cons x xs => exact ⟨xs, by rw [List.head?_cons] at heq; injection heq with h2; rw [h2]⟩
    have hkb : kb = .IntImm 0 := by
      have := hr _ (htail ▸ List.mem_cons_self _ tail)
      simpa [normShape] using this
    subst hkb
    subst htail
    split
    · rename_i h1
      rw [conjList_append]
      have hle : eval σ na ≤ eval σ ka := by
        have := canProve_le O hS _ _ R σ hσ h1
        simp [eval, evalBin] at this
        omega
      constructor
      · rintro ⟨hl, hrr⟩
        refine ⟨?_, hl, hrr⟩
        have hk := (hble ka).mp (hrr _ (List.mem_cons_self _ tail))
        rw [hble]
        omega
      · rintro ⟨_, hl, hrr⟩
        exact ⟨hl, hrr⟩
    · split
      · rename_i h1 h2
        rw [addInsertPos_conj]
        have hle : eval σ ka ≤ eval σ na := by
          have := canProve_le O hS _ _ R σ hσ h2
          simp [eval, evalBin] at this
          omega
        simp only [List.drop_succ_cons, List.drop_zero, conjList_cons]
        constructor
        · rintro ⟨hn, hl, ht⟩
          refine ⟨hn, hl, ?_, ht⟩
          have := (hble na).mp hn
          rw [hble]
          omega
        · rintro ⟨hn, hl, _, ht⟩
          exact ⟨hn, hl, ht⟩
      · rw [addInsertPos_conj]
  · rw [addInsertPos_conj]

/-- add_to_new_current only removes elements or adds the new one. -/
theorem addToNewCurrent_subset (O : Oracles) (R : VMap Rng) (n : Expr)
    (s : List Expr) :
    ∀ z ∈ addToNewCurrent O R n s, z ∈ s ∨ z = n := by
  intro z hz
  unfold addToNewCurrent at hz
  split at hz
  · exact Or.inl hz
  · split at hz
    · split at hz
      · split at hz
        · exact Or.inl hz
        · split at hz
          · rcases addCheckNext_subset _ _ _ _ _ _ z hz with h1 | h1 | h1
            · exact Or.inl (List.mem_of_mem_filter (List.dropLast_subset _ h1))
            · exact Or.inl (List.mem_of_mem_filter h1)
            · exact Or.inr h1
          · rcases addCheckNext_subset _ _ _ _ _ _ z hz with h1 | h1 | h1
            · exact Or.inl (List.mem_of_mem_filter h1)
            · exact Or.inl (List.mem_of_mem_filter h1)
            · exact Or.inr h1
      · rcases addCheckNext_subset _ _ _ _ _ _ z hz with h1 | h1 | h1
        · exact Or.inl (List.mem_of_mem_filter h1)
        · exact Or.inl (List.mem_of_mem_filter h1)
        · exact Or.inr h1
    · split at hz
      · exact Or.inl hz
      · rcases List.mem_append.mp hz with h1 | h1
        · exact Or.inl (List.mem_of_mem_filter h1)
        · rcases List.mem_cons.mp h1 with h2 | h2
          · exact Or.inr h2
          · exact Or.inl (List.mem_of_mem_filter h2)

/-- The conjunction over add_to_new_current: the result holds exactly
when the original set and the new inequality hold (assignments within
the ranges, normalized shapes). -/
theorem addToNewCurrent_conj (O : Oracles) (R : VMap Rng) (hS : SimpSound O)
    (σ : Nat → Int) (hσ : satisfies σ R) (n : Expr) (s : List Expr)
    (hn : normShape n = true) (hs : ∀ e ∈ s, normShape e = true) :
    conjList σ (addToNewCurrent O R n s) ↔ (eval σ n ≠ 0 ∧ conjList σ s) := by
  have hble : ∀ x : Expr, eval σ (Expr.Bin .ble x (.IntImm 0)) ≠ 0 ↔ eval σ x ≤ 0 :=
    fun x => by rw [eval_ble_ne]; rfl
  have hpart := conjList_filter_partition σ s (fun e => ExprLess e n)
  unfold addToNewCurrent
  split
  · rename_i h0
    have h1 := canProve_sound O hS n R σ hσ h0
    constructor
    · intro hc
      exact ⟨by rw [h1]; exact one_ne_zero, hc⟩
    · exact And.right
  · split
    · rename_i na nb hfalse
      have hnb : nb = .IntImm 0 := by simpa [normShape] using hn
      subst hnb
      have hrshape : ∀ e ∈ s.filter (fun e => !(ExprLess e (Expr.Bin .ble na (.IntImm 0)))),
          normShape e = true :=
        fun e he => hs e (List.mem_of_mem_filter he)
      split
      · rename_i la lb heq
        have hlmem : (Expr.Bin .ble la lb) ∈ s :=
          List.mem_of_mem_filter (List.mem_of_mem_getLast? heq)
        have hlb : lb = .IntImm 0 := by simpa [normShape] using hs _ hlmem
        subst hlb
        split
        · rename_i h1
          have hle : eval σ na ≤ eval σ la := by
            have := canProve_le O hS _ _ R σ hσ h1
            simp [eval, evalBin] at this
            omega
          constructor
          · intro hc
            refine ⟨?_, hc⟩
            have hk := (hble la).mp (hc _ hlmem)
            rw [hble]
            omega
          · exact And.right
        · split
          · rename_i h1 h2
            rw [addCheckNext_conj O R hS σ hσ na _ _ hrshape]
            have hge : eval σ la ≤ eval σ na := by
              have := canProve_le O hS _ _ R σ hσ h2
              simp [eval, evalBin] at this
              omega
            have hdecomp := List.dropLast_append_getLast? _ heq
            rw [hpart]
            constructor
            · rintro ⟨hn2, hl, hr2⟩
              refine ⟨hn2, ?_, hr2⟩
              rw [← hdecomp, conjList_append]
              refine ⟨hl, ?_⟩
              intro e he
              rcases List.mem_cons.mp he with h3 | h3
              · subst h3
                have := (hble na).mp hn2
                rw [hble]
                omega
              · cases h3
            · rintro ⟨hn2, hl, hr2⟩
              refine ⟨hn2, ?_, hr2⟩
              rw [← hdecomp, conjList_append] at hl
              exact hl.1
          · rename_i h1 h2
            rw [addCheckNext_conj O R hS σ hσ na _ _ hrshape, hpart]
      · rw [addCheckNext_conj O R hS σ hσ na _ _ hrshape, hpart]
    · split
      · rename_i hmem
        constructor
        · intro hc
          exact ⟨hc n hmem, hc⟩
        · exact And.right
      · rw [conjList_append, conjList_cons, hpart]
        tauto

/-- The absolute value of the C remainder is the Nat remainder of the
absolute values. -/
theorem natAbs_tmod (a b : Int) : (a.tmod b).natAbs = a.natAbs % b.natAbs := by
  rcases a with m | m <;> rcases b with n | n <;> simp [Int.tmod] <;> norm_cast

/-- The source Euclid loop computes the gcd on nonnegative inputs. -/
theorem gcdLoop_eq_gcd (a b : Int) :
    0 ≤ a → 0 ≤ b → gcdLoop a b = (Int.gcd a b : Int) := by
  induction a, b using gcdLoop.induct with
  | case1 a =>
    intro ha _
    rw [gcdLoop, if_pos rfl]
    simp [Int.gcd]
    exact (abs_of_nonneg ha).symm
  | case2 a b hb0 ih =>
    intro ha hb
    rw [gcdLoop, if_neg hb0]
    rw [ih hb (Int.tmod_nonneg b ha)]
    have h1 : Int.gcd b (a.tmod b) = Nat.gcd b.natAbs (a.natAbs % b.natAbs) := by
      unfold Int.gcd
      rw [natAbs_tmod]
    rw [h1, Nat.gcd_comm, ← Nat.gcd_rec, Nat.gcd_comm]
    rfl

/-- The source gcd computes the gcd on nonnegative inputs. -/
theorem gcdSrc_eq_gcd (a b : Int) (ha : 0 ≤ a) (hb : 0 ≤ b) :
    gcdSrc a b = (Int.gcd a b : Int) := by
  unfold gcdSrc
  split
  · rw [gcdLoop_eq_gcd b a hb ha, Int.gcd_comm]
  · exact gcdLoop_eq_gcd a b ha hb

theorem gcdSrc_pos (a b : Int) (ha : 0 < a) (hb : 0 < b) : 0 < gcdSrc a b := by
  rw [gcdSrc_eq_gcd a b ha.le hb.le]
  have h1 : Int.gcd a b ≠ 0 := fun h => by
    rcases Int.gcd_eq_zero_iff.mp h with ⟨rfl, _⟩
    exact absurd ha (lt_irrefl 0)
  omega

theorem gcdSrc_dvd_left (a b : Int) (ha : 0 ≤ a) (hb : 0 ≤ b) : gcdSrc a b ∣ a := by
  rw [gcdSrc_eq_gcd a b ha hb]
  exact Int.gcd_dvd_left

theorem gcdSrc_dvd_right (a b : Int) (ha : 0 ≤ a) (hb : 0 ≤ b) : gcdSrc a b ∣ b := by
  rw [gcdSrc_eq_gcd a b ha hb]
  exact Int.gcd_dvd_right

/-- The source lcm computes the lcm on positive inputs. -/
theorem lcmSrc_eq_lcm (L x : Int) (hL : 0 < L) (hx : 0 < x) :
    lcmSrc L x = (Int.lcm L x : Int) := by
  unfold lcmSrc
  rw [gcdSrc_eq_gcd L x hL.le hx.le]
  have hdvd : (Int.gcd L x : Int) ∣ L * x := Dvd.dvd.mul_right Int.gcd_dvd_left x
  have hcan := Int.tdiv_mul_cancel hdvd
  have hgl := Int.gcd_mul_lcm L x
  have hg0 : (Int.gcd L x : Int) ≠ 0 := by
    have h1 : Int.gcd L x ≠ 0 := fun h => by
      rcases Int.gcd_eq_zero_iff.mp h with ⟨rfl, _⟩
      exact absurd hL (lt_irrefl 0)
    omega
  have hnat : ((L * x).natAbs : Int) = L * x := by
    have := mul_pos hL hx
    omega
  apply mul_left_cancel₀ hg0
  rw [mul_comm ((Int.gcd L x : Int)) _, hcan]
  have : ((Int.gcd L x : Int)) * ((Int.lcm L x : Int)) = ((L * x).natAbs : Int) := by
    rw [← hgl]
    push_cast
    ring
  rw [this, hnat]

/-- Positivity and the two divisibilities of the source lcm. -/
theorem lcmSrc_facts (L x : Int) (hL : 0 < L) (hx : 0 < x) :
    0 < lcmSrc L x ∧ L ∣ lcmSrc L x ∧ x ∣ lcmSrc L x := by
  rw [lcmSrc_eq_lcm L x hL hx]
  refine ⟨?_, Int.dvd_lcm_left, Int.dvd_lcm_right⟩
  have h1 : L.natAbs ≠ 0 := by omega
  have h2 : x.natAbs ≠ 0 := by omega
  have h3 : Nat.lcm L.natAbs x.natAbs ≠ 0 := Nat.lcm_ne_zero h1 h2
  have : Int.lcm L x = Nat.lcm L.natAbs x.natAbs := rfl
  omega

/-- Folding the source lcm over positive values yields a positive common
multiple of the start value and all entries. -/
theorem lcmFold_facts {α : Type} (f : α → Int) (l : List α) (init : Int)
    (hinit : 0 < init) (hl : ∀ x ∈ l, 0 < f x) :
    0 < l.foldl (fun acc x => lcmSrc acc (f x)) init ∧
    init ∣ l.foldl (fun acc x => lcmSrc acc (f x)) init ∧
    ∀ x ∈ l, f x ∣ l.foldl (fun acc x => lcmSrc acc (f x)) init := by
  induction l generalizing init with
  | nil =>
    refine ⟨hinit, dvd_refl _, ?_⟩
    intro x hx
    cases hx
  | cons y ys ih =>
    simp only [List.foldl_cons]
    have hy := hl y (List.mem_cons_self y ys)
    obtain ⟨hstep, hd1, hd2⟩ := lcmSrc_facts init (f y) hinit hy
    obtain ⟨hp, hd, hall⟩ := ih (lcmSrc init (f y)) hstep
      (fun x hx => hl x (List.mem_cons_of_mem y hx))
    refine ⟨hp, dvd_trans hd1 hd, ?_⟩
    intro x hx
    rcases List.mem_cons.mp hx with h | h
    · rw [h]
      exact dvd_trans hd2 hd
    · exact hall x h

/-- The scaled sum of a positive and a negative inequality is nonpositive
(the variable cancels). -/
theorem combine_arith (P N x ep en : Int) (hP : 0 < P) (hN : N < 0)
    (h1 : P * x + ep ≤ 0) (h2 : N * x + en ≤ 0) :
    (P.tdiv (gcdSrc P (-N))) * en - (N.tdiv (gcdSrc P (-N))) * ep ≤ 0 := by
  have hgpos : 0 < gcdSrc P (-N) := gcdSrc_pos P (-N) hP (by omega)
  have hdP : gcdSrc P (-N) ∣ P := gcdSrc_dvd_left P (-N) hP.le (by omega)
  have hdN : gcdSrc P (-N) ∣ N := (Int.dvd_neg).mp (gcdSrc_dvd_right P (-N) hP.le (by omega))
  obtain ⟨q, hq⟩ := hdP
  obtain ⟨m, hm⟩ := hdN
  have hg0 : gcdSrc P (-N) ≠ 0 := by omega
  have htP : P.tdiv (gcdSrc P (-N)) = q := by
    nth_rewrite 1 [hq]
    rw [Int.mul_tdiv_cancel_left q hg0]
  have htN : N.tdiv (gcdSrc P (-N)) = m := by
    nth_rewrite 1 [hm]
    rw [Int.mul_tdiv_cancel_left m hg0]
  rw [htP, htN]
  have hqpos : 0 < q := by nlinarith
  have hmneg : m < 0 := by nlinarith
  have t1 : (-m) * (P * x + ep) ≤ 0 := mul_nonpos_of_nonneg_of_nonpos (by omega) h1
  have t2 : q * (N * x + en) ≤ 0 := mul_nonpos_of_nonneg_of_nonpos (by omega) h2
  rw [hq] at t1
  rw [hm] at t2
  nlinarith [t1, t2]

/-- A positive-coefficient inequality is equivalent to the derived upper
bound on the scaled variable. -/
theorem upper_bound_iff (L P x ep : Int) (hP : 0 < P) (hdvd : P ∣ L) (hL : 0 < L) :
    (P * x + ep ≤ 0) ↔ (L * x ≤ ((-L).tdiv P) * ep) := by
  obtain ⟨t, ht⟩ := hdvd
  have htpos : 0 < t := by nlinarith
  have hP0 : P ≠ 0 := by omega
  have hdivL : (-L).tdiv P = -t := by
    rw [ht, show -(P * t) = P * (-t) by ring, Int.mul_tdiv_cancel_left (-t) hP0]
  rw [hdivL, ht]
  constructor
  · intro h
    have h2 := mul_nonpos_of_nonneg_of_nonpos htpos.le h
    nlinarith [h2]
  · intro h
    have h2 : t * (P * x + ep) ≤ 0 := by nlinarith
    by_contra hcon
    push_neg at hcon
    nlinarith [h2, htpos, hcon]

/-- A negative-coefficient inequality is equivalent to the derived lower
bound on the scaled variable. -/
theorem lower_bound_iff (L N x en : Int) (hN : N < 0) (hdvd : (-N) ∣ L) (hL : 0 < L) :
    (N * x + en ≤ 0) ↔ (((-L).tdiv N) * en ≤ L * x) := by
  obtain ⟨t, ht⟩ := hdvd
  have htpos : 0 < t := by nlinarith
  have hN0 : N ≠ 0 := by omega
  have hdivL : (-L).tdiv N = t := by
    rw [ht, show -(-N * t) = N * t by ring, Int.mul_tdiv_cancel_left t hN0]
  rw [hdivL, ht]
  constructor
  · intro h
    have h2 := mul_nonpos_of_nonneg_of_nonpos htpos.le h
    nlinarith [h2]
  · intro h
    have h2 : t * (N * x + en) ≤ 0 := by nlinarith
    by_contra hcon
    push_neg at hcon
    nlinarith [h2, htpos, hcon]

/-- Truth of a coefficient-list entry (c, e): the formula c*v + e <= 0
it stands for. -/
def entryHolds (σ : Nat → Int) (v : Nat) (p : Int × Expr) : Prop :=
  p.1 * σ v + eval σ p.2 ≤ 0

/-- Truth of a classification state: the future current set, both
coefficient lists and the leftover formulas all hold. -/
def stateInv (σ : Nat → Int) (v : Nat) (s : IneqState) : Prop :=
  conjList σ s.nc ∧ (∀ p ∈ s.pos, entryHolds σ v p) ∧
  (∀ p ∈ s.neg, entryHolds σ v p) ∧ conjList σ s.rest

/-- Structural invariant of a classification state: normalized shapes in
the current set, positive coefficients in pos, negative in neg. -/
def stateWf (s : IneqState) : Prop :=
  (∀ e ∈ s.nc, normShape e = true) ∧ (∀ p ∈ s.pos, 0 < p.1) ∧ (∀ p ∈ s.neg, p.1 < 0)

theorem stateInv_addRest (σ : Nat → Int) (v : Nat) (s : IneqState) (e : Expr) :
    stateInv σ v { s with rest := s.rest ++ [e] } ↔
      (eval σ e ≠ 0 ∧ stateInv σ v s) := by
  unfold stateInv
  rw [conjList_append]
  have : conjList σ [e] ↔ eval σ e ≠ 0 := by
    unfold conjList
    simp
  rw [this]
  tauto

/-- Classification preserves the structural invariant. -/
theorem classifyIneq_wf (O : Oracles) (R : VMap Rng) (v : Nat) (s : IneqState)
    (ineq : Expr) (hwf : stateWf s) (hn : normShape ineq = true) :
    stateWf (classifyIneq O R v s ineq) := by
  obtain ⟨h1, h2, h3⟩ := hwf
  have haddnc : ∀ e2 ∈ addToNewCurrent O R ineq s.nc, normShape e2 = true := by
    intro e2 he2
    rcases addToNewCurrent_subset O R ineq s.nc e2 he2 with h | h
    · exact h1 e2 h
    · rw [h]
      exact hn
  unfold classifyIneq
  split
  · split
    · split
      · split
        · exact ⟨haddnc, h2, h3⟩
        · split
          · rename_i hc0 hpos
            refine ⟨h1, ?_, h3⟩
            intro p hp
            rcases List.mem_append.mp hp with h | h
            · exact h2 p h
            · rw [List.mem_singleton.mp h]
              exact hpos
          · rename_i hc0 hpos
            refine ⟨h1, h2, ?_⟩
            intro p hp
            rcases List.mem_append.mp hp with h | h
            · exact h3 p h
            · rw [List.mem_singleton.mp h]
              simp only
              omega
      · exact ⟨h1, h2, h3⟩
    · exact ⟨h1, h2, h3⟩
  · split
    · split
      · split
        · exact ⟨haddnc, h2, h3⟩
        · split
          · rename_i hc0 hpos
            refine ⟨h1, ?_, ?_⟩
            · intro p hp
              rcases List.mem_append.mp hp with h | h
              · exact h2 p h
              · rw [List.mem_singleton.mp h]
                exact hpos
            · intro p hp
              rcases List.mem_append.mp hp with h | h
              · exact h3 p h
              · rw [List.mem_singleton.mp h]
                simp only
                omega
          · rename_i hc0 hpos
            refine ⟨h1, ?_, ?_⟩
            · intro p hp
              rcases List.mem_append.mp hp with h | h
              · exact h2 p h
              · rw [List.mem_singleton.mp h]
                simp only
                omega
            · intro p hp
              rcases List.mem_append.mp hp with h | h
              · exact h3 p h
              · rw [List.mem_singleton.mp h]
                omega
      · exact ⟨h1, h2, h3⟩
    · exact ⟨h1, h2, h3⟩
  · exact ⟨h1, h2, h3⟩

theorem forall_entry_append (σ : Nat → Int) (v : Nat) (l : List (Int × Expr))
    (p : Int × Expr) :
    (∀ q ∈ l ++ [p], entryHolds σ v q) ↔
      ((∀ q ∈ l, entryHolds σ v q) ∧ entryHolds σ v p) := by
  rw [List.forall_mem_append]
  simp

/-- Classification of one formula preserves the conjunction: the new
state holds exactly when the formula and the old state hold. -/
theorem classifyIneq_conj (O : Oracles) (R : VMap Rng) (hS : SimpSound O)
    (hD : DetectSound O) (σ : Nat → Int) (hσ : satisfies σ R) (v : Nat)
    (s : IneqState) (ineq : Expr) (hwf : stateWf s) (hn : normShape ineq = true) :
    stateInv σ v (classifyIneq O R v s ineq) ↔
      (eval σ ineq ≠ 0 ∧ stateInv σ v s) := by
  obtain ⟨h1, h2, h3⟩ := hwf
  unfold classifyIneq
  split
  · rename_i a nb
    have hnb : nb = .IntImm 0 := by simpa [normShape] using hn
    subst hnb
    split
    · rename_i c0e c1 hdet
      split
      · rename_i c0
        have hlin := (hD _ _ _ hdet).2.1 σ
        have hevala : eval σ a = c0 * σ v + eval σ c1 := by
          simpa [linComb, eval] using hlin
        have hiff : eval σ (Expr.Bin .ble a (.IntImm 0)) ≠ 0 ↔
            entryHolds σ v (c0, c1) := by
          rw [eval_ble_ne]
          unfold entryHolds
          simp only [eval]
          omega
        split
        · unfold stateInv
          simp only
          rw [addToNewCurrent_conj O R hS σ hσ _ _ hn h1]
          tauto
        · split
          · unfold stateInv
            simp only
            rw [forall_entry_append, hiff]
            tauto
          · unfold stateInv
            simp only
            rw [forall_entry_append]
            have hiff2 : eval σ (Expr.Bin .ble a (.IntImm 0)) ≠ 0 ↔
                entryHolds σ v (c0, c1) := hiff
            rw [hiff2]
            tauto
      · exact stateInv_addRest σ v s _
    · exact stateInv_addRest σ v s _
  · rename_i a nb
    have hnb : nb = .IntImm 0 := by simpa [normShape] using hn
    subst hnb
    split
    · rename_i c0e c1 hdet
      split
      · rename_i c0
        have hlin := (hD _ _ _ hdet).2.1 σ
        have hevala : eval σ a = c0 * σ v + eval σ c1 := by
          simpa [linComb, eval] using hlin
        have hsplit : eval σ (Expr.Bin .beq a (.IntImm 0)) ≠ 0 ↔
            (entryHolds σ v (c0, c1) ∧
             entryHolds σ v (-c0, .Bin .sub (.IntImm 0) c1)) := by
          rw [eval_beq_ne]
          unfold entryHolds
          simp only [eval, evalBin, hevala]
          constructor
          · intro h
            constructor <;> nlinarith [h]
          · rintro ⟨ha1, ha2⟩
            nlinarith [ha1, ha2]
        split
        · unfold stateInv
          simp only
          rw [addToNewCurrent_conj O R hS σ hσ _ _ hn h1]
          tauto
        · split
          · unfold stateInv
            simp only
            rw [forall_entry_append, forall_entry_append, hsplit]
            tauto
          · unfold stateInv
            simp only
            rw [forall_entry_append, forall_entry_append]
            have hsplit2 : eval σ (Expr.Bin .beq a (.IntImm 0)) ≠ 0 ↔
                (entryHolds σ v (-c0, .Bin .sub (.IntImm 0) c1) ∧
                 entryHolds σ v (c0, c1)) := by
              rw [hsplit]
              tauto
            rw [hsplit2]
            tauto
      · exact stateInv_addRest σ v s _
    · exact stateInv_addRest σ v s _
  · exact stateInv_addRest σ v s _

/-- Classification of a formula list: folding preserves the conjunction
and the structural invariant. -/
theorem classifyFold_wf (O : Oracles) (R : VMap Rng) (v : Nat)
    (cur : List Expr) (s : IneqState) (hwf : stateWf s)
    (hcur : ∀ e ∈ cur, normShape e = true) :
    stateWf (cur.foldl (classifyIneq O R v) s) := by
  induction cur generalizing s with
  | nil => exact hwf
  | cons e es ih =>
    rw [List.foldl_cons]
    exact ih _ (classifyIneq_wf O R v s e hwf (hcur e (List.mem_cons_self e es)))
      (fun x hx => hcur x (List.mem_cons_of_mem e hx))

theorem classifyFold_conj (O : Oracles) (R : VMap Rng) (hS : SimpSound O)
    (hD : DetectSound O) (σ : Nat → Int) (hσ : satisfies σ R) (v : Nat)
    (cur : List Expr) (s : IneqState) (hwf : stateWf s)
    (hcur : ∀ e ∈ cur, normShape e = true) :
    stateInv σ v (cur.foldl (classifyIneq O R v) s) ↔
      (conjList σ cur ∧ stateInv σ v s) := by
  induction cur generalizing s with
  | nil =>
    have : conjList σ [] := conjList_nil σ
    tauto
  | cons e es ih =>
    rw [List.foldl_cons,
      ih _ (classifyIneq_wf O R v s e hwf (hcur e (List.mem_cons_self e es)))
        (fun x hx => hcur x (List.mem_cons_of_mem e hx)),
      classifyIneq_conj O R hS hD σ hσ v s e hwf (hcur e (List.mem_cons_self e es)),
      conjList_cons]
    tauto

/-- A provable x - y <= 0 gives the value inequality. -/
theorem canProve_sub_le (O : Oracles) (hS : SimpSound O) (R : VMap Rng)
    (σ : Nat → Int) (hσ : satisfies σ R) (x y : Expr)
    (h : CanProve O (.Bin .ble (.Bin .sub x y) (.IntImm 0)) R = true) :
    eval σ x ≤ eval σ y := by
  have h1 := canProve_le O hS _ _ R σ hσ h
  simp [eval, evalBin] at h1
  omega

/-- A provable x - y >= 0 gives the value inequality. -/
theorem canProve_sub_ge (O : Oracles) (hS : SimpSound O) (R : VMap Rng)
    (σ : Nat → Int) (hσ : satisfies σ R) (x y : Expr)
    (h : CanProve O (.Bin .bge (.Bin .sub x y) (.IntImm 0)) R = true) :
    eval σ y ≤ eval σ x := by
  have h1 := canProve_ge O hS _ _ R σ hσ h
  simp [eval, evalBin] at h1
  omega

/-- A combination of a true positive and a true negative inequality is
true. -/
theorem combineIneq_true (O : Oracles) (R : VMap Rng) (hS : SimpSound O)
    (σ : Nat → Int) (hσ : satisfies σ R) (v : Nat) (p n : Int × Expr)
    (hp : 0 < p.1) (hn : n.1 < 0) (hep : entryHolds σ v p) (hen : entryHolds σ v n) :
    eval σ (combineIneq O R p n) ≠ 0 := by
  have h := combine_arith p.1 n.1 (σ v) (eval σ p.2) (eval σ n.2) hp hn hep hen
  show eval σ (NormalizeComparisons O (O.simp
    (.Bin .ble (.Bin .sub (.Bin .mul (.IntImm (p.1.tdiv (gcdSrc p.1 (-n.1)))) n.2)
      (.Bin .mul (.IntImm (n.1.tdiv (gcdSrc p.1 (-n.1)))) p.2)) (.IntImm 0)) R)) ≠ 0
  rw [normalize_comparisons_eval O hS σ, hS _ R σ hσ, eval_ble_ne]
  simp only [eval, evalBin]
  omega

/-- The combination has normalized shape. -/
theorem combineIneq_shape (O : Oracles) (R : VMap Rng) (p n : Int × Expr) :
    normShape (combineIneq O R p n) = true :=
  normShape_normalize O _

/-- add_to_new_current keeps all members normalized. -/
theorem addToNewCurrent_shapes (O : Oracles) (R : VMap Rng) (n : Expr)
    (s : List Expr) (hn : normShape n = true)
    (hs : ∀ e ∈ s, normShape e = true) :
    ∀ e ∈ addToNewCurrent O R n s, normShape e = true := by
  intro e he
  rcases addToNewCurrent_subset O R n s e he with h | h
  · exact hs e h
  · rw [h]
    exact hn

/-- Adding the combinations of one positive entry with all negative
entries preserves the conjunction and the shapes. -/
theorem combineFoldInner (O : Oracles) (R : VMap Rng) (hS : SimpSound O)
    (σ : Nat → Int) (hσ : satisfies σ R) (v : Nat) (p : Int × Expr)
    (hp : 0 < p.1) (hpH : entryHolds σ v p) (neg : List (Int × Expr)) :
    ∀ acc : List Expr, (∀ n ∈ neg, n.1 < 0) → (∀ n ∈ neg, entryHolds σ v n) →
    (∀ e ∈ acc, normShape e = true) →
    (∀ e ∈ neg.foldl (fun acc2 n => addToNewCurrent O R (combineIneq O R p n) acc2) acc,
      normShape e = true) ∧
    (conjList σ
        (neg.foldl (fun acc2 n => addToNewCurrent O R (combineIneq O R p n) acc2) acc)
      ↔ conjList σ acc) := by
  induction neg with
  | nil =>
    intro acc _ _ hacc
    exact ⟨hacc, Iff.rfl⟩
  | cons n ns ih =>
    intro acc hneg hnegH hacc
    simp only [List.foldl_cons]
    have hcomb := combineIneq_true O R hS σ hσ v p n hp
      (hneg n (List.mem_cons_self n ns)) hpH (hnegH n (List.mem_cons_self n ns))
    have hsh := combineIneq_shape O R p n
    have hacc2 := addToNewCurrent_shapes O R _ acc hsh hacc
    obtain ⟨hshapes, hiff⟩ := ih _ (fun x hx => hneg x (List.mem_cons_of_mem n hx))
      (fun x hx => hnegH x (List.mem_cons_of_mem n hx)) hacc2
    refine ⟨hshapes, ?_⟩
    rw [hiff, addToNewCurrent_conj O R hS σ hσ _ _ hsh hacc]
    simp [hcomb]

/-- Adding all positive/negative combinations preserves the conjunction
and the shapes. -/
theorem combineFold (O : Oracles) (R : VMap Rng) (hS : SimpSound O)
    (σ : Nat → Int) (hσ : satisfies σ R) (v : Nat)
    (neg : List (Int × Expr)) (hneg : ∀ n ∈ neg, n.1 < 0)
    (hnegH : ∀ n ∈ neg, entryHolds σ v n) (pos : List (Int × Expr)) :
    ∀ nc : List Expr, (∀ p ∈ pos, 0 < p.1) → (∀ p ∈ pos, entryHolds σ v p) →
    (∀ e ∈ nc, normShape e = true) →
    (∀ e ∈ pos.foldl (fun acc p =>
        neg.foldl (fun acc2 n => addToNewCurrent O R (combineIneq O R p n) acc2) acc) nc,
      normShape e = true) ∧
    (conjList σ (pos.foldl (fun acc p =>
        neg.foldl (fun acc2 n => addToNewCurrent O R (combineIneq O R p n) acc2) acc) nc)
      ↔ conjList σ nc) := by
  induction pos with
  | nil =>
    intro nc _ _ hnc
    exact ⟨hnc, Iff.rfl⟩
  | cons p ps ih =>
    intro nc hpos hposH hnc
    simp only [List.foldl_cons]
    obtain ⟨hshapes1, hiff1⟩ := combineFoldInner O R hS σ hσ v p
      (hpos p (List.mem_cons_self p ps)) (hposH p (List.mem_cons_self p ps))
      neg nc hneg hnegH hnc
    obtain ⟨hshapes2, hiff2⟩ := ih _ (fun x hx => hpos x (List.mem_cons_of_mem p hx))
      (fun x hx => hposH x (List.mem_cons_of_mem p hx)) hshapes1
    exact ⟨hshapes2, hiff2.trans hiff1⟩

/-- Elements of the pruned upper-bound list stay above W when the added
bound and the previous elements do. -/
theorem addUpperBound_sound (O : Oracles) (R : VMap Rng) (σ : Nat → Int)
    (W : Int) (bound : Expr) (bs : List Expr) (hb : W ≤ eval σ bound)
    (hbs : ∀ o ∈ bs, W ≤ eval σ o) :
    ∀ o ∈ addUpperBound O R bound bs, W ≤ eval σ o := by
  intro o ho
  unfold addUpperBound at ho
  split at ho
  · exact hbs o ho
  · rcases List.mem_append.mp ho with h | h
    · exact hbs o (List.mem_of_mem_filter h)
    · rw [List.mem_singleton.mp h]
      exact hb

/-- An existing witness below a value survives upper-bound pruning. -/
theorem addUpperBound_witness (O : Oracles) (R : VMap Rng) (hS : SimpSound O)
    (σ : Nat → Int) (hσ : satisfies σ R) (bound : Expr) (bs : List Expr)
    (Vq : Int) (h : ∃ o ∈ bs, eval σ o ≤ Vq) :
    ∃ o ∈ addUpperBound O R bound bs, eval σ o ≤ Vq := by
  obtain ⟨o, ho, hov⟩ := h
  unfold addUpperBound
  split
  · exact ⟨o, ho, hov⟩
  · by_cases hkeep : CanProve O (.Bin .bge (.Bin .sub o bound) (.IntImm 0)) R = true
    · refine ⟨bound, List.mem_append.mpr (Or.inr (List.mem_singleton_self _)), ?_⟩
      have := canProve_sub_ge O hS R σ hσ o bound hkeep
      omega
    · exact ⟨o, List.mem_append.mpr (Or.inl (List.mem_filter.mpr ⟨ho, by simp [hkeep]⟩)),
        hov⟩

/-- After upper-bound pruning some element is at most the added bound. -/
theorem addUpperBound_self (O : Oracles) (R : VMap Rng) (hS : SimpSound O)
    (σ : Nat → Int) (hσ : satisfies σ R) (bound : Expr) (bs : List Expr) :
    ∃ o ∈ addUpperBound O R bound bs, eval σ o ≤ eval σ bound := by
  unfold addUpperBound
  split
  · rename_i hany
    rw [List.any_eq_true] at hany
    obtain ⟨o, ho, hcp⟩ := hany
    exact ⟨o, ho, canProve_sub_le O hS R σ hσ o bound hcp⟩
  · exact ⟨bound, List.mem_append.mpr (Or.inr (List.mem_singleton_self _)), le_refl _⟩

/-- Elements of the pruned lower-bound list stay below W when the added
bound and the previous elements do. -/
theorem addLowerBound_sound (O : Oracles) (R : VMap Rng) (σ : Nat → Int)
    (W : Int) (bound : Expr) (bs : List Expr) (hb : eval σ bound ≤ W)
    (hbs : ∀ o ∈ bs, eval σ o ≤ W) :
    ∀ o ∈ addLowerBound O R bound bs, eval σ o ≤ W := by
  intro o ho
  unfold addLowerBound at ho
  split at ho
  · exact hbs o ho
  · rcases List.mem_append.mp ho with h | h
    · exact hbs o (List.mem_of_mem_filter h)
    · rw [List.mem_singleton.mp h]
      exact hb

/-- An existing witness above a value survives lower-bound pruning. -/
theorem addLowerBound_witness (O : Oracles) (R : VMap Rng) (hS : SimpSound O)
    (σ : Nat → Int) (hσ : satisfies σ R) (bound : Expr) (bs : List Expr)
    (Vq : Int) (h : ∃ o ∈ bs, Vq ≤ eval σ o) :
    ∃ o ∈ addLowerBound O R bound bs, Vq ≤ eval σ o := by
  obtain ⟨o, ho, hov⟩ := h
  unfold addLowerBound
  split
  · exact ⟨o, ho, hov⟩
  · by_cases hkeep : CanProve O (.Bin .ble (.Bin .sub o bound) (.IntImm 0)) R = true
    · refine ⟨bound, List.mem_append.mpr (Or.inr (List.mem_singleton_self _)), ?_⟩
      have := canProve_sub_le O hS R σ hσ o bound hkeep
      omega
    · exact ⟨o, List.mem_append.mpr (Or.inl (List.mem_filter.mpr ⟨ho, by simp [hkeep]⟩)),
        hov⟩

/-- After lower-bound pruning some element is at least the added bound. -/
theorem addLowerBound_self (O : Oracles) (R : VMap Rng) (hS : SimpSound O)
    (σ : Nat → Int) (hσ : satisfies σ R) (bound : Expr) (bs : List Expr) :
    ∃ o ∈ addLowerBound O R bound bs, eval σ bound ≤ eval σ o := by
  unfold addLowerBound
  split
  · rename_i hany
    rw [List.any_eq_true] at hany
    obtain ⟨o, ho, hcp⟩ := hany
    exact ⟨o, ho, canProve_sub_ge O hS R σ hσ o bound hcp⟩
  · exact ⟨bound, List.mem_append.mpr (Or.inr (List.mem_singleton_self _)), le_refl _⟩

/-- The upper-bound accumulation loop: the final list is sound for W
when every entry bound is, witnesses survive, and every processed entry
has a witness in the final list. -/
theorem upperFold (O : Oracles) (R : VMap Rng) (hS : SimpSound O)
    (σ : Nat → Int) (hσ : satisfies σ R) (bnd : Int × Expr → Expr) (W : Int)
    (ps : List (Int × Expr)) :
    ∀ bs0 : List Expr,
    ((∀ p ∈ ps, W ≤ eval σ (bnd p)) → (∀ o ∈ bs0, W ≤ eval σ o) →
      ∀ o ∈ ps.foldl (fun bs p => addUpperBound O R (bnd p) bs) bs0, W ≤ eval σ o) ∧
    (∀ Vq : Int, (∃ o ∈ bs0, eval σ o ≤ Vq) →
      ∃ o ∈ ps.foldl (fun bs p => addUpperBound O R (bnd p) bs) bs0, eval σ o ≤ Vq) ∧
    (∀ p ∈ ps, ∃ o ∈ ps.foldl (fun bs p => addUpperBound O R (bnd p) bs) bs0,
      eval σ o ≤ eval σ (bnd p)) := by
  induction ps with
  | nil =>
    intro bs0
    refine ⟨fun _ h => h, fun Vq h => h, ?_⟩
    intro p hp
    cases hp
  | cons p ps ih =>
    intro bs0
    obtain ⟨ihs, ihw, ihp⟩ := ih (addUpperBound O R (bnd p) bs0)
    simp only [List.foldl_cons]
    refine ⟨?_, ?_, ?_⟩
    · intro hall hbs0
      exact ihs (fun q hq => hall q (List.mem_cons_of_mem p hq))
        (addUpperBound_sound O R σ W (bnd p) bs0 (hall p (List.mem_cons_self p ps)) hbs0)
    · intro Vq hex
      exact ihw Vq (addUpperBound_witness O R hS σ hσ (bnd p) bs0 Vq hex)
    · intro q hq
      rcases List.mem_cons.mp hq with h | h
      · rw [h]
        exact ihw _ (addUpperBound_self O R hS σ hσ (bnd p) bs0)
      · exact ihp q h

/-- The lower-bound accumulation loop, mirror image. -/
theorem lowerFold (O : Oracles) (R : VMap Rng) (hS : SimpSound O)
    (σ : Nat → Int) (hσ : satisfies σ R) (bnd : Int × Expr → Expr) (W : Int)
    (ps : List (Int × Expr)) :
    ∀ bs0 : List Expr,
    ((∀ p ∈ ps, eval σ (bnd p) ≤ W) → (∀ o ∈ bs0, eval σ o ≤ W) →
      ∀ o ∈ ps.foldl (fun bs p => addLowerBound O R (bnd p) bs) bs0, eval σ o ≤ W) ∧
    (∀ Vq : Int, (∃ o ∈ bs0, Vq ≤ eval σ o) →
      ∃ o ∈ ps.foldl (fun bs p => addLowerBound O R (bnd p) bs) bs0, Vq ≤ eval σ o) ∧
    (∀ p ∈ ps, ∃ o ∈ ps.foldl (fun bs p => addLowerBound O R (bnd p) bs) bs0,
      eval σ (bnd p) ≤ eval σ o) := by
  induction ps with
  | nil =>
    intro bs0
    refine ⟨fun _ h => h, fun Vq h => h, ?_⟩
    intro p hp
    cases hp
  | cons p ps ih =>
    intro bs0
    obtain ⟨ihs, ihw, ihp⟩ := ih (addLowerBound O R (bnd p) bs0)
    simp only [List.foldl_cons]
    refine ⟨?_, ?_, ?_⟩
    · intro hall hbs0
      exact ihs (fun q hq => hall q (List.mem_cons_of_mem p hq))
        (addLowerBound_sound O R σ W (bnd p) bs0 (hall p (List.mem_cons_self p ps)) hbs0)
    · intro Vq hex
      exact ihw Vq (addLowerBound_witness O R hS σ hσ (bnd p) bs0 Vq hex)
    · intro q hq
      rcases List.mem_cons.mp hq with h | h
      · rw [h]
        exact ihw _ (addLowerBound_self O R hS σ hσ (bnd p) bs0)
      · exact ihp q h

/-- sort-and-unique preserves the members. -/
theorem mem_sortDedup (l : List Expr) : ∀ z, z ∈ sortDedup l ↔ z ∈ l := by
  have haux : ∀ (l2 : List Expr) (acc : List Expr) (z : Expr),
      z ∈ l2.foldl (fun acc e => setUnion acc [e]) acc ↔ (z ∈ acc ∨ z ∈ l2) := by
    intro l2
    induction l2 with
    | nil =>
      intro acc z
      simp
    | cons e es ih =>
      intro acc z
      rw [List.foldl_cons, ih]
      constructor
      · rintro (h | h)
        · rcases mem_setUnion acc [e] z h with h2 | h2
          · exact Or.inl h2
          · exact Or.inr (List.mem_cons.mpr (Or.inl (List.mem_singleton.mp h2)))
        · exact Or.inr (List.mem_cons_of_mem e h)
      · rintro (h | h)
        · exact Or.inl (setUnion_mem_of_mem acc [e] z (Or.inl h))
        · rcases List.mem_cons.mp h with h2 | h2
          · refine Or.inl (setUnion_mem_of_mem acc [e] z (Or.inr ?_))
            rw [h2]
            exact List.mem_singleton_self e
          · exact Or.inr h2
  intro z
  unfold sortDedup
  rw [haux l [] z]
  simp

/-- The equal/lower/upper split of the bound lists is equivalent to the
two bound lists: the scaled variable equals every common bound, is at
least every remaining lower bound and at most every remaining upper
bound, exactly when it is bounded by all upper and lower bounds. -/
theorem bounds_split (σ : Nat → Int) (W : Int) (ubs lbs : List Expr) :
    ((∀ b ∈ setInter ubs lbs, W = eval σ b) ∧
     (∀ b ∈ setDiff lbs (setInter ubs lbs), eval σ b ≤ W) ∧
     (∀ b ∈ setDiff ubs (setInter ubs lbs), W ≤ eval σ b)) ↔
    ((∀ b ∈ ubs, W ≤ eval σ b) ∧ (∀ b ∈ lbs, eval σ b ≤ W)) := by
  constructor
  · rintro ⟨heq, hlo, hup⟩
    constructor
    · intro b hb
      rcases setDiff_cover ubs (setInter ubs lbs) b hb with h | h
      · exact hup b h
      · rw [heq b h]
    · intro b hb
      rcases setDiff_cover lbs (setInter ubs lbs) b hb with h | h
      · exact hlo b h
      · rw [heq b h]
  · rintro ⟨hub, hlb⟩
    refine ⟨?_, ?_, ?_⟩
    · intro b hb
      have h1 := hub b (setInter_sublist ubs lbs |>.mem hb)
      have h2 := hlb b (mem_setInter_right ubs lbs b hb)
      omega
    · intro b hb
      exact hlb b (setDiff_sublist lbs (setInter ubs lbs) |>.mem hb)
    · intro b hb
      exact hub b (setDiff_sublist ubs (setInter ubs lbs) |>.mem hb)

/-- The conditions a variable's recorded bounds stand for in order:
coef*v == e for the equalities, coef*v >= e for the lower bounds,
coef*v <= e for the upper bounds (the per-variable block of
as_conditions). -/
def varBoundConds (v : Nat) (b : VarBounds) : List Expr :=
  (b.equal.map (fun rhs => Expr.Bin .beq (.Bin .mul b.coef (.Var v)) rhs) ++
   b.lower.map (fun rhs => Expr.Bin .bge (.Bin .mul b.coef (.Var v)) rhs)) ++
   b.upper.map (fun rhs => Expr.Bin .ble (.Bin .mul b.coef (.Var v)) rhs)

theorem varBoundConds_iff (σ : Nat → Int) (v : Nat) (L : Int)
    (lo eq up : List Expr) :
    conjList σ (varBoundConds v ⟨.IntImm L, lo, eq, up⟩) ↔
      ((∀ b ∈ eq, L * σ v = eval σ b) ∧ (∀ b ∈ lo, eval σ b ≤ L * σ v) ∧
       (∀ b ∈ up, L * σ v ≤ eval σ b)) := by
  unfold varBoundConds
  rw [conjList_append, conjList_append]
  unfold conjList
  constructor
  · rintro ⟨⟨h1, h2⟩, h3⟩
    refine ⟨?_, ?_, ?_⟩
    · intro b hb
      have := h1 _ (List.mem_map.mpr ⟨b, hb, rfl⟩)
      rw [eval_beq_ne] at this
      simpa [eval, evalBin] using this
    · intro b hb
      have := h2 _ (List.mem_map.mpr ⟨b, hb, rfl⟩)
      rw [eval_bge_ne] at this
      simpa [eval, evalBin] using this
    · intro b hb
      have := h3 _ (List.mem_map.mpr ⟨b, hb, rfl⟩)
      rw [eval_ble_ne] at this
      simpa [eval, evalBin] using this
  · rintro ⟨h1, h2, h3⟩
    refine ⟨⟨?_, ?_⟩, ?_⟩
    · intro e he
      obtain ⟨b, hb, rfl⟩ := List.mem_map.mp he
      rw [eval_beq_ne]
      simpa [eval, evalBin] using h1 b hb
    · intro e he
      obtain ⟨b, hb, rfl⟩ := List.mem_map.mp he
      rw [eval_bge_ne]
      simpa [eval, evalBin] using h2 b hb
    · intro e he
      obtain ⟨b, hb, rfl⟩ := List.mem_map.mp he
      rw [eval_ble_ne]
      simpa [eval, evalBin] using h3 b hb

/-- The seed state satisfies the structural invariant. -/
theorem rangeSeed_wf (O : Oracles) (R : VMap Rng) (v : Nat) (rest : List Expr) :
    stateWf (rangeSeed O R v rest) := by
  unfold rangeSeed stateWf
  split
  · refine ⟨?_, ?_, ?_⟩
    · intro e he
      cases he
    · intro p hp
      rw [List.mem_singleton.mp hp]
      norm_num
    · intro p hp
      rw [List.mem_singleton.mp hp]
      norm_num
  · refine ⟨?_, ?_, ?_⟩
    · intro e he
      cases he
    · intro p hp
      cases hp
    · intro p hp
      cases hp

/-- The seed state holds exactly when the leftover formulas do: its
range-derived entries are true on every assignment within the ranges. -/
theorem rangeSeed_inv (O : Oracles) (R : VMap Rng) (hS : SimpSound O)
    (σ : Nat → Int) (hσ : satisfies σ R) (v : Nat) (rest : List Expr) :
    stateInv σ v (rangeSeed O R v rest) ↔ conjList σ rest := by
  unfold rangeSeed stateInv
  split
  · rename_i range heq
    have hr := hσ v range heq
    constructor
    · rintro ⟨_, _, _, h4⟩
      exact h4
    · intro h4
      refine ⟨conjList_nil σ, ?_, ?_, h4⟩
      · intro p hp
        rw [List.mem_singleton.mp hp]
        unfold entryHolds
        simp only [eval, evalBin, hS _ R σ hσ]
        omega
      · intro p hp
        rw [List.mem_singleton.mp hp]
        unfold entryHolds
        simp only [eval, evalBin, hS _ R σ hσ]
        omega
  · constructor
    · rintro ⟨_, _, _, h4⟩
      exact h4
    · intro h4
      refine ⟨conjList_nil σ, ?_, ?_, h4⟩
      · intro p hp
        cases hp
      · intro p hp
        cases hp

/-- The common multiplier is positive and divisible by every positive
coefficient and every negated negative one. -/
theorem coefLcm_facts (s : IneqState) (hwf : stateWf s) :
    0 < coefLcm s ∧ (∀ p ∈ s.pos, p.1 ∣ coefLcm s) ∧
    (∀ n ∈ s.neg, -n.1 ∣ coefLcm s) := by
  obtain ⟨_, h2, h3⟩ := hwf
  unfold coefLcm
  obtain ⟨hp1, hp2, hp3⟩ := lcmFold_facts (fun p => p.1) s.pos 1 one_pos h2
  obtain ⟨hn1, hn2, hn3⟩ := lcmFold_facts (fun n => -n.1) s.neg
    (s.pos.foldl (fun l p => lcmSrc l p.1) 1) hp1
    (fun n hn => by have := h3 n hn; show 0 < -n.1; omega)
  exact ⟨hn1, fun p hp => dvd_trans (hp3 p hp) hn2, hn3⟩

/-- The value of a generated bound expression. -/
theorem boundExpr_eval (O : Oracles) (R : VMap Rng) (hS : SimpSound O)
    (σ : Nat → Int) (hσ : satisfies σ R) (L : Int) (p : Int × Expr) :
    eval σ (boundExpr O R L p) = ((-L).tdiv p.1) * eval σ p.2 := by
  unfold boundExpr
  rw [hS _ R σ hσ]
  simp [eval, evalBin]

/-- A positive entry holds exactly when the scaled variable is at most
the generated bound. -/
theorem entry_upper_iff (O : Oracles) (R : VMap Rng) (hS : SimpSound O)
    (σ : Nat → Int) (hσ : satisfies σ R) (L : Int) (v : Nat) (p : Int × Expr)
    (hp : 0 < p.1) (hdvd : p.1 ∣ L) (hL : 0 < L) :
    entryHolds σ v p ↔ L * σ v ≤ eval σ (boundExpr O R L p) := by
  rw [boundExpr_eval O R hS σ hσ L p]
  exact upper_bound_iff L p.1 (σ v) (eval σ p.2) hp hdvd hL

/-- A negative entry holds exactly when the scaled variable is at least
the generated bound. -/
theorem entry_lower_iff (O : Oracles) (R : VMap Rng) (hS : SimpSound O)
    (σ : Nat → Int) (hσ : satisfies σ R) (L : Int) (v : Nat) (n : Int × Expr)
    (hn : n.1 < 0) (hdvd : -n.1 ∣ L) (hL : 0 < L) :
    entryHolds σ v n ↔ eval σ (boundExpr O R L n) ≤ L * σ v := by
  rw [boundExpr_eval O R hS σ hσ L n]
  exact lower_bound_iff L n.1 (σ v) (eval σ n.2) hn hdvd hL

/-- Combinations keep the current set normalized (no truth hypotheses
needed). -/
theorem combineFoldInner_shapes (O : Oracles) (R : VMap Rng) (p : Int × Expr)
    (neg : List (Int × Expr)) :
    ∀ acc : List Expr, (∀ e ∈ acc, normShape e = true) →
    ∀ e ∈ neg.foldl (fun acc2 n => addToNewCurrent O R (combineIneq O R p n) acc2) acc,
      normShape e = true := by
  induction neg with
  | nil => exact fun acc hacc => hacc
  | cons n ns ih =>
    intro acc hacc
    simp only [List.foldl_cons]
    exact ih _ (addToNewCurrent_shapes O R _ acc (combineIneq_shape O R p n) hacc)

theorem combineFold_shapes (O : Oracles) (R : VMap Rng)
    (neg : List (Int × Expr)) (pos : List (Int × Expr)) :
    ∀ nc : List Expr, (∀ e ∈ nc, normShape e = true) →
    ∀ e ∈ pos.foldl (fun acc p =>
        neg.foldl (fun acc2 n => addToNewCurrent O R (combineIneq O R p n) acc2) acc) nc,
      normShape e = true := by
  induction pos with
  | nil => exact fun nc hnc => hnc
  | cons p ps ih =>
    intro nc hnc
    simp only [List.foldl_cons]
    exact ih _ (combineFoldInner_shapes O R p neg nc hnc)

/-- One variable-elimination step preserves the conjunction: the new
current set, the recorded bounds of the variable and the new leftover
formulas hold together exactly when the old current set and leftovers
do; the new current set stays normalized. -/
theorem solveIneqStep_conj (O : Oracles) (R : VMap Rng) (hS : SimpSound O)
    (hD : DetectSound O) (σ : Nat → Int) (hσ : satisfies σ R) (v : Nat)
    (current rest : List Expr) (hcur : ∀ e ∈ current, normShape e = true) :
    (∀ e ∈ (solveIneqStep O R v current rest).1, normShape e = true) ∧
    ((conjList σ (solveIneqStep O R v current rest).1 ∧
      conjList σ (varBoundConds v (solveIneqStep O R v current rest).2.2) ∧
      conjList σ (solveIneqStep O R v current rest).2.1) ↔
     (conjList σ current ∧ conjList σ rest)) := by
  have hwf1 : stateWf (current.foldl (classifyIneq O R v) (rangeSeed O R v rest)) :=
    classifyFold_wf O R v current (rangeSeed O R v rest) (rangeSeed_wf O R v rest) hcur
  simp only [solveIneqStep]
  set s1 := current.foldl (classifyIneq O R v) (rangeSeed O R v rest) with hs1
  obtain ⟨hL, hdvP, hdvN⟩ := coefLcm_facts s1 hwf1
  obtain ⟨hnc1, hposc, hnegc⟩ := hwf1
  refine ⟨combineFold_shapes O R s1.neg s1.pos s1.nc hnc1, ?_⟩
  constructor
  · rintro ⟨hnc2, hbnd, hrest⟩
    rw [varBoundConds_iff] at hbnd
    obtain ⟨hub, hlb⟩ := (bounds_split σ (coefLcm s1 * σ v) _ _).mp hbnd
    have hposH : ∀ p ∈ s1.pos, entryHolds σ v p := by
      intro p hp
      obtain ⟨o, ho, hole⟩ := (upperFold O R hS σ hσ (boundExpr O R (coefLcm s1))
        (coefLcm s1 * σ v) s1.pos []).2.2 p hp
      have hWo : coefLcm s1 * σ v ≤ eval σ o := hub o ((mem_sortDedup _ o).mpr ho)
      rw [entry_upper_iff O R hS σ hσ (coefLcm s1) v p (hposc p hp) (hdvP p hp) hL]
      omega
    have hnegH : ∀ n ∈ s1.neg, entryHolds σ v n := by
      intro n hn
      obtain ⟨o, ho, hole⟩ := (lowerFold O R hS σ hσ (boundExpr O R (coefLcm s1))
        (coefLcm s1 * σ v) s1.neg []).2.2 n hn
      have hWo : eval σ o ≤ coefLcm s1 * σ v := hlb o ((mem_sortDedup _ o).mpr ho)
      rw [entry_lower_iff O R hS σ hσ (coefLcm s1) v n (hnegc n hn) (hdvN n hn) hL]
      omega
    rw [(combineFold O R hS σ hσ v s1.neg hnegc hnegH s1.pos s1.nc hposc hposH hnc1).2]
      at hnc2
    have hfold := (classifyFold_conj O R hS hD σ hσ v current (rangeSeed O R v rest)
      (rangeSeed_wf O R v rest) hcur)
    rw [← hs1] at hfold
    obtain ⟨hc, hseed⟩ := hfold.mp ⟨hnc2, hposH, hnegH, hrest⟩
    exact ⟨hc, (rangeSeed_inv O R hS σ hσ v rest).mp hseed⟩
  · rintro ⟨hc, hr⟩
    have hfold := (classifyFold_conj O R hS hD σ hσ v current (rangeSeed O R v rest)
      (rangeSeed_wf O R v rest) hcur)
    rw [← hs1] at hfold
    obtain ⟨hnc1T, hposH, hnegH, hrestT⟩ :=
      hfold.mpr ⟨hc, (rangeSeed_inv O R hS σ hσ v rest).mpr hr⟩
    refine ⟨?_, ?_, hrestT⟩
    · exact (combineFold O R hS σ hσ v s1.neg hnegc hnegH s1.pos
        s1.nc hposc hposH hnc1).2.mpr hnc1T
    · rw [varBoundConds_iff]
      refine (bounds_split σ (coefLcm s1 * σ v) _ _).mpr ⟨?_, ?_⟩
      · intro b hb
        refine (upperFold O R hS σ hσ (boundExpr O R (coefLcm s1))
          (coefLcm s1 * σ v) s1.pos []).1 ?_ ?_ b ((mem_sortDedup _ b).mp hb)
        · intro p hp
          exact (entry_upper_iff O R hS σ hσ (coefLcm s1) v p (hposc p hp)
            (hdvP p hp) hL).mp (hposH p hp)
        · intro o ho
          cases ho
      · intro b hb
        refine (lowerFold O R hS σ hσ (boundExpr O R (coefLcm s1))
          (coefLcm s1 * σ v) s1.neg []).1 ?_ ?_ b ((mem_sortDedup _ b).mp hb)
        · intro n hn
          exact (entry_lower_iff O R hS σ hσ (coefLcm s1) v n (hnegc n hn)
            (hdvN n hn) hL).mp (hnegH n hn)
        · intro o ho
          cases ho

/-- The input-normalization fold: the produced set is normalized and
holds exactly when all inputs (and the accumulator) do. -/
theorem initFold_conj (O : Oracles) (R : VMap Rng) (hS : SimpSound O)
    (σ : Nat → Int) (hσ : satisfies σ R) (ineqs : List Expr) :
    ∀ nc : List Expr, (∀ e ∈ nc, normShape e = true) →
    (∀ e ∈ ineqs.foldl
        (fun nc i => addToNewCurrent O R (NormalizeComparisons O (O.simp i R)) nc) nc,
      normShape e = true) ∧
    (conjList σ (ineqs.foldl
        (fun nc i => addToNewCurrent O R (NormalizeComparisons O (O.simp i R)) nc) nc)
      ↔ (conjList σ ineqs ∧ conjList σ nc)) := by
  induction ineqs with
  | nil =>
    intro nc hnc
    refine ⟨hnc, ?_⟩
    have := conjList_nil σ
    tauto
  | cons i is ih =>
    intro nc hnc
    simp only [List.foldl_cons]
    have hsh : normShape (NormalizeComparisons O (O.simp i R)) = true :=
      normShape_normalize O _
    obtain ⟨hshapes, hiff⟩ := ih _ (addToNewCurrent_shapes O R _ nc hsh hnc)
    refine ⟨hshapes, ?_⟩
    rw [hiff, addToNewCurrent_conj O R hS σ hσ _ _ hsh hnc, conjList_cons,
      normalize_comparisons_eval O hS σ, hS _ R σ hσ]
    tauto

/-- The variable-elimination loop: the final current set, leftovers and
recorded per-variable bounds together hold exactly when the initial
current set and leftovers do; every processed variable is bound in the
final map, unprocessed keys are untouched. -/
theorem solveIneqVarsLoop_conj (O : Oracles) (R : VMap Rng) (hS : SimpSound O)
    (hD : DetectSound O) (σ : Nat → Int) (hσ : satisfies σ R) (vs : List Nat) :
    ∀ (current rest : List Expr) (bnds : VMap VarBounds),
    (∀ e ∈ current, normShape e = true) → vs.Nodup →
    ((conjList σ (solveIneqVarsLoop O R vs current rest bnds).1 ∧
      conjList σ (solveIneqVarsLoop O R vs current rest bnds).2.1 ∧
      (∀ v ∈ vs, ∀ b, lookupVar (solveIneqVarsLoop O R vs current rest bnds).2.2 v =
          some b → conjList σ (varBoundConds v b)))
      ↔ (conjList σ current ∧ conjList σ rest)) ∧
    (∀ v, v ∉ vs →
      lookupVar (solveIneqVarsLoop O R vs current rest bnds).2.2 v = lookupVar bnds v) := by
  induction vs with
  | nil =>
    intro current rest bnds hcur hnd
    refine ⟨?_, fun v _ => rfl⟩
    unfold solveIneqVarsLoop
    simp only
    constructor
    · rintro ⟨h1, h2, _⟩
      exact ⟨h1, h2⟩
    · rintro ⟨h1, h2⟩
      refine ⟨h1, h2, ?_⟩
      intro v hv
      cases hv
  | cons v vs ih =>
    intro current rest bnds hcur hnd
    have hnd2 := (List.nodup_cons.mp hnd).2
    have hvnotin := (List.nodup_cons.mp hnd).1
    obtain ⟨hshapes, hstep⟩ := solveIneqStep_conj O R hS hD σ hσ v current rest hcur
    show _ ∧ _
    have hloop := ih (solveIneqStep O R v current rest).1
      (solveIneqStep O R v current rest).2.1
      (mapSet v (solveIneqStep O R v current rest).2.2 bnds) hshapes hnd2
    obtain ⟨hiff, hkeys⟩ := hloop
    have hlookv : lookupVar (solveIneqVarsLoop O R vs
        (solveIneqStep O R v current rest).1 (solveIneqStep O R v current rest).2.1
        (mapSet v (solveIneqStep O R v current rest).2.2 bnds)).2.2 v =
        some (solveIneqStep O R v current rest).2.2 := by
      rw [hkeys v hvnotin, lookupVar_mapSet, if_pos rfl]
    constructor
    · show (conjList σ (solveIneqVarsLoop O R vs _ _ _).1 ∧
        conjList σ (solveIneqVarsLoop O R vs _ _ _).2.1 ∧ _) ↔ _
      constructor
      · rintro ⟨h1, h2, h3⟩
        have hblocksv : conjList σ (varBoundConds v (solveIneqStep O R v current rest).2.2) :=
          h3 v (List.mem_cons_self v vs) _ hlookv
        have hblocks : ∀ w ∈ vs, ∀ b, lookupVar (solveIneqVarsLoop O R vs
            (solveIneqStep O R v current rest).1 (solveIneqStep O R v current rest).2.1
            (mapSet v (solveIneqStep O R v current rest).2.2 bnds)).2.2 w = some b →
            conjList σ (varBoundConds w b) :=
          fun w hw b hb => h3 w (List.mem_cons_of_mem v hw) b hb
        have := hiff.mp ⟨h1, h2, hblocks⟩
        exact hstep.mp ⟨this.1, hblocksv, this.2⟩
      · intro hcr
        obtain ⟨hc1, hbv, hc2⟩ := hstep.mpr hcr
        obtain ⟨h1, h2, h3⟩ := hiff.mpr ⟨hc1, hc2⟩
        refine ⟨h1, h2, ?_⟩
        intro w hw b hb
        rw [show (solveIneqVarsLoop O R (v :: vs) current rest bnds).2.2 =
          (solveIneqVarsLoop O R vs (solveIneqStep O R v current rest).1
            (solveIneqStep O R v current rest).2.1
            (mapSet v (solveIneqStep O R v current rest).2.2 bnds)).2.2 from rfl] at hb
        rcases List.mem_cons.mp hw with h | h
        · rw [h] at hb ⊢
          rw [hlookv] at hb
          injection hb with hb2
          rw [← hb2]
          exact hbv
        · exact h3 w h b hb
    · intro w hw
      have hw1 : w ≠ v := fun h => hw (h ▸ List.mem_cons_self v vs)
      have hw2 : w ∉ vs := fun h => hw (List.mem_cons_of_mem v h)
      show lookupVar (solveIneqVarsLoop O R vs (solveIneqStep O R v current rest).1
        (solveIneqStep O R v current rest).2.1
        (mapSet v (solveIneqStep O R v current rest).2.2 bnds)).2.2 w = lookupVar bnds w
      rw [hkeys w hw2, lookupVar_mapSet, if_neg hw1]

/-- The conjunction of as_conditions splits into the per-variable bound
blocks and the other conditions. -/
theorem as_conditions_conj (σ : Nat → Int) (res : SolveSystemOfInequalitiesResult) :
    conjList σ res.as_conditions ↔
      ((∀ v ∈ res.vars, ∀ b, lookupVar res.bounds v = some b →
         conjList σ (varBoundConds v b)) ∧ conjList σ res.other_conditions) := by
  unfold SolveSystemOfInequalitiesResult.as_conditions
  rw [conjList_append]
  have haux : ∀ (vs2 : List Nat) (acc : List Expr),
      conjList σ (vs2.foldl (fun acc v =>
        match lookupVar res.bounds v with
        | some bnds =>
          ((acc ++ bnds.equal.map (fun rhs =>
              Expr.Bin .beq (.Bin .mul bnds.coef (.Var v)) rhs))
            ++ bnds.lower.map (fun rhs =>
              Expr.Bin .bge (.Bin .mul bnds.coef (.Var v)) rhs))
            ++ bnds.upper.map (fun rhs =>
              Expr.Bin .ble (.Bin .mul bnds.coef (.Var v)) rhs)
        | none => acc) acc) ↔
      (conjList σ acc ∧ ∀ v ∈ vs2, ∀ b, lookupVar res.bounds v = some b →
        conjList σ (varBoundConds v b)) := by
    intro vs2
    induction vs2 with
    | nil =>
      intro acc
      simp only [List.foldl_nil]
      constructor
      · intro h
        refine ⟨h, ?_⟩
        intro v hv
        cases hv
      · exact And.left
    | cons v vs2 ihv =>
      intro acc
      simp only [List.foldl_cons]
      cases hlook : lookupVar res.bounds v with
      | none =>
        rw [ihv acc]
        constructor
        · rintro ⟨h1, h2⟩
          refine ⟨h1, ?_⟩
          intro w hw b hb
          rcases List.mem_cons.mp hw with h | h
          · subst h
            rw [hlook] at hb
            cases hb
          · exact h2 w h b hb
        · rintro ⟨h1, h2⟩
          exact ⟨h1, fun w hw b hb => h2 w (List.mem_cons_of_mem v hw) b hb⟩
      | some bnds =>
        rw [ihv _]
        rw [conjList_append, conjList_append, conjList_append]
        have hvbc : conjList σ (varBoundConds v bnds) ↔
            (conjList σ (bnds.equal.map (fun rhs =>
              Expr.Bin .beq (.Bin .mul bnds.coef (.Var v)) rhs)) ∧
             conjList σ (bnds.lower.map (fun rhs =>
              Expr.Bin .bge (.Bin .mul bnds.coef (.Var v)) rhs)) ∧
             conjList σ (bnds.upper.map (fun rhs =>
              Expr.Bin .ble (.Bin .mul bnds.coef (.Var v)) rhs))) := by
          unfold varBoundConds
          rw [conjList_append, conjList_append]
          tauto
        constructor
        · rintro ⟨⟨⟨⟨h0, h1⟩, h2⟩, h3⟩, h4⟩
          refine ⟨h0, ?_⟩
          intro w hw b hb
          rcases List.mem_cons.mp hw with h | h
          · subst h
            rw [hlook] at hb
            injection hb with hb2
            subst hb2
            exact hvbc.mpr ⟨h1, h2, h3⟩
          · exact h4 w h b hb
        · rintro ⟨h0, hall⟩
          have hv := hall v (List.mem_cons_self v vs2) bnds hlook
          obtain ⟨h1, h2, h3⟩ := hvbc.mp hv
          exact ⟨⟨⟨⟨h0, h1⟩, h2⟩, h3⟩,
            fun w hw b hb => hall w (List.mem_cons_of_mem v hw) b hb⟩
  rw [haux res.vars []]
  have := conjList_nil σ
  tauto

/-- The final pass aborts exactly on a provably false leftover. -/
theorem finalCurrentConds_none (O : Oracles) (R : VMap Rng) (hS : SimpSound O)
    (σ : Nat → Int) (hσ : satisfies σ R) (l : List Expr)
    (h : finalCurrentConds O R l = none) : ¬ conjList σ l := by
  induction l with
  | nil => simp [finalCurrentConds] at h
  | cons e es ih =>
    simp only [finalCurrentConds] at h
    intro hcl
    rw [conjList_cons] at hcl
    by_cases h0 : isConstInt (O.simp e R) 0 = true
    · have h1 : eval σ e = 0 := by
        rw [← hS e R σ hσ]
        exact isConstInt_eval σ _ 0 h0
      exact hcl.1 h1
    · rw [if_neg (by simp [h0])] at h
      cases hrec : finalCurrentConds O R es with
      | none => exact ih hrec hcl.2
      | some cs =>
        rw [hrec] at h
        cases h

/-- The final pass keeps the simplified non-constant leftovers, whose
conjunction is that of the leftovers. -/
theorem finalCurrentConds_some (O : Oracles) (R : VMap Rng) (hS : SimpSound O)
    (σ : Nat → Int) (hσ : satisfies σ R) (l : List Expr) :
    ∀ cs, finalCurrentConds O R l = some cs → (conjList σ cs ↔ conjList σ l) := by
  induction l with
  | nil =>
    intro cs h
    simp only [finalCurrentConds] at h
    injection h with h2
    rw [← h2]
  | cons e es ih =>
    intro cs h
    simp only [finalCurrentConds] at h
    have hval : eval σ (O.simp e R) = eval σ e := hS e R σ hσ
    by_cases h0 : isConstInt (O.simp e R) 0 = true
    · rw [if_pos (by simp [h0])] at h
      cases h
    · rw [if_neg (by simp [h0])] at h
      cases hrec : finalCurrentConds O R es with
      | none =>
        rw [hrec] at h
        cases h
      | some cs2 =>
        rw [hrec] at h
        injection h with h2
        have hes := ih cs2 hrec
        rw [conjList_cons]
        by_cases h1 : isConstInt (O.simp e R) 1 = true
        · rw [if_pos (by simp [h1])] at h2
          rw [← h2, hes]
          have he : eval σ e = 1 := by
            rw [← hval]
            exact isConstInt_eval σ _ 1 h1
          constructor
          · intro hx
            exact ⟨by rw [he]; exact one_ne_zero, hx⟩
          · exact And.right
        · rw [if_neg (by simp [h1])] at h2
          rw [← h2, conjList_cons, hes, hval]

/-- C3: For every list of input inequalities, every duplicate-free
variable list and every range map, the conjunction of the conditions
returned by SolveSystemOfInequalities (the per-variable equal, lower
and upper bounds read as coef*v == e, coef*v >= e, coef*v <= e,
together with other_conditions, as produced by as_conditions) is
equivalent, on every integer assignment within the given ranges, to the
conjunction of the input inequalities; the base simplifier is assumed
semantics-preserving and the linear-equation detection sound. -/
theorem solve_inequalities_equiv (O : Oracles) (ineqs : List Expr)
    (vs : List Nat) (R : VMap Rng) (σ : Nat → Int) (hS : SimpSound O)
    (hD : DetectSound O) (hσ : satisfies σ R) (hnd : vs.Nodup) :
    (conjList σ (SolveSystemOfInequalities O ineqs vs R).as_conditions ↔
      conjList σ ineqs) := by
  rw [as_conditions_conj]
  simp only [SolveSystemOfInequalities]
  obtain ⟨hshape0, hinit⟩ := initFold_conj O R hS σ hσ ineqs [] (fun e he => by cases he)
  obtain ⟨hloop, hkeys⟩ := solveIneqVarsLoop_conj O R hS hD σ hσ vs
    (ineqs.foldl
      (fun nc i => addToNewCurrent O R (NormalizeComparisons O (O.simp i R)) nc) [])
    [] [] hshape0 hnd
  split
  · rename_i hfin
    have hnotcur := finalCurrentConds_none O R hS σ hσ _ hfin
    constructor
    · rintro ⟨_, hoc⟩
      have := hoc _ (List.mem_singleton_self (Expr.BoolImm false))
      simp [eval] at this
    · intro hineqs
      exfalso
      apply hnotcur
      exact (hloop.mpr ⟨hinit.mpr ⟨hineqs, conjList_nil σ⟩, conjList_nil σ⟩).1
  · rename_i cs hfin
    have hcs := finalCurrentConds_some O R hS σ hσ _ cs hfin
    rw [conjList_append, hcs]
    constructor
    · rintro ⟨hblocks, hfc, hfr⟩
      have := hloop.mp ⟨hfc, hfr, hblocks⟩
      exact (hinit.mp this.1).1
    · intro hineqs
      have hc0 := hinit.mpr ⟨hineqs, conjList_nil σ⟩
      obtain ⟨ha, hb2, hc⟩ := hloop.mpr ⟨hc0, conjList_nil σ⟩
      exact ⟨hc, ha, hb2⟩

/-- The theorem applied to a concrete input with the trivial oracles. -/
theorem solve_inequalities_equiv_witness :
    conjList (fun _ => 0)
        (SolveSystemOfInequalities trivOracles
          [.Bin .ble (.Var 0) (.IntImm 5)] [0] []).as_conditions ↔
      conjList (fun _ => 0) [.Bin .ble (.Var 0) (.IntImm 5)] :=
  solve_inequalities_equiv trivOracles [.Bin .ble (.Var 0) (.IntImm 5)] [0] []
    (fun _ => 0) trivOracles_simp_sound
    (fun e vs2 coefs h => Option.noConfusion h)
    (satisfies_nil (fun _ => 0)) (by decide)

/-- C10: For every boolean expression cond and variable set, the pair
(outer, inner) returned by ImplicationNotContainingVars satisfies that
cond is equivalent to outer AND inner on every assignment, and no
variable of the set occurs in outer. -/
theorem implication_not_containing_vars_sound (cond : Expr) (vars : List Nat)
    (σ : Nat → Int) :
    (eval σ cond ≠ 0 ↔
      (eval σ (ImplicationNotContainingVars cond vars).1 ≠ 0 ∧
       eval σ (ImplicationNotContainingVars cond vars).2 ≠ 0)) ∧
    ∀ v ∈ vars, occurs v (ImplicationNotContainingVars cond vars).1 = false :=
  ⟨(impl_ncv_parts cond vars).1 σ, (impl_ncv_parts cond vars).2⟩

end ZE
